import Mathlib

/-!
# The table-definition descriptor codec of `sql/datadict.cc`

A shallow embedding of `Extra2_info::read`, `Extra2_info::write` and
`dd_frm_type`, followed by the properties proved about them.

Conventions of the embedding.

* A byte (`uchar`) is a `Fin 256`; a buffer is a `List uchar`; a pointer into a
  buffer is the offset (`Nat`) it points at.
* A `LEX_CUSTRING` / `Lex_ident` member is modelled by the bytes it addresses:
  `none` is a null `str`, `some p` a non-null `str` with `length = p.length`.
* A byte read outside the buffer (undefined behaviour in the source) reads `0`.
* The enumerators of `extra2_frm_value_type`, `EXTRA2_ENGINE_IMPORTANT` and
  `frm_fieldno_size` are declared in headers; they are taken as a parameter
  (`Extra2Codes`).
-/

namespace Datadict

/-- One byte of a buffer. -/
abbrev uchar := Fin 256

/-- The byte at offset `i` of `image`, as a number. -/
def byteAt (image : List uchar) (i : Nat) : Nat := (image.getD i 0).val

/-- The `len` bytes of `image` starting at offset `pos`. -/
def slice (image : List uchar) (pos len : Nat) : List uchar := (image.drop pos).take len

/-- Modelled from the spec: the macro `uint2korr` (every multi-byte integer is
little-endian, fixed width): the 2-byte value at offset `i`. -/
def uint2korr (image : List uchar) (i : Nat) : Nat :=
  byteAt image i + 256 * byteAt image (i + 1)

/-- Modelled from the spec: the macro `uint4korr`, the 4-byte little-endian
value at offset `i`. -/
def uint4korr (image : List uchar) (i : Nat) : Nat :=
  byteAt image i + 256 * byteAt image (i + 1) + 65536 * byteAt image (i + 2)
    + 16777216 * byteAt image (i + 3)

/-- Modelled from the spec: the constant `FRM_HEADER_SIZE`; the segment payload
begins immediately after the fixed header, at offset 64 (`pos= frm_image + 64` in
`read`, `pos = frm_image + FRM_HEADER_SIZE` in `write`). -/
def FRM_HEADER_SIZE : Nat := 64

/-- The character `'/'` that an old frm has at offset 64. -/
def OLD_FRM_MARK : Nat := 47

/-- The constants of `extra2_frm_value_type` and `frm_fieldno_size`, which the
source uses but does not declare. -/
structure Extra2Codes where
  EXTRA2_TABLEDEF_VERSION : Nat
  EXTRA2_DEFAULT_PART_ENGINE : Nat
  EXTRA2_GIS : Nat
  EXTRA2_APPLICATION_TIME_PERIOD : Nat
  EXTRA2_PERIOD_FOR_SYSTEM_TIME : Nat
  EXTRA2_INDEX_FLAGS : Nat
  EXTRA2_ENGINE_IMPORTANT : Nat
  EXTRA2_ENGINE_TABLEOPTS : Nat
  EXTRA2_FIELD_FLAGS : Nat
  EXTRA2_FIELD_DATA_TYPE_INFO : Nat
  EXTRA2_PERIOD_WITHOUT_OVERLAPS : Nat
  frm_fieldno_size : Nat
  deriving DecidableEq, Repr

/-- The ten tag codes that the `switch` of `read` recognises, in the order of its
`case` labels. -/
def Extra2Codes.known (c : Extra2Codes) : List Nat :=
  [c.EXTRA2_TABLEDEF_VERSION, c.EXTRA2_ENGINE_TABLEOPTS, c.EXTRA2_DEFAULT_PART_ENGINE,
   c.EXTRA2_GIS, c.EXTRA2_PERIOD_FOR_SYSTEM_TIME, c.EXTRA2_FIELD_FLAGS,
   c.EXTRA2_APPLICATION_TIME_PERIOD, c.EXTRA2_FIELD_DATA_TYPE_INFO,
   c.EXTRA2_PERIOD_WITHOUT_OVERLAPS, c.EXTRA2_INDEX_FLAGS]

/-- What the source needs of the code table: the `case` labels of one `switch`
are pairwise distinct, every tag is stored in one byte (`*pos++` reads and
writes it), and no tag is the old-frm character (for the version tag this is
the `compile_time_assert(EXTRA2_TABLEDEF_VERSION != '/')` of `write`). -/
def Extra2Codes.valid (c : Extra2Codes) : Prop :=
  c.known.Nodup ∧ (∀ t ∈ c.known, t < 256) ∧ (∀ t ∈ c.known, t ≠ OLD_FRM_MARK)

instance (c : Extra2Codes) : Decidable c.valid := by
  unfold Extra2Codes.valid; infer_instance

/-- The code table of the on-disk format (the values of `unireg.h`), used for
concrete inputs only. -/
def frmCodes : Extra2Codes where
  EXTRA2_TABLEDEF_VERSION := 0
  EXTRA2_DEFAULT_PART_ENGINE := 1
  EXTRA2_GIS := 2
  EXTRA2_APPLICATION_TIME_PERIOD := 3
  EXTRA2_PERIOD_FOR_SYSTEM_TIME := 4
  EXTRA2_INDEX_FLAGS := 5
  EXTRA2_ENGINE_IMPORTANT := 128
  EXTRA2_ENGINE_TABLEOPTS := 128
  EXTRA2_FIELD_FLAGS := 129
  EXTRA2_FIELD_DATA_TYPE_INFO := 130
  EXTRA2_PERIOD_WITHOUT_OVERLAPS := 131
  frm_fieldno_size := 2

/-- The members of `struct Extra2_info` that `read` and `write` use. -/
structure Extra2_info where
  version : Option (List uchar) := none
  options : Option (List uchar) := none
  engine : Option (List uchar) := none
  gis : Option (List uchar) := none
  field_flags : Option (List uchar) := none
  system_period : Option (List uchar) := none
  application_period : Option (List uchar) := none
  field_data_type_info : Option (List uchar) := none
  without_overlaps : Option (List uchar) := none
  index_flags : Option (List uchar) := none
  read_size : Nat := 0
  write_size : Nat := 0
  deriving DecidableEq, Repr

/-- The metadata value with no field set. -/
def Extra2_info.empty : Extra2_info := {}

/-- The ten metadata fields of a value (all members but `read_size` and
`write_size`), in the order `write` emits them. -/
def Extra2_info.fields (info : Extra2_info) : List (Option (List uchar)) :=
  [info.version, info.engine, info.options, info.gis, info.field_data_type_info,
   info.index_flags, info.system_period, info.application_period,
   info.without_overlaps, info.field_flags]

/-- Modelled from the spec: the helper `extra2_read_len` (reader steps 2, 3, 4
and 6). Reads the length byte at `pos`; a nonzero byte is the record length; a
zero byte is followed by a 2-byte little-endian extended length, which must be
at least 256 and needs 2 bytes before the segment end; a record that would
extend past the segment end is an error. Returns the length (0 on error) and
the advanced position. -/
def extra2_read_len (image : List uchar) (pos e2end : Nat) : Nat × Nat :=
  let length := byteAt image pos
  let pos := pos + 1
  if length ≠ 0 then
    if e2end < pos + length then (0, pos) else (length, pos)
  else if e2end < pos + 2 then (0, pos)
  else
    let length := uint2korr image pos
    let pos := pos + 2
    if length < 256 then (0, pos)
    else if e2end < pos + length then (0, pos)
    else (length, pos)

/-- Modelled from the spec: the helper `read_once` (each field may be set at
most once): fails when the section is already set, otherwise sets it to the
`len` bytes at `pos`. Returns the failure flag and the section. -/
def read_once (sect : Option (List uchar)) (payload : List uchar) :
    Bool × Option (List uchar) :=
  match sect with
  | some s => (true, some s)
  | none => (false, some payload)

/-- The `case` labels of the `switch (type)` in `Extra2_info::read`; `other` is
its `default:`. -/
inductive Extra2Case
  | version
  | options
  | engine
  | gis
  | system_period
  | field_flags
  | application_period
  | field_data_type_info
  | without_overlaps
  | index_flags
  | other
  deriving DecidableEq, Repr

/-- The `case` label that the tag value `type` selects. -/
def Extra2Codes.case_of (c : Extra2Codes) (type : Nat) : Extra2Case :=
  if type = c.EXTRA2_TABLEDEF_VERSION then Extra2Case.version
  else if type = c.EXTRA2_ENGINE_TABLEOPTS then Extra2Case.options
  else if type = c.EXTRA2_DEFAULT_PART_ENGINE then Extra2Case.engine
  else if type = c.EXTRA2_GIS then Extra2Case.gis
  else if type = c.EXTRA2_PERIOD_FOR_SYSTEM_TIME then Extra2Case.system_period
  else if type = c.EXTRA2_FIELD_FLAGS then Extra2Case.field_flags
  else if type = c.EXTRA2_APPLICATION_TIME_PERIOD then Extra2Case.application_period
  else if type = c.EXTRA2_FIELD_DATA_TYPE_INFO then Extra2Case.field_data_type_info
  else if type = c.EXTRA2_PERIOD_WITHOUT_OVERLAPS then Extra2Case.without_overlaps
  else if type = c.EXTRA2_INDEX_FLAGS then Extra2Case.index_flags
  else Extra2Case.other

/-- The `switch (type)` of `Extra2_info::read` together with the `if (fail)`
that follows it, for a record of tag `type` whose `length` payload bytes are
`payload`. Returns `true` when `read` returns `true` at this record, and the
metadata as the record leaves it. -/
def read_switch (c : Extra2Codes) (type length : Nat) (payload : List uchar)
    (info : Extra2_info) : Bool × Extra2_info :=
  match c.case_of type with
  | Extra2Case.version =>
    match info.version with
    | some v => if length ≠ v.length then (true, info) else (false, info)
    | none => (false, { info with version := some payload })
  | Extra2Case.options =>
    let r := read_once info.options payload
    (r.1, { info with options := r.2 })
  | Extra2Case.engine =>
    (false, { info with engine := some payload })
  | Extra2Case.gis =>
    let r := read_once info.gis payload
    (r.1, { info with gis := r.2 })
  | Extra2Case.system_period =>
    let r := read_once info.system_period payload
    (r.1 || decide (length ≠ 2 * c.frm_fieldno_size), { info with system_period := r.2 })
  | Extra2Case.field_flags =>
    let r := read_once info.field_flags payload
    (r.1, { info with field_flags := r.2 })
  | Extra2Case.application_period =>
    let r := read_once info.application_period payload
    (r.1, { info with application_period := r.2 })
  | Extra2Case.field_data_type_info =>
    let r := read_once info.field_data_type_info payload
    (r.1, { info with field_data_type_info := r.2 })
  | Extra2Case.without_overlaps =>
    let r := read_once info.without_overlaps payload
    (r.1, { info with without_overlaps := r.2 })
  | Extra2Case.index_flags =>
    let r := read_once info.index_flags payload
    (r.1, { info with index_flags := r.2 })
  | Extra2Case.other =>
    /- abort frm parsing if it's an unknown but important extra2 value -/
    (decide (c.EXTRA2_ENGINE_IMPORTANT ≤ type), info)

/-- The `while (pos + 3 <= e2end)` loop of `Extra2_info::read` and the
`if (pos != e2end)` after it. The result is `read`'s return value (`true` is
failure) and the metadata; `none` only when `fuel` iterations did not suffice. -/
def read_loop (c : Extra2Codes) (image : List uchar) (e2end : Nat) :
    Nat → Nat → Extra2_info → Option (Bool × Extra2_info)
  | fuel, pos, info =>
    if pos + 3 ≤ e2end then
      match fuel with
      | 0 => none
      | fuel + 1 =>
        let type := byteAt image pos
        let r := extra2_read_len image (pos + 1) e2end
        let length := r.1
        let pos := r.2
        if length = 0 then some (true, info)
        else
          let s := read_switch c type length (slice image pos length) info
          if s.1 then some (true, s.2)
          else read_loop c image e2end fuel (pos + length) s.2
    else some (decide (pos ≠ e2end), info)

/-- The function `bool Extra2_info::read(const uchar *frm_image, size_t frm_size)`,
called on the metadata value `info`. Returns `some (true, _)` on failure and
`some (false, _)` on success, with the metadata after the call. The
`DBUG_ASSERT` before the last return is `Extra2_info.read_assert`; it does not
change what `read` returns. -/
def Extra2_info.read (c : Extra2Codes) (info : Extra2_info) (frm_image : List uchar)
    (frm_size : Nat) : Option (Bool × Extra2_info) :=
  let read_size := uint2korr frm_image 4
  let info := { info with read_size := read_size }
  if frm_size < FRM_HEADER_SIZE + read_size then some (true, info)
  else if byteAt frm_image 64 = OLD_FRM_MARK then some (false, info)
  else read_loop c frm_image (64 + read_size) (read_size + 1) 64 info

/-- The cast `(uchar) n`: the low 8 bits of `n`. -/
def toByte (n : Nat) : uchar := ⟨n % 256, Nat.mod_lt n (by decide)⟩

/-- Modelled from the spec: the record `extra2_write` emits for a field, that is
the tag byte, the length (a single byte if the length is below 256, else a zero
length byte followed by the 2-byte little-endian extended length) and the
payload bytes. -/
def extra2_record (type : Nat) (str : List uchar) : List uchar :=
  toByte type ::
    ((if str.length < 256 then [toByte str.length]
      else [0, toByte str.length, toByte (str.length / 256)]) ++ str)

/-- Stores `bytes` into `image` from offset `pos` on (the caller provides a
buffer that holds them: `pos + bytes.length ≤ image.length`). -/
def storeBytes (image : List uchar) (pos : Nat) (bytes : List uchar) : List uchar :=
  image.take pos ++ bytes ++ image.drop (pos + bytes.length)

/-- Modelled from the spec: the helper `extra2_write(pos, type, str)` (for each
field, writes tag byte, then length, then the payload bytes). Returns the
buffer and the advanced position. -/
def extra2_write (w : List uchar × Nat) (type : Nat) (str : List uchar) :
    List uchar × Nat :=
  (storeBytes w.1 w.2 (extra2_record type str), w.2 + (extra2_record type str).length)

/-- The statement `if (f.str) pos= extra2_write(pos, type, f);` of `write`. -/
def write_field (w : List uchar × Nat) (type : Nat) (f : Option (List uchar)) :
    List uchar × Nat :=
  match f with
  | some str => extra2_write w type str
  | none => w

/-- Modelled from the spec: `store_size(f)` of one member, the size its record
takes (0 when absent, else payload length + 2 below 256 and + 4 otherwise). -/
def store_size_of (f : Option (List uchar)) : Nat :=
  match f with
  | none => 0
  | some str => str.length + (if str.length < 256 then 2 else 4)

/-- Modelled from the spec: `Extra2_info::store_size()`, the size-predicting
function: a pure function of which fields are present and of their lengths. -/
def Extra2_info.store_size (info : Extra2_info) : Nat :=
  (info.fields.map store_size_of).sum

/-- The two `DBUG_ASSERT`s at the end of `write`, on the value of `write_size`
(checked in debug builds only). -/
def Extra2_info.write_asserts (info : Extra2_info) (write_size : Nat) : Prop :=
  write_size = info.store_size ∧ write_size ≤ 65535 - FRM_HEADER_SIZE - 4

instance (info : Extra2_info) (write_size : Nat) : Decidable (info.write_asserts write_size) := by
  unfold Extra2_info.write_asserts; infer_instance

/-- The `DBUG_ASSERT(store_size() == read_size)` before the last return of `read`,
on the metadata `read` leaves (checked in debug builds only). -/
def Extra2_info.read_assert (out : Extra2_info) : Prop :=
  out.store_size = out.read_size

instance (out : Extra2_info) : Decidable out.read_assert := by
  unfold Extra2_info.read_assert; infer_instance

/-- The function `uchar *Extra2_info::write(uchar *frm_image, size_t frm_size)`.
Returns the buffer after the call, the returned position (as an offset into the
buffer) and the metadata with `write_size` set. The `DBUG_ASSERT`s at its end are
`Extra2_info.write_asserts`; they do not change what `write` returns. -/
def Extra2_info.write (c : Extra2Codes) (info : Extra2_info) (frm_image : List uchar)
    (_frm_size : Nat) : List uchar × Nat × Extra2_info :=
  let w := (frm_image, FRM_HEADER_SIZE)
  let w := write_field w c.EXTRA2_TABLEDEF_VERSION info.version
  let w := write_field w c.EXTRA2_DEFAULT_PART_ENGINE info.engine
  let w := write_field w c.EXTRA2_ENGINE_TABLEOPTS info.options
  let w := write_field w c.EXTRA2_GIS info.gis
  let w := write_field w c.EXTRA2_FIELD_DATA_TYPE_INFO info.field_data_type_info
  let w := write_field w c.EXTRA2_INDEX_FLAGS info.index_flags
  let w := write_field w c.EXTRA2_PERIOD_FOR_SYSTEM_TIME info.system_period
  let w := write_field w c.EXTRA2_APPLICATION_TIME_PERIOD info.application_period
  let w := write_field w c.EXTRA2_PERIOD_WITHOUT_OVERLAPS info.without_overlaps
  let w := write_field w c.EXTRA2_FIELD_FLAGS info.field_flags
  (w.1, w.2, { info with write_size := w.2 - FRM_HEADER_SIZE })

/-! ## `dd_frm_type` -/

/-- The type `enum Table_type`. -/
inductive Table_type
  | TABLE_TYPE_UNKNOWN
  | TABLE_TYPE_NORMAL
  | TABLE_TYPE_SEQUENCE
  | TABLE_TYPE_VIEW
  deriving DecidableEq, Repr

/-- An output string (`LEX_CSTRING` / `LEX_CUSTRING`): the bytes `str` points at
(`none` for a null pointer) and the `length` member. -/
structure LEX_CSTRING where
  str : Option (List uchar)
  length : Nat
  deriving DecidableEq, Repr

/-- Modelled from the spec: `MY_UUID_SIZE`, the fixed 16-byte width of the
table version; the header read by `dd_frm_type` has `64 + MY_UUID_SIZE + 2`
bytes. -/
def MY_UUID_SIZE : Nat := 16

/-- The literal `"TYPE=VIEW\n"` that `strncmp` compares the header with. -/
def VIEW_MARK : List uchar := [84, 89, 80, 69, 61, 86, 73, 69, 87, 10]

/-- Constants and the one predicate that `dd_frm_type` uses and the source does
not declare. `WITH_PARTITION_STORAGE_ENGINE` is the compile-time switch. -/
structure FrmConsts where
  HA_CHOICE_YES : Nat
  DB_TYPE_FIRST_DYNAMIC : Nat
  DB_TYPE_PARTITION_DB : Nat
  NAME_CHAR_LEN : Nat
  WITH_PARTITION_STORAGE_ENGINE : Bool
  is_binary_frm_header : List uchar → Bool

/-- What `dd_frm_type` needs of a session: the engine resolver
(`ha_resolve_by_legacy_type`, giving the name of the resolved engine's plugin,
`none` when the lookup fails) and whether its allocations succeed. -/
structure THD where
  ha_resolve_by_legacy_type : Nat → Option (List uchar)
  memdup_ok : Bool
  strmake_ok : Bool

/-- The file at `path` as the I/O primitives present it: whether it opens, its
bytes, and whether the header read, `fstat`, `seek` and `read_string` succeed. -/
structure FrmFile where
  open_ok : Bool
  content : List uchar
  read_ok : Bool
  fstat_ok : Bool
  seek_ok : Bool
  read_string_ok : Bool

/-- The calls `dd_frm_type` makes to its collaborators, in order. -/
inductive FrmEvent
  | file_open
  | file_read
  | memdup
  | resolve (dbt : Nat)
  | file_fstat
  | file_seek
  | read_string
  | strmake
  | my_free
  | file_close
  deriving DecidableEq, Repr

/-- The local `type`, the three output parameters (`none`: untouched, either
because the pointer is null or because nothing was stored yet) and the calls
made so far. -/
structure FrmState where
  type : Table_type
  engine_name : Option LEX_CSTRING
  partition_engine_name : Option LEX_CSTRING
  table_version : Option LEX_CSTRING
  trace : List FrmEvent
  deriving DecidableEq, Repr

/-- Records a call. -/
def FrmState.log (s : FrmState) (e : FrmEvent) : FrmState :=
  { s with trace := s.trace ++ [e] }

/-- The label `err:` of `dd_frm_type`: closes the file and returns `type`. -/
def frm_err (s : FrmState) : FrmState := s.log FrmEvent.file_close

/-- The `while (extra2 + 3 <= e2end)` scan of `dd_frm_type` for the
`EXTRA2_DEFAULT_PART_ENGINE` record. Returns the offset and length of its
payload (`some none` when the loop ends without one); `none` only when `fuel`
iterations did not suffice. -/
def part_scan (c : Extra2Codes) (image : List uchar) (e2end : Nat) :
    Nat → Nat → Option (Option (Nat × Nat))
  | fuel, extra2 =>
    if extra2 + 3 ≤ e2end then
      match fuel with
      | 0 => none
      | fuel + 1 =>
        let type := byteAt image extra2
        let length := byteAt image (extra2 + 1)
        let extra2 := extra2 + 2
        let r : Option (Nat × Nat) :=
          if length = 0 then
            if e2end ≤ extra2 + 2 then none
            else if uint2korr image extra2 < 256 then none
            else some (uint2korr image extra2, extra2 + 2)
          else some (length, extra2)
        match r with
        | none => some none
        | some (length, extra2) =>
          if e2end < extra2 + length then some none
          else if type = c.EXTRA2_DEFAULT_PART_ENGINE then some (some (extra2, length))
          else part_scan c image e2end fuel (extra2 + length)
    else some none

/-- Lines 173-198 of `dd_frm_type`: the engine name of the legacy layout. The
offsets are computed from fields of the file and are not compared with the size
of the image; an offset beyond the image reads as 0 here (`byteAt`), where the
source reads foreign memory, so statements about the name are meant for images
that hold the offsets of `frm_legacy_name_reads`. -/
def frm_legacy_name (k : FrmConsts) (frm_image : List uchar) (s : FrmState) : FrmState :=
  match s.engine_name with
  | none => s
  | some en =>
    let n_length := uint4korr frm_image 55
    if en.length = 0 ∧ n_length ≠ 0 then
      let record_offset :=
        (uint2korr frm_image 6 +
          (if uint2korr frm_image 14 = 65535 then uint4korr frm_image 47
           else uint2korr frm_image 14)) % 4294967296
      let reclength := uint2korr frm_image 16
      let next_chunk := record_offset + reclength
      let buff_end := next_chunk + n_length
      let connect_string_length := uint2korr frm_image next_chunk
      let next_chunk := next_chunk + (connect_string_length + 2)
      if next_chunk + 2 < buff_end then
        let len := uint2korr frm_image next_chunk
        if len ≤ k.NAME_CHAR_LEN then
          let name := (slice frm_image (next_chunk + 2) len).takeWhile (· ≠ 0)
          { s with engine_name := some ⟨some name, len⟩ }
        else s
      else s
    else s

/-- Lines 200-236 of `dd_frm_type`: the partition engine name found by scanning
the extra2 segment of the whole image. The source calls `thd->strmake` without
testing `thd`: with a null `thd` the call dies there and `dd_frm_type` does not
return, which is the result `none`. The scan takes its end `e2end` from the
bytes 4-5 of the image and not from its size; an offset beyond the image reads
as 0 here (`byteAt`), where the source reads foreign memory, so statements about
the scan are meant for images that hold the offsets of `frm_legacy_part_reads`. -/
def frm_legacy_part (k : FrmConsts) (c : Extra2Codes) (thd : Option THD)
    (frm_image : List uchar) (dbt : Nat) (s : FrmState) : Option FrmState :=
  if k.WITH_PARTITION_STORAGE_ENGINE ∧ s.partition_engine_name.isSome ∧
      dbt = k.DB_TYPE_PARTITION_DB then
    let len := uint2korr frm_image 4
    if byteAt frm_image 64 ≠ OLD_FRM_MARK then
      match part_scan c frm_image (64 + len) (len + 1) 64 with
      | none => none
      | some none => some s
      | some (some (extra2, length)) =>
        match thd with
        | none => none
        | some t =>
          let str := if t.strmake_ok then some (slice frm_image extra2 length) else none
          some { (s.log FrmEvent.strmake) with partition_engine_name := some ⟨str, length⟩ }
    else some s
  else some s

/-- Lines 155-238 of `dd_frm_type` (from the label `cont:` to the label `err:`):
read the true engine name. `frm_image` is the whole file followed by the
`'\0'` that `read_string` appends. The result `none` is a call that does not
return (see `frm_legacy_part`). -/
def frm_cont (k : FrmConsts) (c : Extra2Codes) (thd : Option THD) (file : FrmFile)
    (dbt : Nat) (s : FrmState) : Option FrmState :=
  if s.engine_name.isSome then
    let s := s.log FrmEvent.file_fstat
    if !file.fstat_ok then some (frm_err s)
    else
      let s := s.log FrmEvent.file_seek
      if !file.seek_ok then some (frm_err s)
      else
        let s := s.log FrmEvent.read_string
        if !file.read_string_ok then some (frm_err s)
        else
          let frm_image := file.content ++ [0]
          let s := frm_legacy_name k frm_image s
          match frm_legacy_part k c thd frm_image dbt s with
          | none => none
          | some s => some (frm_err (s.log FrmEvent.my_free))
  else some (frm_err s)

/-- Lines 78-98 of `dd_frm_type`: `type= TABLE_TYPE_NORMAL` and the
initialisation of the outputs whose pointer is non-null, after the file has
been opened. -/
def frm_init (engine_name partition_engine_name table_version : Bool) : FrmState :=
  { type := Table_type.TABLE_TYPE_NORMAL,
    engine_name := if engine_name then some ⟨some [], 0⟩ else none,
    partition_engine_name := if partition_engine_name then some ⟨none, 0⟩ else none,
    table_version := if table_version then some ⟨none, 0⟩ else none,
    trace := [FrmEvent.file_open] }

/-- Lines 114-118 of `dd_frm_type`: the sequence flag. -/
def frm_sequence (k : FrmConsts) (header : List uchar) (s : FrmState) : FrmState :=
  if byteAt header 39 &&& 48 = k.HA_CHOICE_YES <<< 4 then
    { s with type := Table_type.TABLE_TYPE_SEQUENCE }
  else s

/-- Lines 120-126 of `dd_frm_type`: the table version of a new frm. The source
calls `thd->memdup` without testing `thd`: with a null `thd` the call dies there
and `dd_frm_type` does not return, which is the result `none`. -/
def frm_version (c : Extra2Codes) (thd : Option THD) (header : List uchar)
    (s : FrmState) : Option FrmState :=
  if s.table_version.isSome ∧ byteAt header 64 = c.EXTRA2_TABLEDEF_VERSION ∧
      byteAt header 65 = MY_UUID_SIZE then
    match thd with
    | none => none
    | some t =>
      let s := s.log FrmEvent.memdup
      if t.memdup_ok then
        some { s with
          table_version := some ⟨some (slice header 66 MY_UUID_SIZE), MY_UUID_SIZE⟩ }
      else some s
  else some s

/-- Lines 128-150 of `dd_frm_type`: the engine resolver, followed by what the
jumps lead to (`cont:` or `err:`). -/
def frm_resolve (k : FrmConsts) (c : Extra2Codes) (thd : Option THD) (file : FrmFile)
    (header : List uchar) (dbt : Nat) (s : FrmState) : Option FrmState :=
  match thd with
  | none => frm_cont k c thd file dbt s
  | some t =>
    if dbt < k.DB_TYPE_FIRST_DYNAMIC then
      let s := s.log (FrmEvent.resolve dbt)
      match t.ha_resolve_by_legacy_type dbt with
      | none => frm_cont k c thd file dbt s
      | some name =>
        let s := if s.engine_name.isSome then
          { s with engine_name := some ⟨some name, name.length⟩ } else s
        if k.WITH_PARTITION_STORAGE_ENGINE ∧ s.partition_engine_name.isSome ∧
            dbt = k.DB_TYPE_PARTITION_DB then
          let new_dbt := byteAt header 61
          if k.DB_TYPE_FIRST_DYNAMIC ≤ new_dbt then frm_cont k c thd file dbt s
          else
            let s := s.log (FrmEvent.resolve new_dbt)
            match t.ha_resolve_by_legacy_type new_dbt with
            | none => some (frm_err s)
            | some pname =>
              let s := { s with partition_engine_name := some ⟨some pname, pname.length⟩ }
              some (frm_err s)
        else some (frm_err s)
    else frm_cont k c thd file dbt s

/-- The function `Table_type dd_frm_type(THD *thd, char *path, LEX_CSTRING *engine_name,
LEX_CSTRING *partition_engine_name, LEX_CUSTRING *table_version)`. The three
Booleans say which output pointers are non-null. The result `some` holds the
returned type, the outputs and the calls made. The result `none` is a call that
does not return: it dies at `thd->memdup` (line 124) or `thd->strmake` (line 228)
on a null `thd`; nothing after that statement, the close at the label `err:`
included, is executed. -/
def dd_frm_type (k : FrmConsts) (c : Extra2Codes) (thd : Option THD) (file : FrmFile)
    (engine_name partition_engine_name table_version : Bool) : Option FrmState :=
  if !file.open_ok then
    some { type := Table_type.TABLE_TYPE_UNKNOWN, engine_name := none,
           partition_engine_name := none, table_version := none,
           trace := [FrmEvent.file_open] }
  else
    let s := (frm_init engine_name partition_engine_name table_version).log FrmEvent.file_read
    if !file.read_ok ∨ file.content.length < 64 + MY_UUID_SIZE + 2 then some (frm_err s)
    else
      let header := file.content.take (64 + MY_UUID_SIZE + 2)
      if header.take 10 = VIEW_MARK then
        some (frm_err { s with type := Table_type.TABLE_TYPE_VIEW })
      else if !k.is_binary_frm_header header then some (frm_err s)
      else
        let dbt := byteAt header 3
        let s := frm_sequence k header s
        match frm_version c thd header s with
        | none => none
        | some s => frm_resolve k c thd file header dbt s

/-! ## The bytes `read` reads -/

/-- Modelled from the spec: the offsets of the buffer that the helper
`extra2_read_len` reads, in order: the length byte at `pos` and, when it is zero
and 2 bytes remain before the segment end, the two bytes of the extended
length. -/
def extra2_read_len_reads (image : List uchar) (pos e2end : Nat) : List Nat :=
  if byteAt image pos ≠ 0 then [pos]
  else if e2end < pos + 1 + 2 then [pos]
  else [pos, pos + 1, pos + 2]

/-- The offsets of `frm_image` that the loop of `Extra2_info::read` reads, in
order: per record the tag byte (`*pos++`) and what `extra2_read_len` reads; the
payload is not read, only pointed at. -/
def read_loop_reads (c : Extra2Codes) (image : List uchar) (e2end : Nat) :
    Nat → Nat → Extra2_info → List Nat
  | fuel, pos, info =>
    if pos + 3 ≤ e2end then
      match fuel with
      | 0 => []
      | fuel + 1 =>
        let type := byteAt image pos
        let r := extra2_read_len image (pos + 1) e2end
        let reads := pos :: extra2_read_len_reads image (pos + 1) e2end
        let length := r.1
        let pos := r.2
        if length = 0 then reads
        else
          let s := read_switch c type length (slice image pos length) info
          if s.1 then reads
          else reads ++ read_loop_reads c image e2end fuel (pos + length) s.2
    else []

/-- The offsets of `frm_image` that `Extra2_info::read` reads, in order:
`uint2korr(frm_image + 4)` before anything else, then `*pos` at offset 64 once
the size test has passed, then the reads of the loop. -/
def Extra2_info.read_reads (c : Extra2Codes) (info : Extra2_info) (frm_image : List uchar)
    (frm_size : Nat) : List Nat :=
  let read_size := uint2korr frm_image 4
  let info := { info with read_size := read_size }
  [4, 5] ++
    (if frm_size < FRM_HEADER_SIZE + read_size then []
     else 64 ::
      (if byteAt frm_image 64 = OLD_FRM_MARK then []
       else read_loop_reads c frm_image (64 + read_size) (read_size + 1) 64 info))

/-! ## The bytes the legacy fallback of `dd_frm_type` reads -/

/-- The offsets of `frm_image` that lines 173-198 of `dd_frm_type` read, in
order: `n_length` at 55, the operands of `record_offset` and `reclength`, the
connect-string length at `next_chunk`, the name length after the connect string
and the bytes `strmake` copies (those of the name up to its first zero byte,
that byte included, and at most `len`). -/
def frm_legacy_name_reads (k : FrmConsts) (frm_image : List uchar) (s : FrmState) : List Nat :=
  match s.engine_name with
  | none => []
  | some en =>
    if en.length ≠ 0 then []
    else
      let n_length := uint4korr frm_image 55
      [55, 56, 57, 58] ++
      (if n_length = 0 then []
       else
        let record_offset :=
          (uint2korr frm_image 6 +
            (if uint2korr frm_image 14 = 65535 then uint4korr frm_image 47
             else uint2korr frm_image 14)) % 4294967296
        let reclength := uint2korr frm_image 16
        let next_chunk := record_offset + reclength
        let buff_end := next_chunk + n_length
        let connect_string_length := uint2korr frm_image next_chunk
        let next_chunk2 := next_chunk + (connect_string_length + 2)
        [6, 7, 14, 15] ++
        (if uint2korr frm_image 14 = 65535 then [47, 48, 49, 50] else [14, 15]) ++
        [16, 17, next_chunk, next_chunk + 1] ++
        (if next_chunk2 + 2 < buff_end then
          let len := uint2korr frm_image next_chunk2
          [next_chunk2, next_chunk2 + 1] ++
          (if len ≤ k.NAME_CHAR_LEN then
            List.range' (next_chunk2 + 2)
              (min len (((slice frm_image (next_chunk2 + 2) len).takeWhile (· ≠ 0)).length + 1))
           else [])
         else []))

/-- The offsets of `frm_image` that the `while (extra2 + 3 <= e2end)` scan of
`dd_frm_type` reads, in order: per record the tag byte, the length byte and, for a
zero length byte with more than 2 bytes left, the 2-byte extended length; for the
partition-engine record also the payload that `strmake` copies. -/
def part_scan_reads (c : Extra2Codes) (image : List uchar) (e2end : Nat) :
    Nat → Nat → List Nat
  | fuel, extra2 =>
    if extra2 + 3 ≤ e2end then
      match fuel with
      | 0 => []
      | fuel + 1 =>
        let type := byteAt image extra2
        let length := byteAt image (extra2 + 1)
        let reads := [extra2, extra2 + 1]
        let extra2 := extra2 + 2
        let r : Option (Nat × Nat) × List Nat :=
          if length = 0 then
            if e2end ≤ extra2 + 2 then (none, reads)
            else if uint2korr image extra2 < 256 then (none, reads ++ [extra2, extra2 + 1])
            else (some (uint2korr image extra2, extra2 + 2), reads ++ [extra2, extra2 + 1])
          else (some (length, extra2), reads)
        match r with
        | (none, reads) => reads
        | (some (length, extra2), reads) =>
          if e2end < extra2 + length then reads
          else if type = c.EXTRA2_DEFAULT_PART_ENGINE then reads ++ List.range' extra2 length
          else reads ++ part_scan_reads c image e2end fuel (extra2 + length)
    else []

/-- The offsets of `frm_image` that lines 200-236 of `dd_frm_type` read, in
order: the segment length at 4, the byte at 64 and what the scan reads. -/
def frm_legacy_part_reads (k : FrmConsts) (c : Extra2Codes) (frm_image : List uchar)
    (dbt : Nat) (s : FrmState) : List Nat :=
  if k.WITH_PARTITION_STORAGE_ENGINE ∧ s.partition_engine_name.isSome ∧
      dbt = k.DB_TYPE_PARTITION_DB then
    let len := uint2korr frm_image 4
    [4, 5, 64] ++
      (if byteAt frm_image 64 ≠ OLD_FRM_MARK then
        part_scan_reads c frm_image (64 + len) (len + 1) 64
       else [])
  else []

/-- The legacy fallback of `dd_frm_type` stays inside the image: every offset
that lines 173-236 read in `frm_image` (the `st_size + 1` bytes of
`read_string`), for the engine id `dbt` and the outputs of the state `s`, lies
inside it. These lines are inside `if (engine_name)`, so nothing is read when
the engine name is not requested. -/
def frm_legacy_in_bounds (k : FrmConsts) (c : Extra2Codes) (frm_image : List uchar)
    (dbt : Nat) (s : FrmState) : Prop :=
  s.engine_name.isSome = true →
    ∀ i ∈ frm_legacy_name_reads k frm_image s ++ frm_legacy_part_reads k c frm_image dbt s,
      i < frm_image.length

instance (k : FrmConsts) (c : Extra2Codes) (frm_image : List uchar) (dbt : Nat)
    (s : FrmState) : Decidable (frm_legacy_in_bounds k c frm_image dbt s) := by
  unfold frm_legacy_in_bounds; infer_instance

/-! ## Records of a segment -/

/-- A record of an extra2 segment: its tag and its payload. -/
abbrev Extra2Record := Nat × List uchar

/-- The bytes of a sequence of records. -/
def records_bytes : List Extra2Record → List uchar
  | [] => []
  | r :: rs => extra2_record r.1 r.2 ++ records_bytes rs

/-- A record the format can hold. -/
def rec_ok (r : Extra2Record) : Prop := r.1 < 256 ∧ 1 ≤ r.2.length ∧ r.2.length ≤ 65535

instance (r : Extra2Record) : Decidable (rec_ok r) := by
  unfold rec_ok; infer_instance

/-- Decoding a sequence of records -/
def read_records (c : Extra2Codes) : List Extra2Record → Extra2_info → Bool × Extra2_info
  | [], info => (false, info)
  | r :: rs, info =>
    if (read_switch c r.1 r.2.length r.2 info).1 then
      (true, (read_switch c r.1 r.2.length r.2 info).2)
    else read_records c rs (read_switch c r.1 r.2.length r.2 info).2


/-- The record of a field, if present. -/
def field_record (type : Nat) (f : Option (List uchar)) : List Extra2Record :=
  match f with
  | some str => [(type, str)]
  | none => []

/-- The records of the present fields of a metadata value, in the order `write` emits them -/
def write_records (c : Extra2Codes) (info : Extra2_info) : List Extra2Record :=
  field_record c.EXTRA2_TABLEDEF_VERSION info.version ++
  (field_record c.EXTRA2_DEFAULT_PART_ENGINE info.engine ++
  (field_record c.EXTRA2_ENGINE_TABLEOPTS info.options ++
  (field_record c.EXTRA2_GIS info.gis ++
  (field_record c.EXTRA2_FIELD_DATA_TYPE_INFO info.field_data_type_info ++
  (field_record c.EXTRA2_INDEX_FLAGS info.index_flags ++
  (field_record c.EXTRA2_PERIOD_FOR_SYSTEM_TIME info.system_period ++
  (field_record c.EXTRA2_APPLICATION_TIME_PERIOD info.application_period ++
  (field_record c.EXTRA2_PERIOD_WITHOUT_OVERLAPS info.without_overlaps ++
  field_record c.EXTRA2_FIELD_FLAGS info.field_flags))))))))


/-- The member of the metadata that a `case` label stores into. -/
def field_of_case (k : Extra2Case) (i : Extra2_info) : Option (List uchar) :=
  match k with
  | Extra2Case.version => i.version
  | Extra2Case.options => i.options
  | Extra2Case.engine => i.engine
  | Extra2Case.gis => i.gis
  | Extra2Case.system_period => i.system_period
  | Extra2Case.field_flags => i.field_flags
  | Extra2Case.application_period => i.application_period
  | Extra2Case.field_data_type_info => i.field_data_type_info
  | Extra2Case.without_overlaps => i.without_overlaps
  | Extra2Case.index_flags => i.index_flags
  | Extra2Case.other => none

/-- The `case` labels whose statement is a `read_once` call. -/
def Extra2Case.once (k : Extra2Case) : Bool :=
  match k with
  | Extra2Case.version => false
  | Extra2Case.engine => false
  | Extra2Case.other => false
  | _ => true

/-- The tags of the fields that `read` stores with `read_once`. -/
def Extra2Codes.once_tags (c : Extra2Codes) : List Nat :=
  [c.EXTRA2_ENGINE_TABLEOPTS, c.EXTRA2_GIS, c.EXTRA2_PERIOD_FOR_SYSTEM_TIME,
   c.EXTRA2_FIELD_FLAGS, c.EXTRA2_APPLICATION_TIME_PERIOD, c.EXTRA2_FIELD_DATA_TYPE_INFO,
   c.EXTRA2_PERIOD_WITHOUT_OVERLAPS, c.EXTRA2_INDEX_FLAGS]

/-- The state `r` comes after the state `s` with the file still open: its calls
are those of `s` followed by calls other than the close. -/
def frm_later (s r : FrmState) : Prop :=
  ∃ evs, r.trace = s.trace ++ evs ∧ FrmEvent.file_close ∉ evs

/-- The offset `p` of the connect-string length in the legacy layout: the record
offset `u16@6 + (u32@47 if u16@14 = 0xFFFF, else u16@14)`, held in a `uint` and so
taken modulo `2^32`, plus the record length `u16@16`. -/
def legacy_p (img : List uchar) : Nat :=
  (uint2korr img 6 + (if uint2korr img 14 = 65535 then uint4korr img 47
    else uint2korr img 14)) % 4294967296 + uint2korr img 16

/-- The offset `q = p + 2 + c` of the name length, `c` being the connect-string
length `u16@p`. -/
def legacy_q (img : List uchar) : Nat := legacy_p img + 2 + uint2korr img (legacy_p img)

/-- The offset `p` as the specification words it, a plain sum:
`u16@6 + (u32@47 if u16@14 = 0xFFFF, else u16@14) + u16@16`. -/
def legacy_p_plain (img : List uchar) : Nat :=
  uint2korr img 6 + (if uint2korr img 14 = 65535 then uint4korr img 47
    else uint2korr img 14) + uint2korr img 16

/-! ## Concrete inputs -/

/-- A 64-byte header whose bytes 4-5 hold `n` (little-endian), all other bytes 0. -/
def header64 (n : Nat) : List uchar :=
  [0, 0, 0, 0, toByte n, toByte (n / 256)] ++ List.replicate 58 0

/-- A metadata value with a version and a system period. -/
def info_vs : Extra2_info :=
  { version := some [1, 2, 3], system_period := some [0, 0, 1, 0] }

/-- A buffer with room for an 11-byte segment, whose header announces 11 bytes. -/
def buf_11 : List uchar := header64 11 ++ List.replicate 11 0

/-- A buffer whose segment is one version record `[0, 3, 1, 2, 3]`. -/
def image_version : List uchar := header64 5 ++ [0, 3, 1, 2, 3]

/-- A buffer whose segment is the record `[0, 0, 5, 0]`: tag 0, length byte 0,
extended length 5. -/
def image_short_ext : List uchar := header64 4 ++ [0, 0, 5, 0]

/-- A buffer whose segment is the record `['/', 0, 5, 0]`: tag `'/'`, length
byte 0, extended length 5. -/
def image_slash_short_ext : List uchar := header64 4 ++ [47, 0, 5, 0]

/-- A buffer whose segment is a record of the unrecognised tag 6 followed by a
version record. -/
def image_skip : List uchar := header64 6 ++ [6, 1, 9, 0, 1, 7]

/-- A buffer whose segment is a record of the unrecognised tag `'/'` followed by
a version record. -/
def image_slash_skip : List uchar := header64 6 ++ [47, 1, 9, 0, 1, 7]

/-- The buffer `image_skip` and `image_slash_skip` become when their first record
is removed. -/
def image_skipped : List uchar := header64 3 ++ [0, 1, 7]

/-- A buffer whose segment holds two gis records. -/
def image_two_gis : List uchar := header64 6 ++ [2, 1, 9, 2, 1, 8]

/-- A buffer whose segment starts with a record of tag `'/'` and then holds two
gis records. -/
def image_slash_two_gis : List uchar := header64 9 ++ [47, 1, 0, 2, 1, 9, 2, 1, 8]

/-- A buffer whose segment holds two partition-engine records. -/
def image_two_engine : List uchar := header64 6 ++ [1, 1, 9, 1, 1, 8]

/-- A metadata value whose version was set before the call. -/
def info_preset : Extra2_info := { version := some [5, 5] }

/-- A buffer whose segment is a version record of 3 bytes. -/
def image_version3 : List uchar := header64 5 ++ [0, 3, 1, 2, 3]

/-- A buffer whose segment starts with a record of tag `'/'`, followed by a
version record of 3 bytes. -/
def image_slash_version3 : List uchar := header64 8 ++ [47, 1, 0, 0, 3, 1, 2, 3]

/-- Values of the server's headers for the constants of `dd_frm_type`, used for
concrete inputs; the signature test is that of `is_binary_frm_header`. -/
def frmConsts : FrmConsts where
  HA_CHOICE_YES := 2
  DB_TYPE_FIRST_DYNAMIC := 45
  DB_TYPE_PARTITION_DB := 20
  NAME_CHAR_LEN := 64
  WITH_PARTITION_STORAGE_ENGINE := true
  is_binary_frm_header := fun header =>
    decide (byteAt header 0 = 254 ∧ byteAt header 1 = 1 ∧ 6 ≤ byteAt header 2 ∧
      byteAt header 2 ≤ 11)

/-- A view definition file: `"TYPE=VIEW\n"` followed by 72 other bytes. -/
def view_file : FrmFile where
  open_ok := true
  content := VIEW_MARK ++ List.replicate 72 255
  read_ok := true
  fstat_ok := true
  seek_ok := true
  read_string_ok := true

/-- A buffer whose segment is one record of the unrecognised tag 6. -/
def image_unknown : List uchar := header64 3 ++ [6, 1, 9]

/-- A buffer whose segment is a version record followed by one stray byte. -/
def image_version_stray : List uchar := header64 6 ++ [0, 3, 1, 2, 3, 0]

/-- A buffer whose segment is a system-period record of 1 byte. -/
def image_period1 : List uchar := header64 3 ++ [4, 1, 9]

/-- A buffer whose declared segment is 5 bytes long and whose byte 64 is `'/'`;
the bytes after it are no records. -/
def image_old_frm : List uchar := header64 5 ++ [47, 0, 0, 255, 1]

/-- A session whose engine resolver finds no engine. -/
def thd_unresolved : THD where
  ha_resolve_by_legacy_type := fun _ => none
  memdup_ok := true
  strmake_ok := true

/-- A session whose engine resolver knows the legacy id 12 as `"abc"`. -/
def thd_resolved : THD where
  ha_resolve_by_legacy_type := fun dbt => if dbt = 12 then some [97, 98, 99] else none
  memdup_ok := true
  strmake_ok := true

/-- A binary frm of 89 bytes with legacy engine id 12, record offset 82, record
length 0 and 8 extra bytes: after the 82-byte header come an empty connect
string (`0, 0`) and the engine name `"xyz"` with its 2-byte length. -/
def legacy_file : FrmFile where
  open_ok := true
  content := [254, 1, 10, 12, 0, 0, 82, 0] ++ List.replicate 47 0 ++ [8] ++
    List.replicate 26 0 ++ [0, 0, 3, 0, 120, 121, 122]
  read_ok := true
  fstat_ok := true
  seek_ok := true
  read_string_ok := true

/-- A file that opens and holds 10 bytes only. -/
def short_file : FrmFile where
  open_ok := true
  content := List.replicate 10 0
  read_ok := true
  fstat_ok := true
  seek_ok := true
  read_string_ok := true

/-- A file of 82 zero bytes: no view marker, no binary signature. -/
def zero_file : FrmFile where
  open_ok := true
  content := List.replicate 82 0
  read_ok := true
  fstat_ok := true
  seek_ok := true
  read_string_ok := true

/-- A binary frm of 82 bytes with legacy engine id 12 whose byte 39 has the
sequence flag (`HA_CHOICE_YES << 4`). -/
def sequence_file : FrmFile where
  open_ok := true
  content := [254, 1, 10, 12] ++ List.replicate 35 0 ++ [32] ++ List.replicate 42 0
  read_ok := true
  fstat_ok := true
  seek_ok := true
  read_string_ok := true

/-- A buffer whose segment starts with a record of tag `'/'`, followed by a
system-period record of 1 byte. -/
def image_slash_period1 : List uchar := header64 6 ++ [47, 1, 9, 4, 1, 9]

/-- A buffer whose segment is a gis record followed by a system-period record
of 1 byte. -/
def image_gis_period1 : List uchar := header64 6 ++ [2, 1, 7, 4, 1, 9]

/-- A 90-byte buffer whose bytes are all 255. -/
def buf_ff : List uchar := List.replicate 90 255

/-- A binary frm of 89 bytes with legacy engine id 12 whose record offset
overflows 32 bits: `u16@6` is 83, `u16@14` is `0xFFFF`, `u32@47` is `0xFFFFFFFF`,
so the `uint` sum is 82; 8 extra bytes, and after the 82-byte header an empty
connect string and the engine name `"xyz"` with its 2-byte length. -/
def wrap_file : FrmFile where
  open_ok := true
  content := [254, 1, 10, 12, 0, 0, 83, 0] ++ List.replicate 6 0 ++ [255, 255] ++
    List.replicate 31 0 ++ [255, 255, 255, 255] ++ List.replicate 4 0 ++ [8] ++
    List.replicate 26 0 ++ [0, 0, 3, 0, 120, 121, 122]
  read_ok := true
  fstat_ok := true
  seek_ok := true
  read_string_ok := true

/-- A binary frm of 82 bytes with legacy engine id 12 whose bytes 64 and 65 are
the version tag and 16, followed by the 16 bytes `1..16`. -/
def version_file : FrmFile where
  open_ok := true
  content := [254, 1, 10, 12] ++ List.replicate 60 0 ++ [0, 16] ++
    [1, 2, 3, 4, 5, 6, 7, 8, 9, 10, 11, 12, 13, 14, 15, 16]
  read_ok := true
  fstat_ok := true
  seek_ok := true
  read_string_ok := true

/-- A binary frm of 82 bytes whose legacy engine id is the partition engine id
20 and whose second legacy id, at offset 61, is 12. -/
def partition_file : FrmFile where
  open_ok := true
  content := [254, 1, 10, 20] ++ List.replicate 57 0 ++ [12] ++ List.replicate 20 0
  read_ok := true
  fstat_ok := true
  seek_ok := true
  read_string_ok := true

/-- A session whose engine resolver knows the legacy id 20 as `"p"` and the
legacy id 12 as `"abc"`. -/
def thd_partition : THD where
  ha_resolve_by_legacy_type := fun dbt =>
    if dbt = 20 then some [112] else if dbt = 12 then some [97, 98, 99] else none
  memdup_ok := true
  strmake_ok := true

/-- A session whose engine resolver knows the legacy id 20 as `"p"` only. -/
def thd_partition_only : THD where
  ha_resolve_by_legacy_type := fun dbt => if dbt = 20 then some [112] else none
  memdup_ok := true
  strmake_ok := true

/-- A binary frm of 82 bytes with legacy engine id 12 that declares 8 extra
bytes and the record offset 1000, far beyond its end. -/
def far_file : FrmFile where
  open_ok := true
  content := [254, 1, 10, 12, 0, 0, 232, 3] ++ List.replicate 47 0 ++ [8] ++
    List.replicate 26 0
  read_ok := true
  fstat_ok := true
  seek_ok := true
  read_string_ok := true

/-- A binary frm of 82 bytes with the partition engine id 20 that declares a
segment of 1000 bytes, whose first record has the unrecognised tag 6 and the
length 200. -/
def far_scan_file : FrmFile where
  open_ok := true
  content := [254, 1, 10, 20, 232, 3] ++ List.replicate 58 0 ++ [6, 200] ++
    List.replicate 16 0
  read_ok := true
  fstat_ok := true
  seek_ok := true
  read_string_ok := true

/-- A binary frm of 82 bytes with the partition engine id 20 whose 6-byte
segment is two partition-engine records, `[1, 1, 9]` and `[1, 1, 8]`. -/
def partition_dup_file : FrmFile where
  open_ok := true
  content := [254, 1, 10, 20, 6, 0] ++ List.replicate 58 0 ++ [1, 1, 9, 1, 1, 8] ++
    List.replicate 12 0
  read_ok := true
  fstat_ok := true
  seek_ok := true
  read_string_ok := true

/-- A metadata value whose version is the 16 bytes `1..16`, with a gis field. -/
def info_v16 : Extra2_info :=
  { version := some [1, 2, 3, 4, 5, 6, 7, 8, 9, 10, 11, 12, 13, 14, 15, 16], gis := some [7] }

/-- A 90-byte buffer with the binary signature and legacy engine id 12. -/
def buf_bin : List uchar := [254, 1, 10, 12] ++ List.replicate 86 0

/-- The file that holds `buf_bin` after `info_v16` has been written into it. -/
def written_file : FrmFile where
  open_ok := true
  content := (info_v16.write frmCodes buf_bin 90).1
  read_ok := true
  fstat_ok := true
  seek_ok := true
  read_string_ok := true

/-- A version payload of 65531 bytes. -/
def big_version : List uchar := List.replicate 65531 7

/-- A buffer of 65599 bytes whose declared segment length is 65535 and whose
segment is one version record with the payload `big_version` (tag, a zero length
byte, the 2-byte length, the payload). -/
def image_big : List uchar := header64 65535 ++ extra2_record 0 big_version

/-- A binary frm of 82 bytes with legacy engine id 12, the sequence flag in byte
39 and the version marker (tag 0, length 16) at bytes 64-65, followed by the 16
bytes `1..16`. -/
def version_sequence_file : FrmFile where
  open_ok := true
  content := [254, 1, 10, 12] ++ List.replicate 35 0 ++ [32] ++ List.replicate 24 0 ++
    [0, 16] ++ [1, 2, 3, 4, 5, 6, 7, 8, 9, 10, 11, 12, 13, 14, 15, 16]
  read_ok := true
  fstat_ok := true
  seek_ok := true
  read_string_ok := true

/-! ## The record loop of `read` -/

theorem byteAt_drop (image : List uchar) (pos i : Nat) :
    byteAt (image.drop pos) i = byteAt image (pos + i) := by
  simp [byteAt, List.getD_eq_getElem?_getD, List.getElem?_drop]

theorem byteAt_cons_zero (b : uchar) (l : List uchar) : byteAt (b :: l) 0 = b.val := rfl

theorem byteAt_cons_succ (b : uchar) (l : List uchar) (i : Nat) :
    byteAt (b :: l) (i + 1) = byteAt l i := rfl

theorem byteAt_lt (image : List uchar) (i : Nat) : byteAt image i < 256 :=
  (image.getD i 0).isLt

theorem uint2korr_lt (image : List uchar) (i : Nat) : uint2korr image i < 65536 := by
  have h1 := byteAt_lt image i
  have h2 := byteAt_lt image (i + 1)
  unfold uint2korr; omega

theorem extra2_read_len_pos (image : List uchar) (pos e2end : Nat) :
    pos + 1 ≤ (extra2_read_len image pos e2end).2 ∧
    ((extra2_read_len image pos e2end).1 ≠ 0 →
      (extra2_read_len image pos e2end).2 + (extra2_read_len image pos e2end).1 ≤ e2end) := by
  unfold extra2_read_len
  simp only []
  split_ifs <;> simp <;> omega

theorem read_loop_fuel (c : Extra2Codes) (image : List uchar) (e2end : Nat) :
    ∀ fuel1 fuel2 pos info, e2end ≤ pos + fuel1 → e2end ≤ pos + fuel2 →
      read_loop c image e2end fuel1 pos info = read_loop c image e2end fuel2 pos info := by
  intro fuel1
  induction fuel1 with
  | zero =>
    intro fuel2 pos info h1 h2
    have : ¬ (pos + 3 ≤ e2end) := by omega
    unfold read_loop
    simp [this]
  | succ n ih =>
    intro fuel2 pos info h1 h2
    by_cases h3 : pos + 3 ≤ e2end
    · obtain ⟨m, rfl⟩ : ∃ m, fuel2 = m + 1 := ⟨fuel2 - 1, by omega⟩
      have hp := extra2_read_len_pos image (pos + 1) e2end
      rw [read_loop, read_loop]
      simp only [h3, if_true]
      split_ifs with h4 h5
      · rfl
      · rfl
      · apply ih <;> omega
    · unfold read_loop
      simp [h3]

theorem read_loop_isSome (c : Extra2Codes) (image : List uchar) (e2end : Nat) :
    ∀ fuel pos info, e2end ≤ pos + fuel →
      (read_loop c image e2end fuel pos info).isSome = true := by
  intro fuel
  induction fuel with
  | zero =>
    intro pos info h1
    have : ¬ (pos + 3 ≤ e2end) := by omega
    unfold read_loop
    simp [this]
  | succ n ih =>
    intro pos info h1
    have hp := extra2_read_len_pos image (pos + 1) e2end
    rw [read_loop]
    by_cases h3 : pos + 3 ≤ e2end
    · simp only [h3, if_true]
      split_ifs with h4 h5
      · rfl
      · rfl
      · apply ih; omega
    · simp [h3]

/-- Totality: `read` always returns. -/
theorem read_isSome (c : Extra2Codes) (info : Extra2_info) (frm_image : List uchar)
    (frm_size : Nat) : (Extra2_info.read c info frm_image frm_size).isSome = true := by
  unfold Extra2_info.read
  simp only []
  split_ifs
  · rfl
  · rfl
  · apply read_loop_isSome; omega

theorem extra2_record_length (t : Nat) (p : List uchar) :
    (extra2_record t p).length = p.length + (if p.length < 256 then 2 else 4) := by
  unfold extra2_record
  split_ifs <;> simp

theorem toByte_val (n : Nat) : (toByte n).val = n % 256 := rfl

theorem drop_add_of_drop (image : List uchar) (pos : Nat) (xs more : List uchar)
    (hd : image.drop pos = xs ++ more) : image.drop (pos + xs.length) = more := by
  rw [← List.drop_drop, hd, List.drop_left]

theorem read_len_record (image : List uchar) (pos e2end t : Nat) (p more : List uchar)
    (hd : image.drop pos = extra2_record t p ++ more) (hok : rec_ok (t, p))
    (hend : pos + (extra2_record t p).length ≤ e2end) :
    byteAt image pos = t ∧
    extra2_read_len image (pos + 1) e2end =
      (p.length, pos + (if p.length < 256 then 2 else 4)) ∧
    slice image (pos + (if p.length < 256 then 2 else 4)) p.length = p := by
  obtain ⟨ht, hp1, hp2⟩ := hok
  simp only at ht hp1 hp2
  rw [extra2_record_length] at hend
  have hb : ∀ i, byteAt image (pos + i) = byteAt (extra2_record t p ++ more) i := by
    intro i; rw [← hd, byteAt_drop]
  by_cases hlt : p.length < 256
  · simp only [hlt, if_true] at hend ⊢
    have hrec : extra2_record t p ++ more
        = toByte t :: toByte p.length :: (p ++ more) := by
      simp [extra2_record, hlt]
    rw [hrec] at hb hd
    have h0 := hb 0
    have h1 := hb 1
    simp only [Nat.add_zero, byteAt_cons_zero, byteAt_cons_succ, toByte_val] at h0 h1
    refine ⟨by rw [h0]; omega, ?_, ?_⟩
    · unfold extra2_read_len
      have : byteAt image (pos + 1) = p.length := by rw [h1]; omega
      simp only [this]
      have h2 : p.length ≠ 0 := by omega
      have h3 : ¬ (e2end < pos + 1 + 1 + p.length) := by omega
      simp [h2, h3]
    · have := drop_add_of_drop image pos [toByte t, toByte p.length] (p ++ more) (by simpa using hd)
      simp only [List.length_cons, List.length_nil] at this
      unfold slice
      rw [this]; simp
  · simp only [hlt, if_false] at hend ⊢
    have hrec : extra2_record t p ++ more
        = toByte t :: 0 :: toByte p.length :: toByte (p.length / 256) :: (p ++ more) := by
      simp [extra2_record, hlt]
    rw [hrec] at hb hd
    have h0 := hb 0
    have h1 := hb 1
    have h2 := hb 2
    have h3 := hb 3
    simp only [Nat.add_zero, byteAt_cons_zero, byteAt_cons_succ, toByte_val] at h0 h1 h2 h3
    refine ⟨by rw [h0]; omega, ?_, ?_⟩
    · unfold extra2_read_len
      have e1 : byteAt image (pos + 1) = 0 := by rw [h1]; rfl
      have e2 : uint2korr image (pos + 1 + 1) = p.length := by
        unfold uint2korr
        rw [show pos + 1 + 1 = pos + 2 by omega, show pos + 2 + 1 = pos + 3 by omega, h2, h3]
        omega
      simp only [e1, e2]
      have h4 : ¬ (e2end < pos + 1 + 1 + 2) := by omega
      have h5 : ¬ (e2end < pos + 1 + 1 + 2 + p.length) := by omega
      simp [h4, h5, hlt]
    · have := drop_add_of_drop image pos
        [toByte t, 0, toByte p.length, toByte (p.length / 256)] (p ++ more)
        (by simpa using hd)
      simp only [List.length_cons, List.length_nil] at this
      unfold slice
      rw [this]; simp

theorem read_loop_record (c : Extra2Codes) (image : List uchar) (e2end fuel pos : Nat)
    (info : Extra2_info) (t : Nat) (p more : List uchar)
    (hd : image.drop pos = extra2_record t p ++ more) (hok : rec_ok (t, p))
    (hend : pos + (extra2_record t p).length ≤ e2end) (hfuel : e2end ≤ pos + fuel) :
    read_loop c image e2end fuel pos info =
      if (read_switch c t p.length p info).1 then
        some (true, (read_switch c t p.length p info).2)
      else read_loop c image e2end fuel (pos + (extra2_record t p).length)
        (read_switch c t p.length p info).2 := by
  obtain ⟨h0, h1, h2⟩ := read_len_record image pos e2end t p more hd hok hend
  have hlen := extra2_record_length t p
  have hp1 : 1 ≤ p.length := hok.2.1
  have h3 : pos + 3 ≤ e2end := by
    rw [hlen] at hend; split_ifs at hend <;> omega
  obtain ⟨n, rfl⟩ : ∃ n, fuel = n + 1 := ⟨fuel - 1, by omega⟩
  rw [read_loop]
  simp only [h3, if_true, h0, h1, h2]
  have hne : p.length ≠ 0 := by omega
  simp only [hne, if_false]
  have hpos : pos + (extra2_record t p).length
      = (pos + if p.length < 256 then 2 else 4) + p.length := by rw [hlen]; omega
  by_cases hs : (read_switch c t p.length p info).1 = true
  · rw [if_pos hs, if_pos hs]
  · rw [if_neg hs, if_neg hs, hpos]
    apply read_loop_fuel <;> split_ifs <;> omega

theorem read_loop_records (c : Extra2Codes) (image : List uchar) (e2end fuel : Nat) :
    ∀ (recs : List Extra2Record) (pos : Nat) (info : Extra2_info) (more : List uchar),
      (∀ r ∈ recs, rec_ok r) → image.drop pos = records_bytes recs ++ more →
      pos + (records_bytes recs).length ≤ e2end → e2end ≤ pos + fuel →
      read_loop c image e2end fuel pos info =
        if (read_records c recs info).1 then some (true, (read_records c recs info).2)
        else read_loop c image e2end fuel (pos + (records_bytes recs).length)
          (read_records c recs info).2 := by
  intro recs
  induction recs with
  | nil =>
    intro pos info more _ _ _ _
    simp [read_records, records_bytes]
  | cons r rs ih =>
    intro pos info more hok hd hend hfuel
    obtain ⟨t, p⟩ := r
    have hr : rec_ok (t, p) := hok (t, p) (List.mem_cons_self _ _)
    have hrs : ∀ r ∈ rs, rec_ok r := fun r hr => hok r (List.mem_cons_of_mem _ hr)
    simp only [records_bytes, List.length_append, List.append_assoc] at hd hend ⊢
    rw [read_loop_record c image e2end fuel pos info t p _ hd hr (by omega) hfuel]
    simp only [read_records]
    by_cases hs : (read_switch c t p.length p info).1 = true
    · simp only [hs, if_true]
    · simp only [hs, if_false]
      have hd2 := drop_add_of_drop image pos _ _ hd
      rw [ih (pos + (extra2_record t p).length) _ more hrs hd2 (by omega) (by omega)]
      simp only [Bool.false_eq_true, if_false, Nat.add_assoc]

/-- The metadata value on which the record loop of `read` starts. -/
theorem read_eq_loop (c : Extra2Codes) (info : Extra2_info) (image : List uchar)
    (frm_size : Nat) (hsz : 64 + uint2korr image 4 ≤ frm_size)
    (hmark : byteAt image 64 ≠ OLD_FRM_MARK) :
    Extra2_info.read c info image frm_size =
      read_loop c image (64 + uint2korr image 4) (uint2korr image 4 + 1) 64
        { info with read_size := uint2korr image 4 } := by
  unfold Extra2_info.read
  have h1 : ¬ (frm_size < FRM_HEADER_SIZE + uint2korr image 4) := by
    simp only [FRM_HEADER_SIZE]; omega
  simp only [h1, hmark, if_false]

theorem slice_drop (image : List uchar) (pos n : Nat) (xs : List uchar)
    (h : slice image pos n = xs) : image.drop pos = xs ++ image.drop (pos + n) := by
  unfold slice at h
  rw [← h, ← List.drop_drop, List.take_append_drop]

theorem slice_length (image : List uchar) (pos n : Nat) (h : pos + n ≤ image.length) :
    (slice image pos n).length = n := by
  unfold slice
  simp only [List.length_take, List.length_drop]
  omega

theorem read_records_then (c : Extra2Codes) (info : Extra2_info) (image : List uchar)
    (frm_size : Nat) (recs : List Extra2Record) (tail : List uchar)
    (hsz : 64 + uint2korr image 4 ≤ frm_size) (hlen : frm_size ≤ image.length)
    (hmark : byteAt image 64 ≠ OLD_FRM_MARK)
    (hseg : slice image 64 (uint2korr image 4) = records_bytes recs ++ tail)
    (hok : ∀ r ∈ recs, rec_ok r) :
    Extra2_info.read c info image frm_size =
      if (read_records c recs { info with read_size := uint2korr image 4 }).1 then
        some (true, (read_records c recs { info with read_size := uint2korr image 4 }).2)
      else read_loop c image (64 + uint2korr image 4) (uint2korr image 4 + 1)
        (64 + (records_bytes recs).length)
        (read_records c recs { info with read_size := uint2korr image 4 }).2 := by
  rw [read_eq_loop c info image frm_size hsz hmark]
  have hl := slice_length image 64 (uint2korr image 4) (by omega)
  rw [hseg, List.length_append] at hl
  have hd := slice_drop image 64 _ _ hseg
  rw [List.append_assoc] at hd
  exact read_loop_records c image _ _ recs 64 _ _ hok hd (by omega) (by omega)

theorem read_loop_end (c : Extra2Codes) (image : List uchar) (e2end fuel pos : Nat)
    (info : Extra2_info) (h : e2end < pos + 3) :
    read_loop c image e2end fuel pos info = some (decide (pos ≠ e2end), info) := by
  unfold read_loop
  have : ¬ (pos + 3 ≤ e2end) := by omega
  simp only [this, if_false]

/-- A segment that is exactly a sequence of records is decoded record by record. -/
theorem read_of_records (c : Extra2Codes) (info : Extra2_info) (image : List uchar)
    (frm_size : Nat) (recs : List Extra2Record)
    (hsz : 64 + uint2korr image 4 ≤ frm_size) (hlen : frm_size ≤ image.length)
    (hmark : byteAt image 64 ≠ OLD_FRM_MARK)
    (hseg : slice image 64 (uint2korr image 4) = records_bytes recs)
    (hok : ∀ r ∈ recs, rec_ok r) :
    Extra2_info.read c info image frm_size =
      some (read_records c recs { info with read_size := uint2korr image 4 }) := by
  have hl := slice_length image 64 (uint2korr image 4) (by omega)
  rw [hseg] at hl
  rw [read_records_then c info image frm_size recs [] hsz hlen hmark (by simpa using hseg) hok]
  rw [read_loop_end _ _ _ _ _ _ (by omega)]
  have : ¬ (64 + (records_bytes recs).length ≠ 64 + uint2korr image 4) := by omega
  simp only [this, decide_False]
  split_ifs with h
  · rw [← h]
  · have h' : (read_records c recs { info with read_size := uint2korr image 4 }).1 = false := by
      simpa using h
    rw [← h']

/-! ## The writer -/

theorem records_bytes_append (xs ys : List Extra2Record) :
    records_bytes (xs ++ ys) = records_bytes xs ++ records_bytes ys := by
  induction xs with
  | nil => rfl
  | cons r rs ih => simp [records_bytes, ih]

theorem field_record_length (t : Nat) (f : Option (List uchar)) :
    (records_bytes (field_record t f)).length = store_size_of f := by
  cases f with
  | none => rfl
  | some p => simp [field_record, records_bytes, store_size_of, extra2_record_length]

theorem write_field_pos (w : List uchar × Nat) (t : Nat) (f : Option (List uchar)) :
    (write_field w t f).2 = w.2 + store_size_of f := by
  cases f with
  | none => rfl
  | some p => simp [write_field, extra2_write, store_size_of, extra2_record_length]

theorem write_pos (c : Extra2Codes) (info : Extra2_info) (frm_image : List uchar)
    (frm_size : Nat) :
    (info.write c frm_image frm_size).2.1 = FRM_HEADER_SIZE + info.store_size := by
  simp only [Extra2_info.write, write_field_pos, Extra2_info.store_size, Extra2_info.fields,
    List.map_cons, List.map_nil, List.sum_cons, List.sum_nil]
  omega

theorem write_records_length (c : Extra2Codes) (info : Extra2_info) :
    (records_bytes (write_records c info)).length = info.store_size := by
  simp only [write_records, records_bytes_append, List.length_append, field_record_length,
    Extra2_info.store_size, Extra2_info.fields,
    List.map_cons, List.map_nil, List.sum_cons, List.sum_nil]
  omega

theorem store_size_sum (fs : List (Option (List uchar))) :
    (fs.map store_size_of).sum =
      ((fs.filterMap id).map
        (fun p => if p.length < 256 then p.length + 2 else p.length + 4)).sum := by
  induction fs with
  | nil => rfl
  | cons f fs ih =>
    cases f with
    | none => simpa [store_size_of] using ih
    | some p =>
      simp only [List.map_cons, List.sum_cons, List.filterMap_cons, id_eq, ih, store_size_of]
      split_ifs <;> rfl

theorem write_size_eq_store_size_aux (c : Extra2Codes) (info : Extra2_info)
    (frm_image : List uchar) (frm_size : Nat) :
    (info.write c frm_image frm_size).2.2.write_size = info.store_size := by
  have h := write_pos c info frm_image frm_size
  show (info.write c frm_image frm_size).2.1 - FRM_HEADER_SIZE = info.store_size
  omega

/-- C10. For every metadata value, the number of bytes `Extra2_info::write`
emits (`write_size`, the distance from offset `FRM_HEADER_SIZE` to the returned
position) equals `store_size()`, which is the sum over the present fields of
payload length + 2 when the length is below 256 and payload length + 4
otherwise. -/
theorem write_size_eq_store_size (c : Extra2Codes) (info : Extra2_info)
    (frm_image : List uchar) (frm_size : Nat) :
    (info.write c frm_image frm_size).2.2.write_size = info.store_size ∧
    (info.write c frm_image frm_size).2.1 - FRM_HEADER_SIZE = info.store_size ∧
    info.store_size =
      ((info.fields.filterMap id).map
        (fun p => if p.length < 256 then p.length + 2 else p.length + 4)).sum := by
  have h := write_pos c info frm_image frm_size
  refine ⟨?_, by omega, store_size_sum info.fields⟩
  show (info.write c frm_image frm_size).2.1 - FRM_HEADER_SIZE = info.store_size
  omega

theorem write_field_image (buf B : List uchar) (t : Nat) (f : Option (List uchar))
    (h64 : 64 ≤ buf.length) :
    write_field (buf.take 64 ++ B ++ buf.drop (64 + B.length), 64 + B.length) t f =
      (buf.take 64 ++ (B ++ records_bytes (field_record t f)) ++
          buf.drop (64 + (B ++ records_bytes (field_record t f)).length),
        64 + (B ++ records_bytes (field_record t f)).length) := by
  cases f with
  | none => simp [write_field, field_record, records_bytes]
  | some p =>
    have hA : (buf.take 64).length = 64 := by simp; omega
    have htake : List.take (64 + B.length) (buf.take 64 ++ B ++ buf.drop (64 + B.length))
        = buf.take 64 ++ B := by
      rw [List.take_append_eq_append_take]
      simp [hA]
    have hdrop : List.drop (64 + B.length + (extra2_record t p).length)
        (buf.take 64 ++ B ++ buf.drop (64 + B.length))
        = buf.drop (64 + B.length + (extra2_record t p).length) := by
      rw [List.drop_append_eq_append_drop]
      have : (buf.take 64 ++ B).length = 64 + B.length := by simp [hA]
      rw [this, List.drop_of_length_le (by rw [this]; omega)]
      simp [Nat.add_comm (extra2_record t p).length]
    simp only [write_field, extra2_write, storeBytes, field_record, records_bytes,
      List.append_nil]
    rw [htake, hdrop]
    simp only [List.length_append, List.append_assoc, Nat.add_assoc]

theorem write_image (c : Extra2Codes) (info : Extra2_info) (buf : List uchar)
    (frm_size : Nat) (h64 : 64 ≤ buf.length) :
    (info.write c buf frm_size).1 =
      buf.take 64 ++ records_bytes (write_records c info) ++
        buf.drop (64 + info.store_size) := by
  have h0 : (buf, FRM_HEADER_SIZE) =
      (buf.take 64 ++ [] ++ buf.drop (64 + ([] : List uchar).length),
        64 + ([] : List uchar).length) := by
    simp [FRM_HEADER_SIZE]
  rw [← write_records_length c info]
  simp only [Extra2_info.write]
  rw [h0]
  simp only [write_field_image _ _ _ _ h64]
  simp only [write_records, records_bytes_append, List.nil_append, List.append_assoc]

/-! ## The dispatch on the tag -/

theorem known_ne (c : Extra2Codes) (hc : c.known.Nodup) :
    (c.EXTRA2_ENGINE_TABLEOPTS ≠ c.EXTRA2_TABLEDEF_VERSION) ∧
    (c.EXTRA2_DEFAULT_PART_ENGINE ≠ c.EXTRA2_TABLEDEF_VERSION ∧
      c.EXTRA2_DEFAULT_PART_ENGINE ≠ c.EXTRA2_ENGINE_TABLEOPTS) ∧
    (c.EXTRA2_GIS ≠ c.EXTRA2_TABLEDEF_VERSION ∧ c.EXTRA2_GIS ≠ c.EXTRA2_ENGINE_TABLEOPTS ∧
      c.EXTRA2_GIS ≠ c.EXTRA2_DEFAULT_PART_ENGINE) ∧
    (c.EXTRA2_PERIOD_FOR_SYSTEM_TIME ≠ c.EXTRA2_TABLEDEF_VERSION ∧
      c.EXTRA2_PERIOD_FOR_SYSTEM_TIME ≠ c.EXTRA2_ENGINE_TABLEOPTS ∧
      c.EXTRA2_PERIOD_FOR_SYSTEM_TIME ≠ c.EXTRA2_DEFAULT_PART_ENGINE ∧
      c.EXTRA2_PERIOD_FOR_SYSTEM_TIME ≠ c.EXTRA2_GIS) ∧
    (c.EXTRA2_FIELD_FLAGS ≠ c.EXTRA2_TABLEDEF_VERSION ∧
      c.EXTRA2_FIELD_FLAGS ≠ c.EXTRA2_ENGINE_TABLEOPTS ∧
      c.EXTRA2_FIELD_FLAGS ≠ c.EXTRA2_DEFAULT_PART_ENGINE ∧
      c.EXTRA2_FIELD_FLAGS ≠ c.EXTRA2_GIS ∧
      c.EXTRA2_FIELD_FLAGS ≠ c.EXTRA2_PERIOD_FOR_SYSTEM_TIME) ∧
    (c.EXTRA2_APPLICATION_TIME_PERIOD ≠ c.EXTRA2_TABLEDEF_VERSION ∧
      c.EXTRA2_APPLICATION_TIME_PERIOD ≠ c.EXTRA2_ENGINE_TABLEOPTS ∧
      c.EXTRA2_APPLICATION_TIME_PERIOD ≠ c.EXTRA2_DEFAULT_PART_ENGINE ∧
      c.EXTRA2_APPLICATION_TIME_PERIOD ≠ c.EXTRA2_GIS ∧
      c.EXTRA2_APPLICATION_TIME_PERIOD ≠ c.EXTRA2_PERIOD_FOR_SYSTEM_TIME ∧
      c.EXTRA2_APPLICATION_TIME_PERIOD ≠ c.EXTRA2_FIELD_FLAGS) ∧
    (c.EXTRA2_FIELD_DATA_TYPE_INFO ≠ c.EXTRA2_TABLEDEF_VERSION ∧
      c.EXTRA2_FIELD_DATA_TYPE_INFO ≠ c.EXTRA2_ENGINE_TABLEOPTS ∧
      c.EXTRA2_FIELD_DATA_TYPE_INFO ≠ c.EXTRA2_DEFAULT_PART_ENGINE ∧
      c.EXTRA2_FIELD_DATA_TYPE_INFO ≠ c.EXTRA2_GIS ∧
      c.EXTRA2_FIELD_DATA_TYPE_INFO ≠ c.EXTRA2_PERIOD_FOR_SYSTEM_TIME ∧
      c.EXTRA2_FIELD_DATA_TYPE_INFO ≠ c.EXTRA2_FIELD_FLAGS ∧
      c.EXTRA2_FIELD_DATA_TYPE_INFO ≠ c.EXTRA2_APPLICATION_TIME_PERIOD) ∧
    (c.EXTRA2_PERIOD_WITHOUT_OVERLAPS ≠ c.EXTRA2_TABLEDEF_VERSION ∧
      c.EXTRA2_PERIOD_WITHOUT_OVERLAPS ≠ c.EXTRA2_ENGINE_TABLEOPTS ∧
      c.EXTRA2_PERIOD_WITHOUT_OVERLAPS ≠ c.EXTRA2_DEFAULT_PART_ENGINE ∧
      c.EXTRA2_PERIOD_WITHOUT_OVERLAPS ≠ c.EXTRA2_GIS ∧
      c.EXTRA2_PERIOD_WITHOUT_OVERLAPS ≠ c.EXTRA2_PERIOD_FOR_SYSTEM_TIME ∧
      c.EXTRA2_PERIOD_WITHOUT_OVERLAPS ≠ c.EXTRA2_FIELD_FLAGS ∧
      c.EXTRA2_PERIOD_WITHOUT_OVERLAPS ≠ c.EXTRA2_APPLICATION_TIME_PERIOD ∧
      c.EXTRA2_PERIOD_WITHOUT_OVERLAPS ≠ c.EXTRA2_FIELD_DATA_TYPE_INFO) ∧
    (c.EXTRA2_INDEX_FLAGS ≠ c.EXTRA2_TABLEDEF_VERSION ∧
      c.EXTRA2_INDEX_FLAGS ≠ c.EXTRA2_ENGINE_TABLEOPTS ∧
      c.EXTRA2_INDEX_FLAGS ≠ c.EXTRA2_DEFAULT_PART_ENGINE ∧
      c.EXTRA2_INDEX_FLAGS ≠ c.EXTRA2_GIS ∧
      c.EXTRA2_INDEX_FLAGS ≠ c.EXTRA2_PERIOD_FOR_SYSTEM_TIME ∧
      c.EXTRA2_INDEX_FLAGS ≠ c.EXTRA2_FIELD_FLAGS ∧
      c.EXTRA2_INDEX_FLAGS ≠ c.EXTRA2_APPLICATION_TIME_PERIOD ∧
      c.EXTRA2_INDEX_FLAGS ≠ c.EXTRA2_FIELD_DATA_TYPE_INFO ∧
      c.EXTRA2_INDEX_FLAGS ≠ c.EXTRA2_PERIOD_WITHOUT_OVERLAPS) := by
  simp only [Extra2Codes.known, List.nodup_cons, List.mem_cons, List.mem_singleton, not_or,
    List.not_mem_nil, not_false_eq_true, List.nodup_nil, and_true] at hc
  obtain ⟨h1, h2, h3, h4, h5, h6, h7, h8, h9⟩ := hc
  refine ⟨?_, ⟨?_, ?_⟩, ⟨?_, ?_, ?_⟩, ⟨?_, ?_, ?_, ?_⟩, ⟨?_, ?_, ?_, ?_, ?_⟩,
    ⟨?_, ?_, ?_, ?_, ?_, ?_⟩, ⟨?_, ?_, ?_, ?_, ?_, ?_, ?_⟩, ⟨?_, ?_, ?_, ?_, ?_, ?_, ?_, ?_⟩,
    ⟨?_, ?_, ?_, ?_, ?_, ?_, ?_, ?_, ?_⟩⟩ <;>
    (intro h; simp only [h, not_true_eq_false, false_and, and_false] at h1 h2 h3 h4 h5 h6 h7 h8 h9)

theorem case_of_version (c : Extra2Codes) (hc : c.known.Nodup) :
    c.case_of c.EXTRA2_TABLEDEF_VERSION = Extra2Case.version := by
  obtain ⟨h1, h2, h3, h4, h5, h6, h7, h8, h9⟩ := known_ne c hc
  simp [Extra2Codes.case_of, h1, h2, h3, h4, h5, h6, h7, h8, h9]

theorem case_of_engine (c : Extra2Codes) (hc : c.known.Nodup) :
    c.case_of c.EXTRA2_DEFAULT_PART_ENGINE = Extra2Case.engine := by
  obtain ⟨h1, h2, h3, h4, h5, h6, h7, h8, h9⟩ := known_ne c hc
  simp [Extra2Codes.case_of, h1, h2, h3, h4, h5, h6, h7, h8, h9]

theorem case_of_options (c : Extra2Codes) (hc : c.known.Nodup) :
    c.case_of c.EXTRA2_ENGINE_TABLEOPTS = Extra2Case.options := by
  obtain ⟨h1, h2, h3, h4, h5, h6, h7, h8, h9⟩ := known_ne c hc
  simp [Extra2Codes.case_of, h1, h2, h3, h4, h5, h6, h7, h8, h9]

theorem case_of_gis (c : Extra2Codes) (hc : c.known.Nodup) :
    c.case_of c.EXTRA2_GIS = Extra2Case.gis := by
  obtain ⟨h1, h2, h3, h4, h5, h6, h7, h8, h9⟩ := known_ne c hc
  simp [Extra2Codes.case_of, h1, h2, h3, h4, h5, h6, h7, h8, h9]

theorem case_of_field_data_type_info (c : Extra2Codes) (hc : c.known.Nodup) :
    c.case_of c.EXTRA2_FIELD_DATA_TYPE_INFO = Extra2Case.field_data_type_info := by
  obtain ⟨h1, h2, h3, h4, h5, h6, h7, h8, h9⟩ := known_ne c hc
  simp [Extra2Codes.case_of, h1, h2, h3, h4, h5, h6, h7, h8, h9]

theorem case_of_index_flags (c : Extra2Codes) (hc : c.known.Nodup) :
    c.case_of c.EXTRA2_INDEX_FLAGS = Extra2Case.index_flags := by
  obtain ⟨h1, h2, h3, h4, h5, h6, h7, h8, h9⟩ := known_ne c hc
  simp [Extra2Codes.case_of, h1, h2, h3, h4, h5, h6, h7, h8, h9]

theorem case_of_system_period (c : Extra2Codes) (hc : c.known.Nodup) :
    c.case_of c.EXTRA2_PERIOD_FOR_SYSTEM_TIME = Extra2Case.system_period := by
  obtain ⟨h1, h2, h3, h4, h5, h6, h7, h8, h9⟩ := known_ne c hc
  simp [Extra2Codes.case_of, h1, h2, h3, h4, h5, h6, h7, h8, h9]

theorem case_of_application_period (c : Extra2Codes) (hc : c.known.Nodup) :
    c.case_of c.EXTRA2_APPLICATION_TIME_PERIOD = Extra2Case.application_period := by
  obtain ⟨h1, h2, h3, h4, h5, h6, h7, h8, h9⟩ := known_ne c hc
  simp [Extra2Codes.case_of, h1, h2, h3, h4, h5, h6, h7, h8, h9]

theorem case_of_without_overlaps (c : Extra2Codes) (hc : c.known.Nodup) :
    c.case_of c.EXTRA2_PERIOD_WITHOUT_OVERLAPS = Extra2Case.without_overlaps := by
  obtain ⟨h1, h2, h3, h4, h5, h6, h7, h8, h9⟩ := known_ne c hc
  simp [Extra2Codes.case_of, h1, h2, h3, h4, h5, h6, h7, h8, h9]

theorem case_of_field_flags (c : Extra2Codes) (hc : c.known.Nodup) :
    c.case_of c.EXTRA2_FIELD_FLAGS = Extra2Case.field_flags := by
  obtain ⟨h1, h2, h3, h4, h5, h6, h7, h8, h9⟩ := known_ne c hc
  simp [Extra2Codes.case_of, h1, h2, h3, h4, h5, h6, h7, h8, h9]

theorem case_of_unknown (c : Extra2Codes) (type : Nat) (ht : type ∉ c.known) :
    c.case_of type = Extra2Case.other := by
  simp only [Extra2Codes.known, List.mem_cons, List.mem_singleton, not_or, List.not_mem_nil,
    not_false_eq_true, and_true] at ht
  simp [Extra2Codes.case_of, ht]

theorem read_switch_version (c : Extra2Codes) (hc : c.known.Nodup) (length : Nat)
    (payload : List uchar) (info : Extra2_info) :
    read_switch c c.EXTRA2_TABLEDEF_VERSION length payload info =
      match info.version with
      | some v => (decide (length ≠ v.length), info)
      | none => (false, { info with version := some payload }) := by
  simp only [read_switch, case_of_version c hc]
  cases info.version with
  | none => rfl
  | some v => simp only []; split_ifs <;> simp_all

theorem read_switch_engine (c : Extra2Codes) (hc : c.known.Nodup) (length : Nat)
    (payload : List uchar) (info : Extra2_info) :
    read_switch c c.EXTRA2_DEFAULT_PART_ENGINE length payload info =
      (false, { info with engine := some payload }) := by
  simp only [read_switch, case_of_engine c hc]

theorem read_switch_options (c : Extra2Codes) (hc : c.known.Nodup) (length : Nat)
    (payload : List uchar) (info : Extra2_info) :
    read_switch c c.EXTRA2_ENGINE_TABLEOPTS length payload info =
      ((read_once info.options payload).1,
        { info with options := (read_once info.options payload).2 }) := by
  simp only [read_switch, case_of_options c hc]

theorem read_switch_gis (c : Extra2Codes) (hc : c.known.Nodup) (length : Nat)
    (payload : List uchar) (info : Extra2_info) :
    read_switch c c.EXTRA2_GIS length payload info =
      ((read_once info.gis payload).1,
        { info with gis := (read_once info.gis payload).2 }) := by
  simp only [read_switch, case_of_gis c hc]

theorem read_switch_field_data_type_info (c : Extra2Codes) (hc : c.known.Nodup) (length : Nat)
    (payload : List uchar) (info : Extra2_info) :
    read_switch c c.EXTRA2_FIELD_DATA_TYPE_INFO length payload info =
      ((read_once info.field_data_type_info payload).1,
        { info with field_data_type_info := (read_once info.field_data_type_info payload).2 }) := by
  simp only [read_switch, case_of_field_data_type_info c hc]

theorem read_switch_index_flags (c : Extra2Codes) (hc : c.known.Nodup) (length : Nat)
    (payload : List uchar) (info : Extra2_info) :
    read_switch c c.EXTRA2_INDEX_FLAGS length payload info =
      ((read_once info.index_flags payload).1,
        { info with index_flags := (read_once info.index_flags payload).2 }) := by
  simp only [read_switch, case_of_index_flags c hc]

theorem read_switch_system_period (c : Extra2Codes) (hc : c.known.Nodup) (length : Nat)
    (payload : List uchar) (info : Extra2_info) :
    read_switch c c.EXTRA2_PERIOD_FOR_SYSTEM_TIME length payload info =
      ((read_once info.system_period payload).1 || decide (length ≠ 2 * c.frm_fieldno_size),
        { info with system_period := (read_once info.system_period payload).2 }) := by
  simp only [read_switch, case_of_system_period c hc]

theorem read_switch_application_period (c : Extra2Codes) (hc : c.known.Nodup) (length : Nat)
    (payload : List uchar) (info : Extra2_info) :
    read_switch c c.EXTRA2_APPLICATION_TIME_PERIOD length payload info =
      ((read_once info.application_period payload).1,
        { info with application_period := (read_once info.application_period payload).2 }) := by
  simp only [read_switch, case_of_application_period c hc]

theorem read_switch_without_overlaps (c : Extra2Codes) (hc : c.known.Nodup) (length : Nat)
    (payload : List uchar) (info : Extra2_info) :
    read_switch c c.EXTRA2_PERIOD_WITHOUT_OVERLAPS length payload info =
      ((read_once info.without_overlaps payload).1,
        { info with without_overlaps := (read_once info.without_overlaps payload).2 }) := by
  simp only [read_switch, case_of_without_overlaps c hc]

theorem read_switch_field_flags (c : Extra2Codes) (hc : c.known.Nodup) (length : Nat)
    (payload : List uchar) (info : Extra2_info) :
    read_switch c c.EXTRA2_FIELD_FLAGS length payload info =
      ((read_once info.field_flags payload).1,
        { info with field_flags := (read_once info.field_flags payload).2 }) := by
  simp only [read_switch, case_of_field_flags c hc]

theorem read_switch_unknown (c : Extra2Codes) (type length : Nat) (payload : List uchar)
    (info : Extra2_info) (ht : type ∉ c.known) :
    read_switch c type length payload info =
      (decide (c.EXTRA2_ENGINE_IMPORTANT ≤ type), info) := by
  simp only [read_switch, case_of_unknown c type ht]

theorem read_records_append (c : Extra2Codes) (xs ys : List Extra2Record) (info : Extra2_info) :
    read_records c (xs ++ ys) info =
      if (read_records c xs info).1 then (true, (read_records c xs info).2)
      else read_records c ys (read_records c xs info).2 := by
  induction xs generalizing info with
  | nil => simp [read_records]
  | cons r rs ih =>
    simp only [List.cons_append, read_records]
    split_ifs with h1 h2 h3 <;> simp_all

theorem read_records_field_version (c : Extra2Codes) (hc : c.known.Nodup)
    (f : Option (List uchar)) (rest : List Extra2Record) (info : Extra2_info)
    (hi : info.version = none) :
    read_records c (field_record c.EXTRA2_TABLEDEF_VERSION f ++ rest) info =
      read_records c rest { info with version := f } := by
  cases f with
  | none =>
    have : { info with version := none } = info := by
      cases info; simp only at hi; subst hi; rfl
    rw [this]; rfl
  | some p =>
    simp only [field_record, List.singleton_append, read_records, read_switch_version c hc, hi,
      read_once]
    simp

theorem read_records_field_engine (c : Extra2Codes) (hc : c.known.Nodup)
    (f : Option (List uchar)) (rest : List Extra2Record) (info : Extra2_info)
    (hi : info.engine = none) :
    read_records c (field_record c.EXTRA2_DEFAULT_PART_ENGINE f ++ rest) info =
      read_records c rest { info with engine := f } := by
  cases f with
  | none =>
    have : { info with engine := none } = info := by
      cases info; simp only at hi; subst hi; rfl
    rw [this]; rfl
  | some p =>
    simp only [field_record, List.singleton_append, read_records, read_switch_engine c hc, hi,
      read_once]
    simp

theorem read_records_field_options (c : Extra2Codes) (hc : c.known.Nodup)
    (f : Option (List uchar)) (rest : List Extra2Record) (info : Extra2_info)
    (hi : info.options = none) :
    read_records c (field_record c.EXTRA2_ENGINE_TABLEOPTS f ++ rest) info =
      read_records c rest { info with options := f } := by
  cases f with
  | none =>
    have : { info with options := none } = info := by
      cases info; simp only at hi; subst hi; rfl
    rw [this]; rfl
  | some p =>
    simp only [field_record, List.singleton_append, read_records, read_switch_options c hc, hi,
      read_once]
    simp

theorem read_records_field_gis (c : Extra2Codes) (hc : c.known.Nodup)
    (f : Option (List uchar)) (rest : List Extra2Record) (info : Extra2_info)
    (hi : info.gis = none) :
    read_records c (field_record c.EXTRA2_GIS f ++ rest) info =
      read_records c rest { info with gis := f } := by
  cases f with
  | none =>
    have : { info with gis := none } = info := by
      cases info; simp only at hi; subst hi; rfl
    rw [this]; rfl
  | some p =>
    simp only [field_record, List.singleton_append, read_records, read_switch_gis c hc, hi,
      read_once]
    simp

theorem read_records_field_field_data_type_info (c : Extra2Codes) (hc : c.known.Nodup)
    (f : Option (List uchar)) (rest : List Extra2Record) (info : Extra2_info)
    (hi : info.field_data_type_info = none) :
    read_records c (field_record c.EXTRA2_FIELD_DATA_TYPE_INFO f ++ rest) info =
      read_records c rest { info with field_data_type_info := f } := by
  cases f with
  | none =>
    have : { info with field_data_type_info := none } = info := by
      cases info; simp only at hi; subst hi; rfl
    rw [this]; rfl
  | some p =>
    simp only [field_record, List.singleton_append, read_records, read_switch_field_data_type_info c hc, hi,
      read_once]
    simp

theorem read_records_field_index_flags (c : Extra2Codes) (hc : c.known.Nodup)
    (f : Option (List uchar)) (rest : List Extra2Record) (info : Extra2_info)
    (hi : info.index_flags = none) :
    read_records c (field_record c.EXTRA2_INDEX_FLAGS f ++ rest) info =
      read_records c rest { info with index_flags := f } := by
  cases f with
  | none =>
    have : { info with index_flags := none } = info := by
      cases info; simp only at hi; subst hi; rfl
    rw [this]; rfl
  | some p =>
    simp only [field_record, List.singleton_append, read_records, read_switch_index_flags c hc, hi,
      read_once]
    simp

theorem read_records_field_system_period (c : Extra2Codes) (hc : c.known.Nodup)
    (f : Option (List uchar)) (rest : List Extra2Record) (info : Extra2_info)
    (hi : info.system_period = none)
    (hl : ∀ p, f = some p → p.length = 2 * c.frm_fieldno_size) :
    read_records c (field_record c.EXTRA2_PERIOD_FOR_SYSTEM_TIME f ++ rest) info =
      read_records c rest { info with system_period := f } := by
  cases f with
  | none =>
    have : { info with system_period := none } = info := by
      cases info; simp only at hi; subst hi; rfl
    rw [this]; rfl
  | some p =>
    simp only [field_record, List.singleton_append, read_records, read_switch_system_period c hc, hi,
      read_once, hl p rfl]
    simp

theorem read_records_field_application_period (c : Extra2Codes) (hc : c.known.Nodup)
    (f : Option (List uchar)) (rest : List Extra2Record) (info : Extra2_info)
    (hi : info.application_period = none) :
    read_records c (field_record c.EXTRA2_APPLICATION_TIME_PERIOD f ++ rest) info =
      read_records c rest { info with application_period := f } := by
  cases f with
  | none =>
    have : { info with application_period := none } = info := by
      cases info; simp only at hi; subst hi; rfl
    rw [this]; rfl
  | some p =>
    simp only [field_record, List.singleton_append, read_records, read_switch_application_period c hc, hi,
      read_once]
    simp

theorem read_records_field_without_overlaps (c : Extra2Codes) (hc : c.known.Nodup)
    (f : Option (List uchar)) (rest : List Extra2Record) (info : Extra2_info)
    (hi : info.without_overlaps = none) :
    read_records c (field_record c.EXTRA2_PERIOD_WITHOUT_OVERLAPS f ++ rest) info =
      read_records c rest { info with without_overlaps := f } := by
  cases f with
  | none =>
    have : { info with without_overlaps := none } = info := by
      cases info; simp only at hi; subst hi; rfl
    rw [this]; rfl
  | some p =>
    simp only [field_record, List.singleton_append, read_records, read_switch_without_overlaps c hc, hi,
      read_once]
    simp

theorem read_records_field_field_flags (c : Extra2Codes) (hc : c.known.Nodup)
    (f : Option (List uchar)) (rest : List Extra2Record) (info : Extra2_info)
    (hi : info.field_flags = none) :
    read_records c (field_record c.EXTRA2_FIELD_FLAGS f ++ rest) info =
      read_records c rest { info with field_flags := f } := by
  cases f with
  | none =>
    have : { info with field_flags := none } = info := by
      cases info; simp only at hi; subst hi; rfl
    rw [this]; rfl
  | some p =>
    simp only [field_record, List.singleton_append, read_records, read_switch_field_flags c hc, hi,
      read_once]
    simp

/-! ## Round trip -/

theorem read_records_write_records (c : Extra2Codes) (hc : c.known.Nodup)
    (info : Extra2_info) (rs : Nat)
    (hsys : ∀ p, info.system_period = some p → p.length = 2 * c.frm_fieldno_size) :
    read_records c (write_records c info) { read_size := rs } =
      (false, { info with read_size := rs, write_size := 0 }) := by
  unfold write_records
  rw [← List.append_nil (field_record c.EXTRA2_FIELD_FLAGS info.field_flags)]
  rw [read_records_field_version c hc _ _ _ rfl]
  rw [read_records_field_engine c hc _ _ _ rfl]
  rw [read_records_field_options c hc _ _ _ rfl]
  rw [read_records_field_gis c hc _ _ _ rfl]
  rw [read_records_field_field_data_type_info c hc _ _ _ rfl]
  rw [read_records_field_index_flags c hc _ _ _ rfl]
  rw [read_records_field_system_period c hc _ _ _ rfl hsys]
  rw [read_records_field_application_period c hc _ _ _ rfl]
  rw [read_records_field_without_overlaps c hc _ _ _ rfl]
  rw [read_records_field_field_flags c hc _ _ _ rfl]
  cases info
  rfl

theorem mem_field_record (t : Nat) (f : Option (List uchar)) (r : Extra2Record)
    (h : r ∈ field_record t f) : r.1 = t ∧ f = some r.2 := by
  cases f with
  | none => simp [field_record] at h
  | some p =>
    simp only [field_record, List.mem_singleton] at h
    subst h
    exact ⟨rfl, rfl⟩

theorem mem_write_records (c : Extra2Codes) (info : Extra2_info) (r : Extra2Record)
    (h : r ∈ write_records c info) : r.1 ∈ c.known ∧ some r.2 ∈ info.fields := by
  simp only [write_records, List.mem_append] at h
  simp only [Extra2Codes.known, Extra2_info.fields, List.mem_cons, List.mem_singleton,
    List.not_mem_nil, or_false]
  rcases h with h | h | h | h | h | h | h | h | h | h <;>
    obtain ⟨h1, h2⟩ := mem_field_record _ _ _ h <;> rw [h1, ← h2] <;> simp

theorem byteAt_append_left (xs ys : List uchar) (i : Nat) (h : i < xs.length) :
    byteAt (xs ++ ys) i = byteAt xs i := by
  simp [byteAt, List.getD_eq_getElem?_getD, List.getElem?_append_left h]

theorem byteAt_take (xs : List uchar) (n i : Nat) (h : i < n) :
    byteAt (xs.take n) i = byteAt xs i := by
  simp [byteAt, List.getD_eq_getElem?_getD, List.getElem?_take, h]

theorem write_header (c : Extra2Codes) (info : Extra2_info) (buf : List uchar)
    (frm_size : Nat) (h64 : 64 ≤ buf.length) (i : Nat) (hi : i < 64) :
    byteAt (info.write c buf frm_size).1 i = byteAt buf i := by
  rw [write_image c info buf frm_size h64, List.append_assoc,
    byteAt_append_left _ _ _ (by simp; omega), byteAt_take _ _ _ hi]

theorem write_length (c : Extra2Codes) (info : Extra2_info) (buf : List uchar)
    (frm_size : Nat) (h : 64 + info.store_size ≤ buf.length) :
    (info.write c buf frm_size).1.length = buf.length := by
  rw [write_image c info buf frm_size (by omega)]
  simp only [List.length_append, List.length_take, List.length_drop, write_records_length]
  omega

theorem write_slice (c : Extra2Codes) (info : Extra2_info) (buf : List uchar)
    (frm_size : Nat) (h64 : 64 ≤ buf.length) :
    slice (info.write c buf frm_size).1 64 info.store_size =
      records_bytes (write_records c info) := by
  rw [write_image c info buf frm_size h64]
  unfold slice
  have hA : (buf.take 64).length = 64 := by simp; omega
  rw [List.append_assoc, List.drop_append_eq_append_drop, hA]
  simp only [List.drop_of_length_le (Nat.le_of_eq hA), Nat.sub_self, List.drop_zero,
    List.nil_append]
  rw [← write_records_length c info, List.take_left]

theorem records_bytes_head (r : Extra2Record) (rs : List Extra2Record) (more : List uchar) :
    byteAt (records_bytes (r :: rs) ++ more) 0 = r.1 % 256 := by
  simp [records_bytes, extra2_record, byteAt_cons_zero, toByte_val]

theorem field_record_eq_nil (t : Nat) (f : Option (List uchar))
    (h : field_record t f = []) : f = none := by
  cases f with
  | none => rfl
  | some p => simp [field_record] at h

theorem write_records_eq_nil (c : Extra2Codes) (info : Extra2_info)
    (h : write_records c info = []) (rs ws : Nat) :
    ({ info with read_size := rs, write_size := ws } : Extra2_info) =
      { read_size := rs, write_size := ws } := by
  simp only [write_records, List.append_eq_nil] at h
  obtain ⟨h1, h2, h3, h4, h5, h6, h7, h8, h9, h10⟩ := h
  have e1 := field_record_eq_nil _ _ h1
  have e2 := field_record_eq_nil _ _ h2
  have e3 := field_record_eq_nil _ _ h3
  have e4 := field_record_eq_nil _ _ h4
  have e5 := field_record_eq_nil _ _ h5
  have e6 := field_record_eq_nil _ _ h6
  have e7 := field_record_eq_nil _ _ h7
  have e8 := field_record_eq_nil _ _ h8
  have e9 := field_record_eq_nil _ _ h9
  have e10 := field_record_eq_nil _ _ h10
  cases info
  simp only at e1 e2 e3 e4 e5 e6 e7 e8 e9 e10
  subst e1 e2 e3 e4 e5 e6 e7 e8 e9 e10
  rfl

/-- C1. Round trip: for a code table whose tags are pairwise distinct, fit one
byte and are not the old-frm character, a metadata value whose present fields
have payloads of 1..65535 bytes (`system_period` exactly `2 * frm_fieldno_size`),
written by `Extra2_info::write` into a buffer that holds the header and the
segment and whose header bytes 4-5 hold the number of bytes written, is decoded
by `Extra2_info::read`, started with no field set, successfully and to the same
fields with the same payloads. -/
theorem read_write_roundtrip (c : Extra2Codes) (hc : c.valid) (info : Extra2_info)
    (buf : List uchar)
    (hlen : ∀ p, some p ∈ info.fields → 1 ≤ p.length ∧ p.length ≤ 65535)
    (hsys : ∀ p, info.system_period = some p → p.length = 2 * c.frm_fieldno_size)
    (hbuf : FRM_HEADER_SIZE + info.store_size ≤ buf.length)
    (hhdr : uint2korr (info.write c buf buf.length).1 4 =
      (info.write c buf buf.length).2.2.write_size) :
    Extra2_info.read c Extra2_info.empty (info.write c buf buf.length).1
        (info.write c buf buf.length).1.length =
      some (false, { info with read_size := info.store_size, write_size := 0 }) ∧
    ({ info with read_size := info.store_size, write_size := 0 } : Extra2_info).fields =
      info.fields := by
  refine ⟨?_, rfl⟩
  obtain ⟨hnd, hbyte, hmark⟩ := hc
  simp only [FRM_HEADER_SIZE] at hbuf
  have hws := (write_size_eq_store_size_aux c info buf buf.length)
  rw [hws] at hhdr
  have hL := write_length c info buf buf.length hbuf
  have hS := write_slice c info buf buf.length (by omega)
  rw [hL]
  rw [← hhdr] at hS
  have hD := slice_drop _ _ _ _ hS
  by_cases hm : byteAt (info.write c buf buf.length).1 64 = OLD_FRM_MARK
  · cases hw : write_records c info with
    | nil =>
      rw [write_records_eq_nil c info hw]
      unfold Extra2_info.read
      simp only [hhdr, hm, if_true]
      rw [if_neg (by simp only [FRM_HEADER_SIZE]; omega)]
      rfl
    | cons r rs =>
      exfalso
      rw [hw] at hD
      have h0 := byteAt_drop (info.write c buf buf.length).1 64 0
      rw [hD, records_bytes_head] at h0
      have hr := (mem_write_records c info r (by rw [hw]; exact List.mem_cons_self _ _)).1
      have := hbyte _ hr
      have := hmark _ hr
      rw [Nat.add_zero, hm, Nat.mod_eq_of_lt (hbyte _ hr)] at h0
      exact this h0
  · rw [read_of_records c _ _ buf.length (write_records c info) (by omega) (by omega) hm hS]
    · rw [hhdr]
      show some (read_records c (write_records c info) { read_size := info.store_size }) = _
      rw [read_records_write_records c hnd info _ hsys]
    · intro r hr
      obtain ⟨h1, h2⟩ := mem_write_records c info r hr
      exact ⟨hbyte _ h1, hlen _ h2⟩

/-! ## Exact landing -/

theorem toByte_byteAt (image : List uchar) (i : Nat) :
    toByte (byteAt image i) = image.getD i 0 := by
  apply Fin.ext
  simp only [toByte, byteAt]
  exact Nat.mod_eq_of_lt (image.getD i 0).isLt

theorem slice_succ (image : List uchar) (pos n : Nat) (h : pos < image.length) :
    slice image pos (n + 1) = image.getD pos 0 :: slice image (pos + 1) n := by
  unfold slice
  rw [List.drop_eq_getElem_cons h, List.take_succ_cons, List.getD_eq_getElem _ _ h]

theorem slice_append (image : List uchar) (pos a b : Nat) :
    slice image pos (a + b) = slice image pos a ++ slice image (pos + a) b := by
  unfold slice
  rw [List.take_add, List.drop_drop]

theorem byteAt_zero_toByte (image : List uchar) (i : Nat) (h : byteAt image i = 0) :
    image.getD i 0 = 0 := by
  apply Fin.ext
  exact h

theorem extra2_read_len_success (image : List uchar) (pos e2end : Nat)
    (hlen : e2end ≤ image.length)
    (h : (extra2_read_len image (pos + 1) e2end).1 ≠ 0) :
    pos + 2 ≤ (extra2_read_len image (pos + 1) e2end).2 ∧
    (extra2_read_len image (pos + 1) e2end).2 + (extra2_read_len image (pos + 1) e2end).1
      ≤ e2end ∧
    (extra2_read_len image (pos + 1) e2end).1 ≤ 65535 ∧
    slice image pos ((extra2_read_len image (pos + 1) e2end).2 - pos +
        (extra2_read_len image (pos + 1) e2end).1) =
      extra2_record (byteAt image pos)
        (slice image (extra2_read_len image (pos + 1) e2end).2
          (extra2_read_len image (pos + 1) e2end).1) := by
  have hb := byteAt_lt image (pos + 1)
  have hu := uint2korr_lt image (pos + 1 + 1)
  unfold extra2_read_len at h ⊢
  simp only [] at h ⊢
  by_cases h1 : byteAt image (pos + 1) ≠ 0
  · simp only [h1, if_true, ne_eq, not_false_eq_true] at h ⊢
    by_cases h2 : e2end < pos + 1 + 1 + byteAt image (pos + 1)
    · simp [h2] at h
    · simp only [h2, if_false] at h ⊢
      refine ⟨by omega, by omega, by omega, ?_⟩
      have hl : (slice image (pos + 1 + 1) (byteAt image (pos + 1))).length
          = byteAt image (pos + 1) := slice_length _ _ _ (by omega)
      rw [show pos + 1 + 1 - pos + byteAt image (pos + 1) = byteAt image (pos + 1) + 1 + 1 by omega]
      rw [slice_succ _ _ _ (by omega), slice_succ _ _ _ (by omega)]
      simp only [extra2_record, hl, hb, if_true, toByte_byteAt, List.singleton_append]
  · have h1' : byteAt image (pos + 1) = 0 := by omega
    simp only [h1', ne_eq, not_true_eq_false, if_false] at h ⊢
    by_cases h2 : e2end < pos + 1 + 1 + 2
    · simp [h2] at h
    · simp only [h2, if_false] at h ⊢
      by_cases h3 : uint2korr image (pos + 1 + 1) < 256
      · simp [h3] at h
      · simp only [h3, if_false] at h ⊢
        by_cases h4 : e2end < pos + 1 + 1 + 2 + uint2korr image (pos + 1 + 1)
        · simp [h4] at h
        · simp only [h4, if_false] at h ⊢
          refine ⟨by omega, by omega, by omega, ?_⟩
          have hl : (slice image (pos + 1 + 1 + 2) (uint2korr image (pos + 1 + 1))).length
              = uint2korr image (pos + 1 + 1) := slice_length _ _ _ (by omega)
          rw [show pos + 1 + 1 + 2 - pos + uint2korr image (pos + 1 + 1)
            = uint2korr image (pos + 1 + 1) + 1 + 1 + 1 + 1 by omega]
          rw [slice_succ _ _ _ (by omega), slice_succ _ _ _ (by omega),
            slice_succ _ _ _ (by omega), slice_succ _ _ _ (by omega)]
          have e1 : toByte (uint2korr image (pos + 1 + 1)) = image.getD (pos + 1 + 1) 0 := by
            apply Fin.ext
            have := byteAt_lt image (pos + 1 + 1)
            simp only [toByte, uint2korr]
            show _ = byteAt image (pos + 1 + 1)
            omega
          have e2 : toByte (uint2korr image (pos + 1 + 1) / 256)
              = image.getD (pos + 1 + 1 + 1) 0 := by
            apply Fin.ext
            have := byteAt_lt image (pos + 1 + 1)
            have := byteAt_lt image (pos + 1 + 1 + 1)
            simp only [toByte, uint2korr]
            show _ = byteAt image (pos + 1 + 1 + 1)
            omega
          simp only [extra2_record, hl, h3, if_false, toByte_byteAt, e1, e2,
            byteAt_zero_toByte _ _ h1', List.cons_append, List.nil_append]

theorem read_loop_success (c : Extra2Codes) (image : List uchar) (e2end : Nat)
    (hlen : e2end ≤ image.length) :
    ∀ fuel pos info out, read_loop c image e2end fuel pos info = some (false, out) →
      ∃ recs : List Extra2Record, (∀ r ∈ recs, rec_ok r) ∧
        slice image pos (e2end - pos) = records_bytes recs ∧
        read_records c recs info = (false, out) := by
  intro fuel
  induction fuel with
  | zero =>
    intro pos info out h
    unfold read_loop at h
    by_cases h3 : pos + 3 ≤ e2end
    · simp [h3] at h
    · simp only [h3, if_false, Option.some.injEq, Prod.mk.injEq, decide_eq_false_iff_not,
        ne_eq, not_not] at h
      refine ⟨[], by simp, ?_, ?_⟩
      · rw [h.1]; simp [slice, records_bytes]
      · rw [← h.2]; rfl
  | succ n ih =>
    intro pos info out h
    rw [read_loop] at h
    by_cases h3 : pos + 3 ≤ e2end
    · simp only [h3, if_true] at h
      by_cases h4 : (extra2_read_len image (pos + 1) e2end).1 = 0
      · simp [h4] at h
      · simp only [h4, if_false] at h
        obtain ⟨q1, q2, q3, q4⟩ := extra2_read_len_success image pos e2end hlen h4
        by_cases h5 : (read_switch c (byteAt image pos) (extra2_read_len image (pos + 1) e2end).1
            (slice image (extra2_read_len image (pos + 1) e2end).2
              (extra2_read_len image (pos + 1) e2end).1) info).1 = true
        · simp [h5] at h
        · simp only [h5, if_false] at h
          obtain ⟨recs, r1, r2, r3⟩ := ih _ _ _ h
          have hl := slice_length image (extra2_read_len image (pos + 1) e2end).2
            (extra2_read_len image (pos + 1) e2end).1 (by omega)
          refine ⟨(byteAt image pos, slice image (extra2_read_len image (pos + 1) e2end).2
              (extra2_read_len image (pos + 1) e2end).1) :: recs, ?_, ?_, ?_⟩
          · intro r hr
            rcases List.mem_cons.mp hr with hr | hr
            · rw [hr]
              exact ⟨byteAt_lt image pos, by rw [hl]; omega, by rw [hl]; omega⟩
            · exact r1 r hr
          · simp only [records_bytes]
            have e : (extra2_read_len image (pos + 1) e2end).2 +
                (extra2_read_len image (pos + 1) e2end).1 =
                pos + ((extra2_read_len image (pos + 1) e2end).2 - pos +
                  (extra2_read_len image (pos + 1) e2end).1) := by omega
            rw [← q4, ← r2, e, ← slice_append]
            congr 1
            omega
          · simp only [read_records, hl, h5, if_false]
            exact r3
    · simp only [h3, if_false, Option.some.injEq, Prod.mk.injEq, decide_eq_false_iff_not,
        ne_eq, not_not] at h
      refine ⟨[], by simp, ?_, ?_⟩
      · rw [h.1]; simp [slice, records_bytes]
      · rw [← h.2]; rfl

/-- The early return of `read` on a buffer too short for the announced segment. -/
theorem read_too_short (c : Extra2Codes) (info : Extra2_info) (frm_image : List uchar)
    (frm_size : Nat) (h : frm_size < FRM_HEADER_SIZE + uint2korr frm_image 4) :
    Extra2_info.read c info frm_image frm_size =
      some (true, { info with read_size := uint2korr frm_image 4 }) := by
  unfold Extra2_info.read
  simp only [h, if_true]

/-- C4. `Extra2_info::read` takes the segment length as the 2-byte
little-endian value at offset 4 (`byte4 + 256 * byte5`); for every buffer with
`FRM_HEADER_SIZE + segment_length > frm_size` it reports failure, and the
metadata is as before the call but for `read_size`: no field is populated. -/
theorem read_truncated (c : Extra2Codes) (info : Extra2_info) (frm_image : List uchar)
    (frm_size : Nat)
    (h : frm_size < FRM_HEADER_SIZE + (byteAt frm_image 4 + 256 * byteAt frm_image 5)) :
    Extra2_info.read c info frm_image frm_size =
      some (true, { info with read_size := byteAt frm_image 4 + 256 * byteAt frm_image 5 }) ∧
    ({ info with read_size := byteAt frm_image 4 + 256 * byteAt frm_image 5 } :
      Extra2_info).fields = info.fields :=
  ⟨read_too_short c info frm_image frm_size h, rfl⟩

theorem byteAt_append_congr (tail p2 more : List uchar) (i : Nat) (h : i < tail.length) :
    byteAt (tail ++ more) i = byteAt (tail ++ p2) i := by
  rw [byteAt_append_left _ _ _ h, byteAt_append_left _ _ _ h]

/-- The loop fails when the segment ends inside a record. -/
theorem read_loop_cut (c : Extra2Codes) (image : List uchar) (e2end fuel pos : Nat)
    (info : Extra2_info) (t : Nat) (p tail p2 more : List uchar)
    (hd : image.drop pos = tail ++ more) (hend : pos + tail.length = e2end)
    (hrec : tail ++ p2 = extra2_record t p) (ht : tail ≠ []) (hp2 : p2 ≠ [])
    (hok : rec_ok (t, p)) (hfuel : fuel ≠ 0) :
    read_loop c image e2end fuel pos info = some (true, info) := by
  have htl : 0 < tail.length := List.length_pos.mpr ht
  have hpl : 0 < p2.length := List.length_pos.mpr hp2
  have hlen := extra2_record_length t p
  have hsum : tail.length + p2.length = (extra2_record t p).length := by
    rw [← hrec, List.length_append]
  obtain ⟨_, hp1, hp65⟩ := hok
  simp only at hp1 hp65
  by_cases h3 : pos + 3 ≤ e2end
  · obtain ⟨n, rfl⟩ : ∃ n, fuel = n + 1 := ⟨fuel - 1, by omega⟩
    have hb : ∀ i, i < tail.length → byteAt image (pos + i) = byteAt (extra2_record t p) i := by
      intro i hi
      rw [← byteAt_drop, hd, byteAt_append_congr tail p2 more i hi, hrec]
    have hz : (extra2_read_len image (pos + 1) e2end).1 = 0 := by
      unfold extra2_read_len
      simp only []
      by_cases hlt : p.length < 256
      · have hr : extra2_record t p = toByte t :: toByte p.length :: p := by
          simp [extra2_record, hlt]
        have h1 := hb 1 (by omega)
        rw [hr] at h1
        simp only [byteAt_cons_succ, byteAt_cons_zero, toByte_val] at h1
        rw [Nat.mod_eq_of_lt hlt] at h1
        rw [h1]
        simp only [hlt, if_true] at hlen
        have h5 : p.length ≠ 0 := by omega
        have h6 : e2end < pos + 1 + 1 + p.length := by omega
        simp [h5, h6]
      · have hr : extra2_record t p
            = toByte t :: 0 :: toByte p.length :: toByte (p.length / 256) :: p := by
          simp [extra2_record, hlt]
        simp only [hlt, if_false] at hlen
        have h1 := hb 1 (by omega)
        rw [hr] at h1
        simp only [byteAt_cons_succ, byteAt_cons_zero] at h1
        have h1' : byteAt image (pos + 1) = 0 := h1
        simp only [h1', ne_eq, not_true_eq_false, if_false]
        by_cases h4 : e2end < pos + 1 + 1 + 2
        · simp [h4]
        · have h2 := hb 2 (by omega)
          have h3' := hb 3 (by omega)
          rw [hr] at h2 h3'
          simp only [byteAt_cons_succ, byteAt_cons_zero, toByte_val] at h2 h3'
          have e2 : uint2korr image (pos + 1 + 1) = p.length := by
            unfold uint2korr
            rw [show pos + 1 + 1 = pos + 2 by omega, show pos + 2 + 1 = pos + 3 by omega,
              h2, h3']
            omega
          have h6 : e2end < pos + 1 + 1 + 2 + p.length := by omega
          simp [h4, e2, hlt, h6]
    rw [read_loop]
    simp only [h3, if_true, hz]
  · rw [read_loop_end _ _ _ _ _ _ (by omega)]
    have : pos ≠ e2end := by omega
    simp [this]

/-- The loop fails on 1 or 2 stray bytes. -/
theorem read_loop_stray (c : Extra2Codes) (image : List uchar) (e2end fuel pos : Nat)
    (info : Extra2_info) (h1 : pos < e2end) (h2 : e2end < pos + 3) :
    read_loop c image e2end fuel pos info = some (true, info) := by
  rw [read_loop_end _ _ _ _ _ _ h2]
  have : pos ≠ e2end := by omega
  simp [this]

/-- Failure of `read` after a prefix of records. -/
theorem read_fails_after_records (c : Extra2Codes) (info : Extra2_info) (image : List uchar)
    (frm_size : Nat) (recs : List Extra2Record) (tail : List uchar)
    (hlen : frm_size ≤ image.length)
    (hmark : byteAt image 64 ≠ OLD_FRM_MARK)
    (hseg : slice image 64 (uint2korr image 4) = records_bytes recs ++ tail)
    (hok : ∀ r ∈ recs, rec_ok r)
    (hloop : 64 + uint2korr image 4 ≤ frm_size → ∀ i, ∃ out,
      read_loop c image (64 + uint2korr image 4) (uint2korr image 4 + 1)
        (64 + (records_bytes recs).length) i = some (true, out)) :
    ∃ out, Extra2_info.read c info image frm_size = some (true, out) := by
  by_cases hsz : 64 + uint2korr image 4 ≤ frm_size
  · rw [read_records_then c info image frm_size recs tail hsz hlen hmark hseg hok]
    split_ifs with h
    · exact ⟨_, rfl⟩
    · exact hloop hsz _
  · refine ⟨_, read_too_short c info image frm_size ?_⟩
    simp only [FRM_HEADER_SIZE]
    omega

/-- What follows a prefix of records in the segment. -/
theorem drop_after_records (image : List uchar) (recs : List Extra2Record) (tail : List uchar)
    (hin : 64 + uint2korr image 4 ≤ image.length)
    (hseg : slice image 64 (uint2korr image 4) = records_bytes recs ++ tail) :
    image.drop (64 + (records_bytes recs).length) = tail ++ image.drop (64 + uint2korr image 4) ∧
    64 + (records_bytes recs).length + tail.length = 64 + uint2korr image 4 := by
  have hl := slice_length image 64 (uint2korr image 4) hin
  rw [hseg, List.length_append] at hl
  have hd := slice_drop image 64 _ _ hseg
  rw [List.append_assoc] at hd
  exact ⟨drop_add_of_drop image 64 _ _ hd, by omega⟩

/-- C5. Exact landing: on a buffer that holds `frm_size` bytes and whose
segment does not start with the old-frm character, whenever `read` succeeds the
bytes `[64, 64 + read_size)` are exactly the concatenation of the records it
decoded (tag, length encoding, payload); a segment that ends inside its last
record, or that has 1 or 2 stray bytes after its last record, makes `read`
fail. -/
theorem read_exact_landing (c : Extra2Codes) (info : Extra2_info) (image : List uchar)
    (frm_size : Nat) (hlen : frm_size ≤ image.length)
    (hmark : byteAt image 64 ≠ OLD_FRM_MARK) :
    (∀ out, Extra2_info.read c info image frm_size = some (false, out) →
      ∃ recs : List Extra2Record, (∀ r ∈ recs, rec_ok r) ∧
        slice image 64 (uint2korr image 4) = records_bytes recs ∧
        read_records c recs { info with read_size := uint2korr image 4 } = (false, out)) ∧
    (∀ (recs : List Extra2Record) (t : Nat) (p tail p2 : List uchar),
      (∀ r ∈ recs, rec_ok r) → rec_ok (t, p) → tail ≠ [] → p2 ≠ [] →
      tail ++ p2 = extra2_record t p →
      slice image 64 (uint2korr image 4) = records_bytes recs ++ tail →
      ∃ out, Extra2_info.read c info image frm_size = some (true, out)) ∧
    (∀ (recs : List Extra2Record) (tail : List uchar),
      (∀ r ∈ recs, rec_ok r) → (tail.length = 1 ∨ tail.length = 2) →
      slice image 64 (uint2korr image 4) = records_bytes recs ++ tail →
      ∃ out, Extra2_info.read c info image frm_size = some (true, out)) := by
  refine ⟨?_, ?_, ?_⟩
  · intro out h
    by_cases hsz : 64 + uint2korr image 4 ≤ frm_size
    · rw [read_eq_loop c info image frm_size hsz hmark] at h
      obtain ⟨recs, h1, h2, h3⟩ := read_loop_success c image _ (by omega) _ _ _ _ h
      refine ⟨recs, h1, ?_, h3⟩
      rw [← h2]
      congr 1
      omega
    · have ht := read_too_short c info image frm_size (by
        simp only [FRM_HEADER_SIZE]; omega)
      rw [ht] at h
      simp at h
  · intro recs t p tail p2 hok hr ht hp2 hrec hseg
    refine read_fails_after_records c info image frm_size recs tail hlen hmark hseg hok ?_
    intro hsz i
    obtain ⟨hd, he⟩ := drop_after_records image recs tail (by omega) hseg
    exact ⟨i, read_loop_cut c image _ _ _ i t p tail p2 _ hd he hrec ht hp2 hr (by omega)⟩
  · intro recs tail hok ht hseg
    refine read_fails_after_records c info image frm_size recs tail hlen hmark hseg hok ?_
    intro hsz i
    obtain ⟨_, he⟩ := drop_after_records image recs tail (by omega) hseg
    exact ⟨i, read_loop_stray c image _ _ _ i (by omega) (by omega)⟩

/-! ## The extended-length floor -/

/-- The loop fails at a record whose length byte is 0 and whose extended length
is below 256. -/
theorem read_loop_short_ext (c : Extra2Codes) (image : List uchar) (e2end fuel pos : Nat)
    (info : Extra2_info) (tb lo hi : uchar) (more : List uchar)
    (hd : image.drop pos = tb :: 0 :: lo :: hi :: more) (hend : pos + 4 ≤ e2end)
    (hext : lo.val + 256 * hi.val < 256) (hfuel : fuel ≠ 0) :
    read_loop c image e2end fuel pos info = some (true, info) := by
  obtain ⟨n, rfl⟩ : ∃ n, fuel = n + 1 := ⟨fuel - 1, by omega⟩
  have hb : ∀ i, byteAt image (pos + i) = byteAt (tb :: 0 :: lo :: hi :: more) i := by
    intro i; rw [← hd, byteAt_drop]
  have h1 := hb 1
  have h2 := hb 2
  have h3 := hb 3
  simp only [byteAt_cons_succ, byteAt_cons_zero] at h1 h2 h3
  have hz : (extra2_read_len image (pos + 1) e2end).1 = 0 := by
    unfold extra2_read_len
    have h1' : byteAt image (pos + 1) = 0 := h1
    have e2 : uint2korr image (pos + 1 + 1) < 256 := by
      unfold uint2korr
      rw [show pos + 1 + 1 = pos + 2 by omega, show pos + 2 + 1 = pos + 3 by omega, h2, h3]
      exact hext
    have h4 : ¬ (e2end < pos + 1 + 1 + 2) := by omega
    simp [h1', h4, e2]
  rw [read_loop]
  have h5 : pos + 3 ≤ e2end := by omega
  simp only [h5, if_true, hz]

/-- C6 (amended). Extended-length floor: in a segment that does not start with
the old-frm character, a record whose length byte is 0 and whose 2-byte
extended length is below 256 makes `read` fail, while a record with length byte
0, an extended length `L ≥ 256` and `L` payload bytes inside the segment is
decoded as a record with payload length `L`. -/
theorem read_extended_length_floor (c : Extra2Codes) (info : Extra2_info)
    (image : List uchar) (frm_size : Nat) (hlen : frm_size ≤ image.length)
    (hmark : byteAt image 64 ≠ OLD_FRM_MARK) :
    (∀ (recs : List Extra2Record) (tb lo hi : uchar) (rest : List uchar),
      (∀ r ∈ recs, rec_ok r) → lo.val + 256 * hi.val < 256 →
      slice image 64 (uint2korr image 4) = records_bytes recs ++ tb :: 0 :: lo :: hi :: rest →
      ∃ out, Extra2_info.read c info image frm_size = some (true, out)) ∧
    (∀ (recs1 recs2 : List Extra2Record) (t : Nat) (p : List uchar),
      (∀ r ∈ recs1, rec_ok r) → (∀ r ∈ recs2, rec_ok r) → t < 256 →
      256 ≤ p.length → p.length ≤ 65535 → 64 + uint2korr image 4 ≤ frm_size →
      slice image 64 (uint2korr image 4) =
        records_bytes recs1 ++
          (toByte t :: 0 :: toByte p.length :: toByte (p.length / 256) :: p) ++
          records_bytes recs2 →
      Extra2_info.read c info image frm_size =
        some (read_records c (recs1 ++ (t, p) :: recs2)
          { info with read_size := uint2korr image 4 })) := by
  refine ⟨?_, ?_⟩
  · intro recs tb lo hi rest hok hext hseg
    refine read_fails_after_records c info image frm_size recs _ hlen hmark hseg hok ?_
    intro hsz i
    obtain ⟨hd, he⟩ := drop_after_records image recs _ (by omega) hseg
    simp only [List.length_cons] at he
    exact ⟨i, read_loop_short_ext c image _ _ _ i tb lo hi _ hd (by omega) hext (by omega)⟩
  · intro recs1 recs2 t p hok1 hok2 ht hp1 hp2 hsz hseg
    apply read_of_records c info image frm_size _ hsz hlen hmark
    · rw [hseg, records_bytes_append]
      have : ¬ (p.length < 256) := by omega
      simp [records_bytes, extra2_record, this]
    · intro r hr
      rcases List.mem_append.mp hr with hr | hr
      · exact hok1 r hr
      · rcases List.mem_cons.mp hr with hr | hr
        · rw [hr]; exact ⟨ht, Nat.le_trans (by decide) hp1, hp2⟩
        · exact hok2 r hr

/-! ## The important-tag gate -/

theorem read_switch_read_size (c : Extra2Codes) (t l : Nat) (p : List uchar)
    (i : Extra2_info) (a : Nat) :
    read_switch c t l p { i with read_size := a } =
      ((read_switch c t l p i).1, { (read_switch c t l p i).2 with read_size := a }) := by
  obtain ⟨v, o, e, g, ff, sp, ap, fd, wo, ix, rs, ws⟩ := i
  unfold read_switch
  cases c.case_of t
  case version =>
    cases v with
    | none => rfl
    | some v => simp only []; split_ifs <;> rfl
  all_goals rfl

theorem read_records_read_size (c : Extra2Codes) (recs : List Extra2Record)
    (i : Extra2_info) (a : Nat) :
    read_records c recs { i with read_size := a } =
      ((read_records c recs i).1, { (read_records c recs i).2 with read_size := a }) := by
  induction recs generalizing i with
  | nil => rfl
  | cons r rs ih =>
    simp only [read_records, read_switch_read_size]
    split_ifs with h
    · rfl
    · exact ih _

theorem read_records_skip (c : Extra2Codes) (recs1 recs2 : List Extra2Record) (t : Nat)
    (p : List uchar) (i : Extra2_info) (ht : t ∉ c.known)
    (hlow : t < c.EXTRA2_ENGINE_IMPORTANT) :
    read_records c (recs1 ++ (t, p) :: recs2) i = read_records c (recs1 ++ recs2) i := by
  rw [read_records_append, read_records_append]
  have : ¬ (c.EXTRA2_ENGINE_IMPORTANT ≤ t) := by omega
  simp [read_records, read_switch_unknown c t _ _ _ ht, this]

/-- C7 (amended). Important-tag gate: let a segment consist of well-formed
records, one of them with an unrecognised tag, and let neither it nor the
segment without that record start with the old-frm character. If the tag is
below `EXTRA2_ENGINE_IMPORTANT`, `read` returns the same result and populates
the same fields as on the segment without that record; if the tag is at or
above `EXTRA2_ENGINE_IMPORTANT`, `read` fails. -/
theorem read_important_tag_gate (c : Extra2Codes) (info : Extra2_info)
    (image image2 : List uchar) (frm_size frm_size2 : Nat)
    (recs1 recs2 : List Extra2Record) (t : Nat) (p : List uchar)
    (hlen : frm_size ≤ image.length) (hmark : byteAt image 64 ≠ OLD_FRM_MARK)
    (hlen2 : frm_size2 ≤ image2.length) (hmark2 : byteAt image2 64 ≠ OLD_FRM_MARK)
    (hok1 : ∀ r ∈ recs1, rec_ok r) (hok2 : ∀ r ∈ recs2, rec_ok r) (hokt : rec_ok (t, p))
    (ht : t ∉ c.known)
    (hseg : slice image 64 (uint2korr image 4) = records_bytes (recs1 ++ (t, p) :: recs2))
    (hseg2 : slice image2 64 (uint2korr image2 4) = records_bytes (recs1 ++ recs2)) :
    (t < c.EXTRA2_ENGINE_IMPORTANT → 64 + uint2korr image 4 ≤ frm_size →
      64 + uint2korr image2 4 ≤ frm_size2 →
      ∃ b out out2, Extra2_info.read c info image frm_size = some (b, out) ∧
        Extra2_info.read c info image2 frm_size2 = some (b, out2) ∧
        out.fields = out2.fields) ∧
    (c.EXTRA2_ENGINE_IMPORTANT ≤ t →
      ∃ out, Extra2_info.read c info image frm_size = some (true, out)) := by
  have hall : ∀ r ∈ recs1 ++ (t, p) :: recs2, rec_ok r := by
    intro r hr
    rcases List.mem_append.mp hr with hr | hr
    · exact hok1 r hr
    · rcases List.mem_cons.mp hr with hr | hr
      · rw [hr]; exact hokt
      · exact hok2 r hr
  have hall2 : ∀ r ∈ recs1 ++ recs2, rec_ok r := by
    intro r hr
    rcases List.mem_append.mp hr with hr | hr
    · exact hok1 r hr
    · exact hok2 r hr
  refine ⟨?_, ?_⟩
  · intro hlow hsz hsz2
    rw [read_of_records c info image frm_size _ hsz hlen hmark hseg hall,
      read_of_records c info image2 frm_size2 _ hsz2 hlen2 hmark2 hseg2 hall2,
      read_records_skip c recs1 recs2 t p _ ht hlow,
      read_records_read_size c _ info (uint2korr image 4),
      read_records_read_size c _ info (uint2korr image2 4)]
    exact ⟨_, _, _, rfl, rfl, rfl⟩
  · intro himp
    rw [records_bytes_append] at hseg
    refine read_fails_after_records c info image frm_size recs1 _ hlen hmark hseg hok1 ?_
    intro hsz i
    obtain ⟨hd, he⟩ := drop_after_records image recs1 _ (by omega) hseg
    simp only [records_bytes, List.length_append, List.append_assoc] at hd he
    rw [read_loop_record c image _ _ _ i t p _ hd hokt (by omega) (by omega)]
    simp [read_switch_unknown c t _ _ _ ht, himp]

/-! ## At most once -/

theorem read_switch_mono (c : Extra2Codes) (k : Extra2Case) (t l : Nat) (p : List uchar)
    (i : Extra2_info) (h : (field_of_case k i).isSome = true) :
    (field_of_case k (read_switch c t l p i).2).isSome = true := by
  obtain ⟨v, o, e, g, ff, sp, ap, fd, wo, ix, rs, ws⟩ := i
  unfold read_switch
  cases c.case_of t <;> cases k <;>
    simp only [field_of_case, read_once] at h ⊢ <;>
    first
      | exact h
      | rfl
      | (split <;> first | exact h | rfl | (split_ifs <;> exact h))

theorem read_records_mono (c : Extra2Codes) (k : Extra2Case) (recs : List Extra2Record)
    (i : Extra2_info) (h : (field_of_case k i).isSome = true) :
    (field_of_case k (read_records c recs i).2).isSome = true := by
  induction recs generalizing i with
  | nil => exact h
  | cons r rs ih =>
    simp only [read_records]
    split_ifs with h1
    · exact read_switch_mono c k _ _ _ i h
    · exact ih _ (read_switch_mono c k _ _ _ i h)

theorem read_switch_once_fail (c : Extra2Codes) (t l : Nat) (p : List uchar)
    (i : Extra2_info) (hk : (c.case_of t).once = true)
    (h : (field_of_case (c.case_of t) i).isSome = true) :
    (read_switch c t l p i).1 = true := by
  obtain ⟨v, o, e, g, ff, sp, ap, fd, wo, ix, rs, ws⟩ := i
  unfold read_switch
  cases hc : c.case_of t <;> rw [hc] at hk h <;>
    simp only [Extra2Case.once, field_of_case, Bool.false_eq_true] at hk h ⊢ <;>
    (simp only [read_once]; split <;> simp_all)

theorem read_switch_once_set (c : Extra2Codes) (t l : Nat) (p : List uchar)
    (i : Extra2_info) (hk : (c.case_of t).once = true) :
    (field_of_case (c.case_of t) (read_switch c t l p i).2).isSome = true := by
  obtain ⟨v, o, e, g, ff, sp, ap, fd, wo, ix, rs, ws⟩ := i
  unfold read_switch
  cases hc : c.case_of t <;> rw [hc] at hk <;>
    simp only [Extra2Case.once, field_of_case, Bool.false_eq_true] at hk ⊢ <;>
    (simp only [read_once]; split <;> simp_all)

theorem once_of_mem (c : Extra2Codes) (hc : c.known.Nodup) (t : Nat) (ht : t ∈ c.once_tags) :
    (c.case_of t).once = true := by
  simp only [Extra2Codes.once_tags, List.mem_cons, List.mem_singleton, List.not_mem_nil,
    or_false] at ht
  rcases ht with h | h | h | h | h | h | h | h <;> rw [h]
  · rw [case_of_options c hc]; rfl
  · rw [case_of_gis c hc]; rfl
  · rw [case_of_system_period c hc]; rfl
  · rw [case_of_field_flags c hc]; rfl
  · rw [case_of_application_period c hc]; rfl
  · rw [case_of_field_data_type_info c hc]; rfl
  · rw [case_of_without_overlaps c hc]; rfl
  · rw [case_of_index_flags c hc]; rfl

theorem read_records_dup (c : Extra2Codes) (recs1 recs2 recs3 : List Extra2Record)
    (t : Nat) (p1 p2 : List uchar) (i : Extra2_info) (hk : (c.case_of t).once = true) :
    (read_records c (recs1 ++ (t, p1) :: (recs2 ++ (t, p2) :: recs3)) i).1 = true := by
  rw [read_records_append]
  split_ifs with h1
  · rfl
  · simp only [read_records]
    split_ifs with h2
    · rfl
    · rw [read_records_append]
      split_ifs with h3
      · rfl
      · simp only [read_records]
        have hset := read_switch_once_set c t p1.length p1 (read_records c recs1 i).2 hk
        have hmono := read_records_mono c (c.case_of t) recs2 _ hset
        have hfail := read_switch_once_fail c t p2.length p2 _ hk hmono
        simp only [hfail, if_true]

/-- Failure of `read` when a prefix of the records of the segment fails. -/
theorem read_fails_of_records (c : Extra2Codes) (info : Extra2_info) (image : List uchar)
    (frm_size : Nat) (recs : List Extra2Record) (tail : List uchar)
    (hlen : frm_size ≤ image.length) (hmark : byteAt image 64 ≠ OLD_FRM_MARK)
    (hseg : slice image 64 (uint2korr image 4) = records_bytes recs ++ tail)
    (hok : ∀ r ∈ recs, rec_ok r)
    (hfail : (read_records c recs { info with read_size := uint2korr image 4 }).1 = true) :
    ∃ out, Extra2_info.read c info image frm_size = some (true, out) := by
  by_cases hsz : 64 + uint2korr image 4 ≤ frm_size
  · rw [read_records_then c info image frm_size recs tail hsz hlen hmark hseg hok,
      if_pos hfail]
    exact ⟨_, rfl⟩
  · refine ⟨_, read_too_short c info image frm_size ?_⟩
    simp only [FRM_HEADER_SIZE]
    omega

/-- C8 (amended). At most once: for each of the fields engine_options, gis,
system_period, field_flags, application_period, field_data_type_info,
period_without_overlaps and index_flags, a segment that does not start with the
old-frm character and contains two records carrying that field's tag makes
`read` fail. -/
theorem read_at_most_once (c : Extra2Codes) (hc : c.known.Nodup) (info : Extra2_info)
    (image : List uchar) (frm_size : Nat) (recs1 recs2 : List Extra2Record) (t : Nat)
    (p1 p2 tail : List uchar) (ht : t ∈ c.once_tags)
    (hlen : frm_size ≤ image.length) (hmark : byteAt image 64 ≠ OLD_FRM_MARK)
    (hok : ∀ r ∈ recs1 ++ (t, p1) :: (recs2 ++ [(t, p2)]), rec_ok r)
    (hseg : slice image 64 (uint2korr image 4) =
      records_bytes (recs1 ++ (t, p1) :: (recs2 ++ [(t, p2)])) ++ tail) :
    ∃ out, Extra2_info.read c info image frm_size = some (true, out) :=
  read_fails_of_records c info image frm_size _ tail hlen hmark hseg hok
    (read_records_dup c recs1 recs2 [] t p1 p2 _ (once_of_mem c hc t ht))

/-! ## A version set before the call -/

theorem read_switch_version_keep (c : Extra2Codes) (t l : Nat) (p v : List uchar)
    (i : Extra2_info) (h : i.version = some v) :
    (read_switch c t l p i).2.version = some v := by
  obtain ⟨v0, o, e, g, ff, sp, ap, fd, wo, ix, rs, ws⟩ := i
  simp only at h
  subst h
  unfold read_switch
  cases c.case_of t
  case version => simp only []; split_ifs <;> rfl
  all_goals rfl

theorem read_records_version_keep (c : Extra2Codes) (recs : List Extra2Record)
    (v : List uchar) (i : Extra2_info) (h : i.version = some v) :
    (read_records c recs i).2.version = some v := by
  induction recs generalizing i with
  | nil => exact h
  | cons r rs ih =>
    simp only [read_records]
    split_ifs with h1
    · exact read_switch_version_keep c _ _ _ v i h
    · exact ih _ (read_switch_version_keep c _ _ _ v i h)

theorem read_loop_version_keep (c : Extra2Codes) (image : List uchar) (e2end : Nat)
    (v : List uchar) :
    ∀ fuel pos info r, info.version = some v →
      read_loop c image e2end fuel pos info = some r → r.2.version = some v := by
  intro fuel
  induction fuel with
  | zero =>
    intro pos info r hv h
    unfold read_loop at h
    by_cases h3 : pos + 3 ≤ e2end
    · simp [h3] at h
    · simp only [h3, if_false, Option.some.injEq] at h
      rw [← h]; exact hv
  | succ n ih =>
    intro pos info r hv h
    rw [read_loop] at h
    by_cases h3 : pos + 3 ≤ e2end
    · simp only [h3, if_true] at h
      by_cases h4 : (extra2_read_len image (pos + 1) e2end).1 = 0
      · simp only [h4, if_true, Option.some.injEq] at h
        rw [← h]; exact hv
      · simp only [h4, if_false] at h
        have hk := read_switch_version_keep c (byteAt image pos)
          (extra2_read_len image (pos + 1) e2end).1
          (slice image (extra2_read_len image (pos + 1) e2end).2
            (extra2_read_len image (pos + 1) e2end).1) v info hv
        by_cases h5 : (read_switch c (byteAt image pos) (extra2_read_len image (pos + 1) e2end).1
            (slice image (extra2_read_len image (pos + 1) e2end).2
              (extra2_read_len image (pos + 1) e2end).1) info).1 = true
        · simp only [h5, if_true, Option.some.injEq] at h
          rw [← h]; exact hk
        · simp only [h5, if_false] at h
          exact ih _ _ _ hk h
    · simp only [h3, if_false, Option.some.injEq] at h
      rw [← h]; exact hv

theorem read_version_keep (c : Extra2Codes) (info : Extra2_info) (image : List uchar)
    (frm_size : Nat) (v : List uchar) (r : Bool × Extra2_info)
    (hv : info.version = some v) (h : Extra2_info.read c info image frm_size = some r) :
    r.2.version = some v := by
  unfold Extra2_info.read at h
  simp only [] at h
  split_ifs at h
  · simp only [Option.some.injEq] at h
    rw [← h]; exact hv
  · simp only [Option.some.injEq] at h
    rw [← h]; exact hv
  · exact read_loop_version_keep c image _ v _ _
      { info with read_size := uint2korr image 4 } _ hv h

theorem read_records_version_mismatch (c : Extra2Codes) (hc : c.known.Nodup)
    (recs1 : List Extra2Record) (p v : List uchar) (i : Extra2_info)
    (hv : i.version = some v) (hne : p.length ≠ v.length) :
    (read_records c (recs1 ++ [(c.EXTRA2_TABLEDEF_VERSION, p)]) i).1 = true := by
  rw [read_records_append]
  split_ifs with h1
  · rfl
  · have hk := read_records_version_keep c recs1 v i hv
    simp only [read_records, read_switch_version c hc, hk]
    simp [hne]

theorem read_records_version_same (c : Extra2Codes) (hc : c.known.Nodup)
    (recs1 recs2 : List Extra2Record) (p v : List uchar) (i : Extra2_info)
    (hv : i.version = some v) (heq : p.length = v.length) :
    read_records c (recs1 ++ (c.EXTRA2_TABLEDEF_VERSION, p) :: recs2) i =
      read_records c (recs1 ++ recs2) i := by
  rw [read_records_append, read_records_append]
  have hk := read_records_version_keep c recs1 v i hv
  simp [read_records, read_switch_version c hc, hk, heq]

/-- C9 (amended). Version idempotence: let the version be set before `read` is
called. In a segment that does not start with the old-frm character, a version
record whose length differs from the pre-set length makes `read` fail; a
version record of the same length, whatever its bytes, is accepted (`read`
returns the same result and populates the same fields as on the segment
without that record, provided that one does not start with the old-frm
character either); and whatever the buffer, the pre-set version value is
unchanged after the call. -/
theorem read_version_idempotence (c : Extra2Codes) (hc : c.known.Nodup)
    (info : Extra2_info) (v : List uchar) (hv : info.version = some v) :
    (∀ (image : List uchar) (frm_size : Nat) (recs1 : List Extra2Record)
        (p tail : List uchar),
      frm_size ≤ image.length → byteAt image 64 ≠ OLD_FRM_MARK →
      (∀ r ∈ recs1 ++ [(c.EXTRA2_TABLEDEF_VERSION, p)], rec_ok r) →
      p.length ≠ v.length →
      slice image 64 (uint2korr image 4) =
        records_bytes (recs1 ++ [(c.EXTRA2_TABLEDEF_VERSION, p)]) ++ tail →
      ∃ out, Extra2_info.read c info image frm_size = some (true, out)) ∧
    (∀ (image image2 : List uchar) (frm_size frm_size2 : Nat)
        (recs1 recs2 : List Extra2Record) (p : List uchar),
      frm_size ≤ image.length → byteAt image 64 ≠ OLD_FRM_MARK →
      frm_size2 ≤ image2.length → byteAt image2 64 ≠ OLD_FRM_MARK →
      64 + uint2korr image 4 ≤ frm_size → 64 + uint2korr image2 4 ≤ frm_size2 →
      (∀ r ∈ recs1 ++ (c.EXTRA2_TABLEDEF_VERSION, p) :: recs2, rec_ok r) →
      p.length = v.length →
      slice image 64 (uint2korr image 4) =
        records_bytes (recs1 ++ (c.EXTRA2_TABLEDEF_VERSION, p) :: recs2) →
      slice image2 64 (uint2korr image2 4) = records_bytes (recs1 ++ recs2) →
      ∃ b out out2, Extra2_info.read c info image frm_size = some (b, out) ∧
        Extra2_info.read c info image2 frm_size2 = some (b, out2) ∧
        out.fields = out2.fields) ∧
    (∀ (image : List uchar) (frm_size : Nat) (b : Bool) (out : Extra2_info),
      Extra2_info.read c info image frm_size = some (b, out) → out.version = some v) := by
  refine ⟨?_, ?_, ?_⟩
  · intro image frm_size recs1 p tail hlen hmark hok hne hseg
    exact read_fails_of_records c info image frm_size _ tail hlen hmark hseg hok
      (read_records_version_mismatch c hc recs1 p v
        { info with read_size := uint2korr image 4 } hv hne)
  · intro image image2 frm_size frm_size2 recs1 recs2 p hlen hmark hlen2 hmark2 hsz hsz2
      hok heq hseg hseg2
    have hok2 : ∀ r ∈ recs1 ++ recs2, rec_ok r := by
      intro r hr
      apply hok
      rcases List.mem_append.mp hr with hr | hr
      · exact List.mem_append_left _ hr
      · exact List.mem_append_right _ (List.mem_cons_of_mem _ hr)
    rw [read_of_records c info image frm_size _ hsz hlen hmark hseg hok,
      read_of_records c info image2 frm_size2 _ hsz2 hlen2 hmark2 hseg2 hok2,
      read_records_version_same c hc recs1 recs2 p v
        { info with read_size := uint2korr image 4 } hv heq,
      read_records_read_size c _ info (uint2korr image 4),
      read_records_read_size c _ info (uint2korr image2 4)]
    exact ⟨_, _, _, rfl, rfl, rfl⟩
  · intro image frm_size b out h
    exact read_version_keep c info image frm_size v (b, out) hv h

/-! ## The old-frm character, failures and the size cross-check -/

/-- The early return of `read` on the old-frm character. -/
theorem read_old_frm_aux (c : Extra2Codes) (info : Extra2_info) (frm_image : List uchar)
    (frm_size : Nat) (hsz : FRM_HEADER_SIZE + uint2korr frm_image 4 ≤ frm_size)
    (hmark : byteAt frm_image 64 = OLD_FRM_MARK) :
    Extra2_info.read c info frm_image frm_size =
      some (false, { info with read_size := uint2korr frm_image 4 }) := by
  unfold Extra2_info.read
  have h1 : ¬ (frm_size < FRM_HEADER_SIZE + uint2korr frm_image 4) := by omega
  simp only [h1, hmark, if_false, if_true]

/-- C20. Old-format marker: for every buffer with `frm_size >= 64 +` declared
segment length whose byte at offset 64 is the old-frm character, `Extra2_info::read`
succeeds and populates no field (only `read_size` is set), whatever the declared
segment length and whatever the bytes after offset 64 are. -/
theorem read_old_frm (c : Extra2Codes) (info : Extra2_info) (frm_image : List uchar)
    (frm_size : Nat) (hsz : FRM_HEADER_SIZE + uint2korr frm_image 4 ≤ frm_size)
    (hmark : byteAt frm_image 64 = OLD_FRM_MARK) :
    Extra2_info.read c info frm_image frm_size =
      some (false, { info with read_size := uint2korr frm_image 4 }) ∧
    ({ info with read_size := uint2korr frm_image 4 } : Extra2_info).fields = info.fields :=
  ⟨read_old_frm_aux c info frm_image frm_size hsz hmark, rfl⟩

/-- What a failing loop leaves. The bytes from `pos` to the segment end are a
sequence of well-formed records, all of them stored by the switch, followed
either by bytes that do not begin with a well-formed record (the metadata is
then as those records left it) or by a well-formed record that the switch
rejects (the metadata is then as that `case` label left it). -/
theorem read_loop_failure (c : Extra2Codes) (image : List uchar) (e2end : Nat)
    (hlen : e2end ≤ image.length) :
    ∀ fuel pos info out, pos ≤ e2end →
      read_loop c image e2end fuel pos info = some (true, out) →
      ∃ (recs : List Extra2Record) (rest : List uchar), (∀ r ∈ recs, rec_ok r) ∧
        slice image pos (e2end - pos) = records_bytes recs ++ rest ∧
        (read_records c recs info).1 = false ∧
        ((rest ≠ [] ∧
            (¬ ∃ (t : Nat) (p more : List uchar),
              rec_ok (t, p) ∧ rest = extra2_record t p ++ more) ∧
            out = (read_records c recs info).2) ∨
          ∃ (t : Nat) (p more : List uchar), rec_ok (t, p) ∧
            rest = extra2_record t p ++ more ∧
            (read_switch c t p.length p (read_records c recs info).2).1 = true ∧
            out = (read_switch c t p.length p (read_records c recs info).2).2) := by
  intro fuel
  induction fuel with
  | zero =>
    intro pos info out hpos h
    unfold read_loop at h
    by_cases h3 : pos + 3 ≤ e2end
    · simp [h3] at h
    · simp only [h3, if_false, Option.some.injEq, Prod.mk.injEq, decide_eq_true_eq] at h
      have hl := slice_length image pos (e2end - pos) (by omega)
      refine ⟨[], slice image pos (e2end - pos), by simp, by simp [records_bytes], rfl,
        Or.inl ⟨?_, ?_, h.2.symm⟩⟩
      · intro hnil
        rw [hnil] at hl
        simp only [List.length_nil] at hl
        have := h.1
        omega
      · rintro ⟨t, p, more, hok, hrest⟩
        rw [hrest, List.length_append, extra2_record_length] at hl
        have := hok.2.1
        simp only at this
        split_ifs at hl <;> omega
  | succ n ih =>
    intro pos info out hpos h
    rw [read_loop] at h
    by_cases h3 : pos + 3 ≤ e2end
    · simp only [h3, if_true] at h
      have hl0 := slice_length image pos (e2end - pos) (by omega)
      by_cases h4 : (extra2_read_len image (pos + 1) e2end).1 = 0
      · simp only [h4, if_true, Option.some.injEq, Prod.mk.injEq, true_and] at h
        refine ⟨[], slice image pos (e2end - pos), by simp, by simp [records_bytes], rfl,
          Or.inl ⟨?_, ?_, h.symm⟩⟩
        · intro hnil
          rw [hnil] at hl0
          simp only [List.length_nil] at hl0
          omega
        · rintro ⟨t, p, more, hok, hrest⟩
          have hd := slice_drop image pos (e2end - pos) _ hrest
          rw [List.append_assoc] at hd
          have hle : pos + (extra2_record t p).length ≤ e2end := by
            rw [hrest, List.length_append] at hl0
            omega
          have := (read_len_record image pos e2end t p _ hd hok hle).2.1
          rw [this] at h4
          have := hok.2.1
          simp only at h4 this
          omega
      · simp only [h4, if_false] at h
        obtain ⟨q1, q2, q3, q4⟩ := extra2_read_len_success image pos e2end hlen h4
        have hl := slice_length image (extra2_read_len image (pos + 1) e2end).2
          (extra2_read_len image (pos + 1) e2end).1 (by omega)
        have hok : rec_ok (byteAt image pos, slice image (extra2_read_len image (pos + 1) e2end).2
            (extra2_read_len image (pos + 1) e2end).1) :=
          ⟨byteAt_lt image pos, by rw [hl]; omega, by rw [hl]; omega⟩
        have e : (extra2_read_len image (pos + 1) e2end).2 +
            (extra2_read_len image (pos + 1) e2end).1 =
            pos + ((extra2_read_len image (pos + 1) e2end).2 - pos +
              (extra2_read_len image (pos + 1) e2end).1) := by omega
        have hsplit : slice image pos (e2end - pos) =
            extra2_record (byteAt image pos)
              (slice image (extra2_read_len image (pos + 1) e2end).2
                (extra2_read_len image (pos + 1) e2end).1) ++
            slice image ((extra2_read_len image (pos + 1) e2end).2 +
              (extra2_read_len image (pos + 1) e2end).1)
              (e2end - ((extra2_read_len image (pos + 1) e2end).2 +
                (extra2_read_len image (pos + 1) e2end).1)) := by
          rw [← q4, e, ← slice_append]
          congr 1
          omega
        by_cases h5 : (read_switch c (byteAt image pos) (extra2_read_len image (pos + 1) e2end).1
            (slice image (extra2_read_len image (pos + 1) e2end).2
              (extra2_read_len image (pos + 1) e2end).1) info).1 = true
        · simp only [h5, if_true, Option.some.injEq, Prod.mk.injEq, true_and] at h
          refine ⟨[], slice image pos (e2end - pos), by simp, by simp [records_bytes], rfl,
            Or.inr ⟨_, _, _, hok, hsplit, ?_, ?_⟩⟩
          · simp only [read_records, hl]
            exact h5
          · simp only [read_records, hl]
            exact h.symm
        · simp only [h5, if_false] at h
          obtain ⟨recs, rest, r1, r2, r3, r4⟩ := ih _ _ _ q2 h
          refine ⟨(byteAt image pos, slice image (extra2_read_len image (pos + 1) e2end).2
              (extra2_read_len image (pos + 1) e2end).1) :: recs, rest, ?_, ?_, ?_, ?_⟩
          · intro r hr
            rcases List.mem_cons.mp hr with hr | hr
            · rw [hr]; exact hok
            · exact r1 r hr
          · rw [hsplit, r2]; simp [records_bytes]
          · simp only [read_records, hl, h5, if_false]
            exact r3
          · simp only [read_records, hl, h5, if_false]
            exact r4
    · simp only [h3, if_false, Option.some.injEq, Prod.mk.injEq, decide_eq_true_eq] at h
      have hl := slice_length image pos (e2end - pos) (by omega)
      refine ⟨[], slice image pos (e2end - pos), by simp, by simp [records_bytes], rfl,
        Or.inl ⟨?_, ?_, h.2.symm⟩⟩
      · intro hnil
        rw [hnil] at hl
        simp only [List.length_nil] at hl
        have := h.1
        omega
      · rintro ⟨t, p, more, hok, hrest⟩
        rw [hrest, List.length_append, extra2_record_length] at hl
        have := hok.2.1
        simp only at this
        split_ifs at hl <;> omega

/-- C19 (amended). Failure is not atomic: on a buffer that holds `frm_size`
bytes, whenever `Extra2_info::read` reports failure, either the failure is the
size test and no field is populated (only `read_size` is set), or the segment
is a sequence of well-formed records that `read` decoded and stored, followed
by the point of failure, and the metadata keeps what those records stored:
when the bytes at the point of failure do not begin a well-formed record (bad
length, record past the segment end, 1 or 2 leftover bytes) the metadata is
exactly as the decoded records left it, and when they begin a well-formed
record that its `case` label rejects (a second occurrence, a system period of
the wrong width, a version of another length, an unknown important tag) the
metadata is exactly as that `case` label left it after the decoded records. -/
theorem read_failure_state (c : Extra2Codes) (info : Extra2_info) (image : List uchar)
    (frm_size : Nat) (out : Extra2_info) (hlen : frm_size ≤ image.length)
    (hfail : Extra2_info.read c info image frm_size = some (true, out)) :
    (frm_size < FRM_HEADER_SIZE + uint2korr image 4 ∧
      out = { info with read_size := uint2korr image 4 } ∧ out.fields = info.fields) ∨
    (FRM_HEADER_SIZE + uint2korr image 4 ≤ frm_size ∧
     ∃ (recs : List Extra2Record) (rest : List uchar), (∀ r ∈ recs, rec_ok r) ∧
      slice image 64 (uint2korr image 4) = records_bytes recs ++ rest ∧
      (read_records c recs { info with read_size := uint2korr image 4 }).1 = false ∧
      ((rest ≠ [] ∧
          (¬ ∃ (t : Nat) (p more : List uchar),
            rec_ok (t, p) ∧ rest = extra2_record t p ++ more) ∧
          out = (read_records c recs { info with read_size := uint2korr image 4 }).2) ∨
        ∃ (t : Nat) (p more : List uchar), rec_ok (t, p) ∧
          rest = extra2_record t p ++ more ∧
          (read_switch c t p.length p
            (read_records c recs { info with read_size := uint2korr image 4 }).2).1 = true ∧
          out = (read_switch c t p.length p
            (read_records c recs { info with read_size := uint2korr image 4 }).2).2)) := by
  by_cases hsz : frm_size < FRM_HEADER_SIZE + uint2korr image 4
  · rw [read_too_short c info image frm_size hsz] at hfail
    simp only [Option.some.injEq, Prod.mk.injEq, true_and] at hfail
    exact Or.inl ⟨hsz, hfail.symm, by rw [← hfail]; rfl⟩
  · right
    refine ⟨by omega, ?_⟩
    simp only [FRM_HEADER_SIZE] at hsz
    by_cases hm : byteAt image 64 = OLD_FRM_MARK
    · rw [(read_old_frm_aux c info image frm_size (by simp only [FRM_HEADER_SIZE]; omega) hm)]
        at hfail
      simp at hfail
    · rw [read_eq_loop c info image frm_size (by omega) hm] at hfail
      obtain ⟨recs, rest, h1, h2, h3, h4⟩ :=
        read_loop_failure c image _ (by omega) _ _ _ _ (by omega) hfail
      refine ⟨recs, rest, h1, ?_, h3, h4⟩
      rw [← h2]
      congr 1
      omega

/-- The bytes of the record of a field, if present. -/
theorem records_bytes_field (t : Nat) (f : Option (List uchar)) :
    records_bytes (field_record t f) = (f.map (extra2_record t)).getD [] := by
  cases f <;> simp [field_record, records_bytes]

/-- The two bytes of the extended length denote the length. -/
theorem toByte_le16 (n : Nat) (h : n ≤ 65535) :
    (toByte n).val + 256 * (toByte (n / 256)).val = n := by
  simp only [toByte]
  omega

/-- C11. Canonical order: for every metadata value, the bytes `Extra2_info::write`
places from offset 64 up to the position it returns are the concatenation, in
the order version, partition engine, engine options, gis, field data type info,
index flags, system period, application period, period without overlaps, field
flags, of one record per present field and nothing else; each record is the tag
byte of the field, then its length (one byte if below 256, otherwise a zero byte
followed by the 2-byte little-endian length), then its payload. -/
theorem write_canonical_order (c : Extra2Codes) (info : Extra2_info) (buf : List uchar)
    (frm_size : Nat) (hbuf : FRM_HEADER_SIZE + info.store_size ≤ buf.length) :
    slice (info.write c buf frm_size).1 FRM_HEADER_SIZE
        ((info.write c buf frm_size).2.1 - FRM_HEADER_SIZE) =
      (info.version.map (extra2_record c.EXTRA2_TABLEDEF_VERSION)).getD [] ++
      (info.engine.map (extra2_record c.EXTRA2_DEFAULT_PART_ENGINE)).getD [] ++
      (info.options.map (extra2_record c.EXTRA2_ENGINE_TABLEOPTS)).getD [] ++
      (info.gis.map (extra2_record c.EXTRA2_GIS)).getD [] ++
      (info.field_data_type_info.map (extra2_record c.EXTRA2_FIELD_DATA_TYPE_INFO)).getD [] ++
      (info.index_flags.map (extra2_record c.EXTRA2_INDEX_FLAGS)).getD [] ++
      (info.system_period.map (extra2_record c.EXTRA2_PERIOD_FOR_SYSTEM_TIME)).getD [] ++
      (info.application_period.map (extra2_record c.EXTRA2_APPLICATION_TIME_PERIOD)).getD [] ++
      (info.without_overlaps.map (extra2_record c.EXTRA2_PERIOD_WITHOUT_OVERLAPS)).getD [] ++
      (info.field_flags.map (extra2_record c.EXTRA2_FIELD_FLAGS)).getD [] ∧
    (∀ (type : Nat) (str : List uchar), extra2_record type str =
      toByte type :: ((if str.length < 256 then [toByte str.length]
        else [0, toByte str.length, toByte (str.length / 256)]) ++ str)) ∧
    (∀ str : List uchar, str.length ≤ 65535 →
      (toByte str.length).val + 256 * (toByte (str.length / 256)).val = str.length) := by
  refine ⟨?_, fun _ _ => rfl, fun str h => toByte_le16 str.length h⟩
  simp only [FRM_HEADER_SIZE] at hbuf
  rw [write_pos, Nat.add_sub_cancel_left]
  simp only [FRM_HEADER_SIZE]
  rw [write_slice c info buf frm_size (by omega)]
  simp only [write_records, records_bytes_append, records_bytes_field, List.append_assoc]

/-- C12 (the code breaks its own assertion). On `image_unknown`, whose segment is
one record of the unrecognised tag 6 (below `EXTRA2_ENGINE_IMPORTANT`), `read`
skips the record and returns success with no field set: `store_size()` is 0 and
`read_size` is 3. On `image_two_engine`, whose segment is two partition-engine
records, `read` returns success, `store_size()` is 3 and `read_size` is 6. -/
theorem read_size_cross_check_broken :
    Extra2_info.read frmCodes Extra2_info.empty image_unknown 67 =
      some (false, { Extra2_info.empty with read_size := 3 }) ∧
    ({ Extra2_info.empty with read_size := 3 } : Extra2_info).store_size = 0 ∧
    Extra2_info.read frmCodes Extra2_info.empty image_two_engine 70 =
      some (false, { Extra2_info.empty with engine := some [8], read_size := 6 }) ∧
    ({ Extra2_info.empty with engine := some [8], read_size := 6 } : Extra2_info).store_size
      = 3 := by
  decide

/-- The reads of `read` when the size test fails: bytes 4 and 5, whatever the
buffer holds. -/
theorem read_reads_too_short (c : Extra2Codes) (info : Extra2_info) (frm_image : List uchar)
    (frm_size : Nat) (h : frm_size < FRM_HEADER_SIZE + uint2korr frm_image 4) :
    Extra2_info.read_reads c info frm_image frm_size = [4, 5] := by
  unfold Extra2_info.read_reads
  simp only [h, if_true, List.append_nil]

/-- C18 (the code reads before it tests). `image_version` holds a well-formed
segment of 5 bytes. Truncated to 3 bytes, and to 5 bytes, it makes `read` fail,
but `read` has read the offsets 4 and 5, which are at or beyond the truncated
length. -/
theorem read_truncated_reads_beyond :
    (Extra2_info.read frmCodes Extra2_info.empty image_version 69).map Prod.fst = some false ∧
    (image_version.take 3).length = 3 ∧
    (Extra2_info.read frmCodes Extra2_info.empty (image_version.take 3) 3).map Prod.fst
      = some true ∧
    Extra2_info.read_reads frmCodes Extra2_info.empty (image_version.take 3) 3 = [4, 5] ∧
    (image_version.take 5).length = 5 ∧
    (Extra2_info.read frmCodes Extra2_info.empty (image_version.take 5) 5).map Prod.fst
      = some true ∧
    Extra2_info.read_reads frmCodes Extra2_info.empty (image_version.take 5) 5 = [4, 5] := by
  decide

/-! ## The frame of `write` and the width of the system period -/

theorem byteAt_append_right (xs ys : List uchar) (i : Nat) (h : xs.length ≤ i) :
    byteAt (xs ++ ys) i = byteAt ys (i - xs.length) := by
  simp [byteAt, List.getD_eq_getElem?_getD, List.getElem?_append_right h]

/-- The bytes after the segment are the bytes of the buffer. -/
theorem write_after (c : Extra2Codes) (info : Extra2_info) (buf : List uchar)
    (frm_size : Nat) (h : 64 + info.store_size ≤ buf.length) (i : Nat)
    (hi : 64 + info.store_size ≤ i) :
    byteAt (info.write c buf frm_size).1 i = byteAt buf i := by
  have hl : (buf.take 64 ++ records_bytes (write_records c info)).length =
      64 + info.store_size := by
    simp only [List.length_append, List.length_take, write_records_length]
    omega
  rw [write_image c info buf frm_size (by omega), byteAt_append_right _ _ _ (by omega), hl,
    byteAt_drop]
  congr 1
  omega

/-- A metadata value with no field set writes nothing. -/
theorem write_nothing (c : Extra2Codes) (info : Extra2_info) (buf : List uchar)
    (frm_size : Nat) (h : ∀ f ∈ info.fields, f = none) :
    (info.write c buf frm_size).1 = buf ∧ (info.write c buf frm_size).2.1 = FRM_HEADER_SIZE := by
  obtain ⟨v, o, e, g, ff, sp, ap, fd, wo, ix, rs, ws⟩ := info
  simp only [Extra2_info.fields, List.mem_cons, List.mem_singleton, List.not_mem_nil, or_false,
    forall_eq_or_imp, forall_eq] at h
  obtain ⟨h1, h2, h3, h4, h5, h6, h7, h8, h9, h10⟩ := h
  subst h1 h2 h3 h4 h5 h6 h7 h8 h9 h10
  exact ⟨rfl, rfl⟩

/-- C30. Write frame: for every metadata value and every buffer that holds the
header and the segment, `Extra2_info::write` returns the position of offset
`64 + store_size()`, leaves the length of the buffer and changes no byte outside
`[64, 64 + store_size())`: the 64 header bytes (the segment-length field at
offsets 4-5 included) and all bytes from `64 + store_size()` on are unchanged. A
metadata value with no field set writes nothing and returns the position of
offset 64. -/
theorem write_frame (c : Extra2Codes) (info : Extra2_info) (buf : List uchar)
    (frm_size : Nat) (hbuf : FRM_HEADER_SIZE + info.store_size ≤ buf.length) :
    (∀ i, i < FRM_HEADER_SIZE ∨ FRM_HEADER_SIZE + info.store_size ≤ i →
      byteAt (info.write c buf frm_size).1 i = byteAt buf i) ∧
    uint2korr (info.write c buf frm_size).1 4 = uint2korr buf 4 ∧
    (info.write c buf frm_size).1.length = buf.length ∧
    (info.write c buf frm_size).2.1 = FRM_HEADER_SIZE + info.store_size ∧
    ((∀ f ∈ info.fields, f = none) →
      (info.write c buf frm_size).1 = buf ∧
      (info.write c buf frm_size).2.1 = FRM_HEADER_SIZE) := by
  simp only [FRM_HEADER_SIZE] at hbuf ⊢
  refine ⟨?_, ?_, write_length c info buf frm_size hbuf, write_pos c info buf frm_size,
    write_nothing c info buf frm_size⟩
  · intro i hi
    rcases hi with hi | hi
    · exact write_header c info buf frm_size (by omega) i hi
    · exact write_after c info buf frm_size hbuf i hi
  · unfold uint2korr
    rw [write_header c info buf frm_size (by omega) 4 (by omega),
      write_header c info buf frm_size (by omega) 5 (by omega)]

/-- A system-period record of another width than `2 * frm_fieldno_size` makes
the decoding of a record sequence fail. -/
theorem read_records_period_width (c : Extra2Codes) (hc : c.known.Nodup)
    (recs1 recs2 : List Extra2Record) (p : List uchar) (i : Extra2_info)
    (hp : p.length ≠ 2 * c.frm_fieldno_size) :
    (read_records c (recs1 ++ (c.EXTRA2_PERIOD_FOR_SYSTEM_TIME, p) :: recs2) i).1 = true := by
  rw [read_records_append]
  split_ifs with h1
  · rfl
  · simp only [read_records, read_switch_system_period c hc]
    simp [hp]

/-- C21 (amended). System-period width: for every segment that does not start
with the old-frm character and contains a well-formed system-period record (tag
`EXTRA2_PERIOD_FOR_SYSTEM_TIME`) whose payload length is not
`2 * frm_fieldno_size`, `Extra2_info::read` fails. -/
theorem read_system_period_width (c : Extra2Codes) (hc : c.known.Nodup) (info : Extra2_info)
    (image : List uchar) (frm_size : Nat) (recs1 recs2 : List Extra2Record)
    (p tail : List uchar) (hp : p.length ≠ 2 * c.frm_fieldno_size)
    (hlen : frm_size ≤ image.length) (hmark : byteAt image 64 ≠ OLD_FRM_MARK)
    (hok : ∀ r ∈ recs1 ++ (c.EXTRA2_PERIOD_FOR_SYSTEM_TIME, p) :: recs2, rec_ok r)
    (hseg : slice image 64 (uint2korr image 4) =
      records_bytes (recs1 ++ (c.EXTRA2_PERIOD_FOR_SYSTEM_TIME, p) :: recs2) ++ tail) :
    ∃ out, Extra2_info.read c info image frm_size = some (true, out) :=
  read_fails_of_records c info image frm_size _ tail hlen hmark hseg hok
    (read_records_period_width c hc recs1 recs2 p _ hp)

/-! ## The order of the records -/

/-- Known tags select pairwise distinct `case` labels. -/
theorem case_of_inj (c : Extra2Codes) (hc : c.known.Nodup) (t1 t2 : Nat)
    (h1 : t1 ∈ c.known) (h2 : t2 ∈ c.known) (h : c.case_of t1 = c.case_of t2) : t1 = t2 := by
  simp only [Extra2Codes.known, List.mem_cons, List.mem_singleton, List.not_mem_nil,
    or_false] at h1 h2
  rcases h1 with rfl | rfl | rfl | rfl | rfl | rfl | rfl | rfl | rfl | rfl <;>
    rcases h2 with rfl | rfl | rfl | rfl | rfl | rfl | rfl | rfl | rfl | rfl <;>
    first
      | rfl
      | (simp only [case_of_version c hc, case_of_options c hc, case_of_engine c hc,
          case_of_gis c hc, case_of_system_period c hc, case_of_field_flags c hc,
          case_of_application_period c hc, case_of_field_data_type_info c hc,
          case_of_without_overlaps c hc, case_of_index_flags c hc, reduceCtorEq] at h)

/-- A known tag does not select the `default:` label. -/
theorem case_of_known (c : Extra2Codes) (hc : c.known.Nodup) (t : Nat) (h : t ∈ c.known) :
    c.case_of t ≠ Extra2Case.other := by
  simp only [Extra2Codes.known, List.mem_cons, List.mem_singleton, List.not_mem_nil,
    or_false] at h
  rcases h with rfl | rfl | rfl | rfl | rfl | rfl | rfl | rfl | rfl | rfl <;>
    simp only [case_of_version c hc, case_of_options c hc, case_of_engine c hc,
      case_of_gis c hc, case_of_system_period c hc, case_of_field_flags c hc,
      case_of_application_period c hc, case_of_field_data_type_info c hc,
      case_of_without_overlaps c hc, case_of_index_flags c hc, ne_eq, reduceCtorEq,
      not_false_eq_true]

/-- A record whose field is not set yet is stored, and no other field is
touched. -/
theorem read_switch_fresh (c : Extra2Codes) (t : Nat) (p : List uchar) (i : Extra2_info)
    (hk : c.case_of t ≠ Extra2Case.other) (hn : field_of_case (c.case_of t) i = none)
    (hw : c.case_of t = Extra2Case.system_period → p.length = 2 * c.frm_fieldno_size) :
    (read_switch c t p.length p i).1 = false ∧
    field_of_case (c.case_of t) (read_switch c t p.length p i).2 = some p ∧
    (∀ k, k ≠ c.case_of t →
      field_of_case k (read_switch c t p.length p i).2 = field_of_case k i) ∧
    (read_switch c t p.length p i).2.read_size = i.read_size ∧
    (read_switch c t p.length p i).2.write_size = i.write_size := by
  obtain ⟨v, o, e, g, ff, sp, ap, fd, wo, ix, rs, ws⟩ := i
  unfold read_switch
  cases hcase : c.case_of t <;> rw [hcase] at hk hn hw <;>
    simp only [field_of_case, ne_eq, not_true_eq_false, reduceCtorEq, not_false_eq_true,
      true_implies] at hk hn hw <;>
    subst hn <;>
    refine ⟨?_, ?_, ?_, ?_, ?_⟩ <;>
    first
      | rfl
      | (intro k hk2; cases k <;> first | rfl | exact absurd rfl hk2)
      | (simp only [read_once, hw]; simp)

/-- Records with pairwise distinct known tags, decoded into a metadata value in
which none of their fields is set, are all stored. -/
theorem read_records_fresh (c : Extra2Codes) (hc : c.known.Nodup) :
    ∀ (recs : List Extra2Record) (i : Extra2_info),
      (recs.map Prod.fst).Nodup → (∀ r ∈ recs, r.1 ∈ c.known) →
      (∀ r ∈ recs, field_of_case (c.case_of r.1) i = none) →
      (∀ r ∈ recs, r.1 = c.EXTRA2_PERIOD_FOR_SYSTEM_TIME →
        r.2.length = 2 * c.frm_fieldno_size) →
      (read_records c recs i).1 = false ∧
      (∀ r ∈ recs, field_of_case (c.case_of r.1) (read_records c recs i).2 = some r.2) ∧
      (∀ k, (∀ r ∈ recs, c.case_of r.1 ≠ k) →
        field_of_case k (read_records c recs i).2 = field_of_case k i) ∧
      (read_records c recs i).2.read_size = i.read_size ∧
      (read_records c recs i).2.write_size = i.write_size := by
  intro recs
  induction recs with
  | nil =>
    intro i _ _ _ _
    exact ⟨rfl, by simp, fun _ _ => rfl, rfl, rfl⟩
  | cons r rs ih =>
    intro i hnd hkn hnone hsys
    have hsp : c.case_of r.1 = Extra2Case.system_period →
        r.2.length = 2 * c.frm_fieldno_size := by
      intro h
      apply hsys r (List.mem_cons_self _ _)
      apply case_of_inj c hc _ _ (hkn r (List.mem_cons_self _ _))
        (by simp [Extra2Codes.known])
      rw [h, case_of_system_period c hc]
    obtain ⟨f1, f2, f3, f4, f5⟩ := read_switch_fresh c r.1 r.2 i
      (case_of_known c hc _ (hkn r (List.mem_cons_self _ _)))
      (hnone r (List.mem_cons_self _ _)) hsp
    simp only [List.map_cons, List.nodup_cons] at hnd
    have hdiff : ∀ r2 ∈ rs, c.case_of r2.1 ≠ c.case_of r.1 := by
      intro r2 h2 hcase
      have := case_of_inj c hc _ _ (hkn r2 (List.mem_cons_of_mem _ h2))
        (hkn r (List.mem_cons_self _ _)) hcase
      exact hnd.1 (by rw [← this]; exact List.mem_map_of_mem _ h2)
    obtain ⟨g1, g2, g3, g4, g5⟩ := ih (read_switch c r.1 r.2.length r.2 i).2 hnd.2
      (fun r2 h2 => hkn r2 (List.mem_cons_of_mem _ h2))
      (fun r2 h2 => by
        rw [f3 _ (hdiff r2 h2)]
        exact hnone r2 (List.mem_cons_of_mem _ h2))
      (fun r2 h2 => hsys r2 (List.mem_cons_of_mem _ h2))
    simp only [read_records, f1, Bool.false_eq_true, if_false]
    refine ⟨g1, ?_, ?_, g4.trans f4, g5.trans f5⟩
    · intro r2 h2
      rcases List.mem_cons.mp h2 with h2 | h2
      · rw [h2, g3 _ hdiff, f2]
      · exact g2 r2 h2
    · intro k hk
      rw [g3 k (fun r2 h2 => hk r2 (List.mem_cons_of_mem _ h2)),
        f3 k (fun h => hk r (List.mem_cons_self _ _) h.symm)]

/-- Two metadata values with the same members are equal. -/
theorem info_eq_of_cases (a b : Extra2_info)
    (h : ∀ k, field_of_case k a = field_of_case k b) (hr : a.read_size = b.read_size)
    (hw : a.write_size = b.write_size) : a = b := by
  have h1 := h Extra2Case.version
  have h2 := h Extra2Case.options
  have h3 := h Extra2Case.engine
  have h4 := h Extra2Case.gis
  have h5 := h Extra2Case.system_period
  have h6 := h Extra2Case.field_flags
  have h7 := h Extra2Case.application_period
  have h8 := h Extra2Case.field_data_type_info
  have h9 := h Extra2Case.without_overlaps
  have h10 := h Extra2Case.index_flags
  obtain ⟨v, o, e, g, ff, sp, ap, fd, wo, ix, rs, ws⟩ := a
  obtain ⟨v2, o2, e2, g2, ff2, sp2, ap2, fd2, wo2, ix2, rs2, ws2⟩ := b
  simp only [field_of_case] at h1 h2 h3 h4 h5 h6 h7 h8 h9 h10 hr hw
  subst h1 h2 h3 h4 h5 h6 h7 h8 h9 h10 hr hw
  rfl

/-- Decoding records with pairwise distinct known tags into a metadata value in
which none of their fields is set does not depend on their order. -/
theorem read_records_perm (c : Extra2Codes) (hc : c.known.Nodup)
    (recs recs2 : List Extra2Record) (i : Extra2_info) (hperm : recs2.Perm recs)
    (hnd : (recs.map Prod.fst).Nodup) (hkn : ∀ r ∈ recs, r.1 ∈ c.known)
    (hnone : ∀ r ∈ recs, field_of_case (c.case_of r.1) i = none)
    (hsys : ∀ r ∈ recs, r.1 = c.EXTRA2_PERIOD_FOR_SYSTEM_TIME →
      r.2.length = 2 * c.frm_fieldno_size) :
    read_records c recs2 i = read_records c recs i ∧ (read_records c recs i).1 = false := by
  obtain ⟨a1, a2, a3, a4, a5⟩ := read_records_fresh c hc recs i hnd hkn hnone hsys
  obtain ⟨b1, b2, b3, b4, b5⟩ := read_records_fresh c hc recs2 i
    ((hperm.map Prod.fst).nodup_iff.mpr hnd)
    (fun r h => hkn r (hperm.mem_iff.mp h))
    (fun r h => hnone r (hperm.mem_iff.mp h))
    (fun r h => hsys r (hperm.mem_iff.mp h))
  refine ⟨?_, a1⟩
  refine Prod.ext (b1.trans a1.symm) (info_eq_of_cases _ _ ?_ (b4.trans a4.symm)
    (b5.trans a5.symm))
  intro k
  by_cases hk : ∃ r ∈ recs, c.case_of r.1 = k
  · obtain ⟨r, hr, rfl⟩ := hk
    rw [a2 r hr, b2 r (hperm.mem_iff.mpr hr)]
  · simp only [not_exists, not_and] at hk
    rw [a3 k hk, b3 k (fun r h => hk r (hperm.mem_iff.mp h))]

/-- Reading a buffer whose segment is a sequence of well-formed records with
known tags decodes those records: such a segment does not start with the
old-frm character unless it is empty. -/
theorem read_of_known_records (c : Extra2Codes) (hc : c.valid) (info : Extra2_info)
    (image : List uchar) (frm_size : Nat) (recs : List Extra2Record)
    (hsz : 64 + uint2korr image 4 ≤ frm_size) (hlen : frm_size ≤ image.length)
    (hseg : slice image 64 (uint2korr image 4) = records_bytes recs)
    (hok : ∀ r ∈ recs, rec_ok r) (hkn : ∀ r ∈ recs, r.1 ∈ c.known) :
    Extra2_info.read c info image frm_size =
      some (read_records c recs { info with read_size := uint2korr image 4 }) := by
  obtain ⟨_, hbyte, hmark⟩ := hc
  by_cases hm : byteAt image 64 = OLD_FRM_MARK
  · cases recs with
    | nil =>
      rw [read_old_frm_aux c info image frm_size (by simp only [FRM_HEADER_SIZE]; omega) hm]
      rfl
    | cons r rs =>
      exfalso
      have hD := slice_drop _ _ _ _ hseg
      have h0 := byteAt_drop image 64 0
      rw [hD, records_bytes_head, Nat.add_zero, hm,
        Nat.mod_eq_of_lt (hbyte _ (hkn r (List.mem_cons_self _ _)))] at h0
      exact hmark _ (hkn r (List.mem_cons_self _ _)) h0
  · exact read_of_records c info image frm_size recs hsz hlen hm hseg hok

/-- The length of the encoding of a record sequence does not depend on the
order of the records. -/
theorem records_bytes_length_perm (recs recs2 : List Extra2Record) (h : recs2.Perm recs) :
    (records_bytes recs2).length = (records_bytes recs).length := by
  induction h with
  | nil => rfl
  | cons x _ ih => simp only [records_bytes, List.length_append, ih]
  | swap x y l => simp only [records_bytes, List.length_append]; omega
  | trans _ _ ih1 ih2 => exact ih1.trans ih2

/-- C26. Order independence of the reader: for every list of well-formed records
(payloads of 1..65535 bytes, a system-period record of exactly
`2 * frm_fieldno_size` bytes) with pairwise distinct known tags and every
permutation of that list, `Extra2_info::read`, called on a metadata value with no
field set, succeeds on a buffer whose segment is the records and on a buffer
whose segment is the permuted records, each with the matching segment length,
and leaves the same metadata: every record has its payload in its field, and
the fields are the same for both orders. -/
theorem read_order_independent (c : Extra2Codes) (hc : c.valid)
    (recs recs2 : List Extra2Record) (image image2 : List uchar) (frm_size frm_size2 : Nat)
    (hperm : recs2.Perm recs) (hok : ∀ r ∈ recs, rec_ok r)
    (hkn : ∀ r ∈ recs, r.1 ∈ c.known) (hnd : (recs.map Prod.fst).Nodup)
    (hsys : ∀ r ∈ recs, r.1 = c.EXTRA2_PERIOD_FOR_SYSTEM_TIME →
      r.2.length = 2 * c.frm_fieldno_size)
    (hsz : 64 + uint2korr image 4 ≤ frm_size) (hlen : frm_size ≤ image.length)
    (hseg : slice image 64 (uint2korr image 4) = records_bytes recs)
    (hsz2 : 64 + uint2korr image2 4 ≤ frm_size2) (hlen2 : frm_size2 ≤ image2.length)
    (hseg2 : slice image2 64 (uint2korr image2 4) = records_bytes recs2) :
    ∃ out, Extra2_info.read c Extra2_info.empty image frm_size = some (false, out) ∧
      Extra2_info.read c Extra2_info.empty image2 frm_size2 = some (false, out) ∧
      (∀ r ∈ recs, field_of_case (c.case_of r.1) out = some r.2) ∧
      (∀ k, (∀ r ∈ recs, c.case_of r.1 ≠ k) → field_of_case k out = none) := by
  have hsize : uint2korr image2 4 = uint2korr image 4 := by
    have l1 := slice_length image 64 (uint2korr image 4) (by omega)
    have l2 := slice_length image2 64 (uint2korr image2 4) (by omega)
    rw [hseg] at l1
    rw [hseg2, records_bytes_length_perm _ _ hperm] at l2
    omega
  have hnone : ∀ r ∈ recs, field_of_case (c.case_of r.1)
      { Extra2_info.empty with read_size := uint2korr image 4 } = none := by
    intro r _
    cases c.case_of r.1 <;> rfl
  obtain ⟨p1, p2⟩ := read_records_perm c hc.1 recs recs2
    { Extra2_info.empty with read_size := uint2korr image 4 } hperm hnd hkn hnone hsys
  obtain ⟨_, a2, a3, _, _⟩ := read_records_fresh c hc.1 recs
    { Extra2_info.empty with read_size := uint2korr image 4 } hnd hkn hnone hsys
  refine ⟨(read_records c recs { Extra2_info.empty with read_size := uint2korr image 4 }).2,
    ?_, ?_, a2, ?_⟩
  · rw [read_of_known_records c hc _ image frm_size recs hsz hlen hseg hok hkn, ← p2]
  · rw [read_of_known_records c hc _ image2 frm_size2 recs2 hsz2 hlen2 hseg2
      (fun r h => hok r (hperm.mem_iff.mp h)) (fun r h => hkn r (hperm.mem_iff.mp h)),
      hsize, p1, ← p2]
  · intro k hk
    rw [a3 k hk]
    cases k <;> rfl

/-! ## Properties of `dd_frm_type` -/

theorem part_scan_isSome (c : Extra2Codes) (image : List uchar) (e2end : Nat) :
    ∀ fuel extra2, e2end ≤ extra2 + fuel → (part_scan c image e2end fuel extra2).isSome = true := by
  intro fuel
  induction fuel with
  | zero =>
    intro extra2 h
    unfold part_scan
    have : ¬ (extra2 + 3 ≤ e2end) := by omega
    simp [this]
  | succ n ih =>
    intro extra2 h
    unfold part_scan
    by_cases h3 : extra2 + 3 ≤ e2end
    · simp only [h3, if_true]
      split
      · rfl
      · rename_i len pos hr
        split
        · rfl
        · split
          · rfl
          · apply ih
            have hpos : extra2 + 2 ≤ pos ∧ 1 ≤ len := by
              revert hr
              split_ifs <;> intro hr <;> simp at hr <;> omega
            omega
    · simp [h3]

/-- The partition scan returns when there is a session or no partition engine
name is requested. -/
theorem frm_legacy_part_isSome (k : FrmConsts) (c : Extra2Codes) (thd : Option THD)
    (frm_image : List uchar) (dbt : Nat) (s : FrmState)
    (hs : thd ≠ none ∨ s.partition_engine_name = none) :
    ∃ s2, frm_legacy_part k c thd frm_image dbt s = some s2 ∧ s2.type = s.type := by
  unfold frm_legacy_part
  split_ifs with h1 h2
  · have hps := part_scan_isSome c frm_image (64 + uint2korr frm_image 4)
      (uint2korr frm_image 4 + 1) 64 (by omega)
    simp only []
    rcases hq : part_scan c frm_image (64 + uint2korr frm_image 4)
      (uint2korr frm_image 4 + 1) 64 with _ | _ | ⟨e, l⟩
    · rw [hq] at hps; simp at hps
    · exact ⟨s, rfl, rfl⟩
    · cases thd with
      | none =>
        exfalso
        rcases hs with hs | hs
        · exact hs rfl
        · rw [hs] at h1
          simp at h1
      | some t => exact ⟨_, rfl, rfl⟩
  · exact ⟨s, rfl, rfl⟩
  · exact ⟨s, rfl, rfl⟩

theorem frm_legacy_name_type (k : FrmConsts) (frm_image : List uchar) (s : FrmState) :
    (frm_legacy_name k frm_image s).type = s.type := by
  unfold frm_legacy_name
  split
  · rfl
  · simp only []
    split_ifs <;> rfl

theorem frm_legacy_name_partition (k : FrmConsts) (frm_image : List uchar) (s : FrmState) :
    (frm_legacy_name k frm_image s).partition_engine_name = s.partition_engine_name := by
  unfold frm_legacy_name
  split
  · rfl
  · simp only []
    split_ifs <;> rfl

theorem frm_cont_isSome (k : FrmConsts) (c : Extra2Codes) (thd : Option THD) (file : FrmFile)
    (dbt : Nat) (s : FrmState) (hs : thd ≠ none ∨ s.partition_engine_name = none) :
    ∃ s2, frm_cont k c thd file dbt s = some s2 ∧ s2.type = s.type := by
  unfold frm_cont
  split_ifs with h1 h2 h3 h4
  · exact ⟨_, rfl, rfl⟩
  · exact ⟨_, rfl, rfl⟩
  · exact ⟨_, rfl, rfl⟩
  · simp only []
    obtain ⟨s2, h2, ht⟩ := frm_legacy_part_isSome k c thd (file.content ++ [0]) dbt
      (frm_legacy_name k (file.content ++ [0])
        (((s.log FrmEvent.file_fstat).log FrmEvent.file_seek).log FrmEvent.read_string))
      (by
        rcases hs with hs | hs
        · exact Or.inl hs
        · right
          rw [frm_legacy_name_partition]
          exact hs)
    rw [h2]
    refine ⟨_, rfl, ?_⟩
    simp only [frm_err, FrmState.log, ht, frm_legacy_name_type]
  · exact ⟨_, rfl, rfl⟩

/-- What the version test leaves when it returns: the type, the names and the
calls, with at most a `memdup` call added. -/
theorem frm_version_some (c : Extra2Codes) (thd : Option THD) (header : List uchar)
    (s r : FrmState) (h : frm_version c thd header s = some r) :
    r.type = s.type ∧ r.engine_name = s.engine_name ∧
    r.partition_engine_name = s.partition_engine_name ∧
    (r.trace = s.trace ∨ r.trace = s.trace ++ [FrmEvent.memdup]) := by
  unfold frm_version at h
  split_ifs at h with h1
  · cases thd with
    | none => simp at h
    | some t =>
      simp only [] at h
      split_ifs at h <;>
        (simp only [Option.some.injEq] at h
         rw [← h]
         exact ⟨rfl, rfl, rfl, Or.inr rfl⟩)
  · simp only [Option.some.injEq] at h
    rw [← h]
    exact ⟨rfl, rfl, rfl, Or.inl rfl⟩

/-- The version test returns when there is a session or no table version is
requested. -/
theorem frm_version_isSome (c : Extra2Codes) (thd : Option THD) (header : List uchar)
    (s : FrmState) (hs : thd ≠ none ∨ s.table_version = none) :
    ∃ r, frm_version c thd header s = some r := by
  unfold frm_version
  split_ifs with h1
  · cases thd with
    | none =>
      exfalso
      rcases hs with hs | hs
      · exact hs rfl
      · rw [hs] at h1
        simp at h1
    | some t =>
      simp only []
      split_ifs <;> exact ⟨_, rfl⟩
  · exact ⟨_, rfl⟩

theorem frm_version_type (c : Extra2Codes) (thd : Option THD) (header : List uchar)
    (s r : FrmState) (h : frm_version c thd header s = some r) : r.type = s.type :=
  (frm_version_some c thd header s r h).1

theorem frm_resolve_isSome (k : FrmConsts) (c : Extra2Codes) (thd : Option THD)
    (file : FrmFile) (header : List uchar) (dbt : Nat) (s : FrmState)
    (hs : thd ≠ none ∨ s.partition_engine_name = none) :
    ∃ s2, frm_resolve k c thd file header dbt s = some s2 ∧ s2.type = s.type := by
  unfold frm_resolve
  cases thd with
  | none => exact frm_cont_isSome k c none file dbt s hs
  | some t =>
    have hst : ∀ u : FrmState, (some t ≠ none ∨ u.partition_engine_name = none) :=
      fun _ => Or.inl (by simp)
    simp only []
    by_cases hd : dbt < k.DB_TYPE_FIRST_DYNAMIC
    · simp only [hd, if_true]
      cases hres : t.ha_resolve_by_legacy_type dbt with
      | none =>
        simp only []
        obtain ⟨s2, e, ht⟩ := frm_cont_isSome k c (some t) file dbt
          (s.log (FrmEvent.resolve dbt)) (hst _)
        exact ⟨s2, e, ht⟩
      | some name =>
        simp only []
        generalize hs2 : (if (s.log (FrmEvent.resolve dbt)).engine_name.isSome = true then
          { (s.log (FrmEvent.resolve dbt)) with engine_name := some ⟨some name, name.length⟩ }
          else s.log (FrmEvent.resolve dbt)) = s2
        have t2 : s2.type = s.type := by
          rw [← hs2]; split_ifs <;> rfl
        split_ifs with hp hn
        · obtain ⟨u, e, ht⟩ := frm_cont_isSome k c (some t) file dbt s2 (hst _)
          exact ⟨u, e, ht.trans t2⟩
        · cases t.ha_resolve_by_legacy_type (byteAt header 61) <;> exact ⟨_, rfl, t2⟩
        · exact ⟨_, rfl, t2⟩
    · simp only [hd, if_false]
      exact frm_cont_isSome k c (some t) file dbt s (hst _)

/-- The state after the header read of a binary frm, as the sequence test and
the version test leave it when the version test returns. -/
theorem frm_version_sequence_some (k : FrmConsts) (c : Extra2Codes) (thd : Option THD)
    (header : List uchar) (en pen tv : Bool) (s : FrmState)
    (h : frm_version c thd header (frm_sequence k header
      ((frm_init en pen tv).log FrmEvent.file_read)) = some s) :
    s.engine_name = (if en then some ⟨some [], 0⟩ else none) ∧
    s.partition_engine_name = (if pen then some ⟨none, 0⟩ else none) ∧
    (s.trace = [FrmEvent.file_open, FrmEvent.file_read] ∨
      s.trace = [FrmEvent.file_open, FrmEvent.file_read, FrmEvent.memdup]) ∧
    s.type = (if byteAt header 39 &&& 48 = k.HA_CHOICE_YES <<< 4 then
        Table_type.TABLE_TYPE_SEQUENCE
      else Table_type.TABLE_TYPE_NORMAL) := by
  obtain ⟨h1, h2, h3, h4⟩ := frm_version_some c thd header _ s h
  have q : ∀ u : FrmState, u = frm_sequence k header ((frm_init en pen tv).log FrmEvent.file_read) →
      u.engine_name = (if en then some ⟨some [], 0⟩ else none) ∧
      u.partition_engine_name = (if pen then some ⟨none, 0⟩ else none) ∧
      u.trace = [FrmEvent.file_open, FrmEvent.file_read] ∧
      u.type = (if byteAt header 39 &&& 48 = k.HA_CHOICE_YES <<< 4 then
        Table_type.TABLE_TYPE_SEQUENCE
      else Table_type.TABLE_TYPE_NORMAL) := by
    intro u hu
    rw [hu]
    unfold frm_sequence
    by_cases hc : byteAt header 39 &&& 48 = k.HA_CHOICE_YES <<< 4
    · simp only [hc, if_true]
      cases en <;> cases pen <;> exact ⟨rfl, rfl, rfl, trivial⟩
    · simp only [hc, if_false]
      cases en <;> cases pen <;> exact ⟨rfl, rfl, rfl, rfl⟩
  obtain ⟨q1, q2, q3, q4⟩ := q _ rfl
  refine ⟨h2.trans q1, h3.trans q2, ?_, h1.trans q4⟩
  rcases h4 with h4 | h4
  · exact Or.inl (h4.trans q3)
  · exact Or.inr (by rw [h4, q3]; rfl)

/-- The version test of a binary frm returns when there is a session or no
table version is requested. -/
theorem frm_version_sequence_isSome (k : FrmConsts) (c : Extra2Codes) (thd : Option THD)
    (header : List uchar) (en pen tv : Bool) (hs : thd ≠ none ∨ tv = false) :
    ∃ s, frm_version c thd header (frm_sequence k header
      ((frm_init en pen tv).log FrmEvent.file_read)) = some s := by
  apply frm_version_isSome
  rcases hs with hs | hs
  · exact Or.inl hs
  · right
    rw [hs]
    unfold frm_sequence
    split_ifs <;> rfl

/-- The header that `dd_frm_type` reads: the first 82 bytes of the file. -/
theorem frm_header_byte (file : FrmFile) (i : Nat) (hi : i < 82) :
    byteAt (file.content.take (64 + MY_UUID_SIZE + 2)) i = byteAt file.content i :=
  byteAt_take _ _ _ (by simp only [MY_UUID_SIZE]; omega)

/-- A file that opens and whose header cannot be read. -/
theorem dd_frm_type_short (k : FrmConsts) (c : Extra2Codes) (thd : Option THD)
    (file : FrmFile) (en pen tv : Bool) (ho : file.open_ok = true)
    (hr : file.read_ok = false ∨ file.content.length < 64 + MY_UUID_SIZE + 2) :
    dd_frm_type k c thd file en pen tv =
      some (frm_err ((frm_init en pen tv).log FrmEvent.file_read)) := by
  unfold dd_frm_type
  have h1 : (!file.read_ok) = true ∨ file.content.length < 64 + MY_UUID_SIZE + 2 := by
    rcases hr with h | h
    · exact Or.inl (by rw [h]; rfl)
    · exact Or.inr h
  simp only [ho, Bool.not_true, Bool.false_eq_true, if_false, h1, if_true]

/-- A file whose header is read, is not a view and has the binary signature:
the rest of `dd_frm_type` is the sequence test, the version test and, when the
version test returns, the engine resolution. -/
theorem dd_frm_type_binary (k : FrmConsts) (c : Extra2Codes) (thd : Option THD)
    (file : FrmFile) (en pen tv : Bool) (ho : file.open_ok = true)
    (hr : file.read_ok = true) (hl : 64 + MY_UUID_SIZE + 2 ≤ file.content.length)
    (hv : file.content.take 10 ≠ VIEW_MARK)
    (hb : k.is_binary_frm_header (file.content.take (64 + MY_UUID_SIZE + 2)) = true) :
    dd_frm_type k c thd file en pen tv =
      match frm_version c thd (file.content.take (64 + MY_UUID_SIZE + 2))
          (frm_sequence k (file.content.take (64 + MY_UUID_SIZE + 2))
            ((frm_init en pen tv).log FrmEvent.file_read)) with
      | none => none
      | some s => frm_resolve k c thd file (file.content.take (64 + MY_UUID_SIZE + 2))
          (byteAt file.content 3) s := by
  unfold dd_frm_type
  have hl2 : ¬ (file.content.length < 64 + MY_UUID_SIZE + 2) := by omega
  have hv2 : ¬ (List.take 10 (List.take (64 + MY_UUID_SIZE + 2) file.content) = VIEW_MARK) := by
    rw [List.take_take]
    have : min 10 (64 + MY_UUID_SIZE + 2) = 10 := by simp [MY_UUID_SIZE]
    rw [this]; exact hv
  simp only [ho, hr, hb, hl2, hv2, Bool.not_true, Bool.false_eq_true, if_false, or_self]
  rw [frm_header_byte file 3 (by omega)]

/-- The same, once the version test has returned the state `s`. -/
theorem dd_frm_type_binary_some (k : FrmConsts) (c : Extra2Codes) (thd : Option THD)
    (file : FrmFile) (en pen tv : Bool) (s : FrmState) (ho : file.open_ok = true)
    (hr : file.read_ok = true) (hl : 64 + MY_UUID_SIZE + 2 ≤ file.content.length)
    (hv : file.content.take 10 ≠ VIEW_MARK)
    (hb : k.is_binary_frm_header (file.content.take (64 + MY_UUID_SIZE + 2)) = true)
    (hver : frm_version c thd (file.content.take (64 + MY_UUID_SIZE + 2))
      (frm_sequence k (file.content.take (64 + MY_UUID_SIZE + 2))
        ((frm_init en pen tv).log FrmEvent.file_read)) = some s) :
    dd_frm_type k c thd file en pen tv =
      frm_resolve k c thd file (file.content.take (64 + MY_UUID_SIZE + 2))
        (byteAt file.content 3) s := by
  rw [dd_frm_type_binary k c thd file en pen tv ho hr hl hv hb, hver]

/-- The classification of `dd_frm_type` for a file that opens, when there is a
session or neither the table version nor the partition engine name is
requested: the call returns, with View for a readable header that starts with
the view marker, Sequence for a readable binary header with the sequence flag,
Normal otherwise. -/
theorem dd_frm_type_classes (k : FrmConsts) (c : Extra2Codes) (thd : Option THD)
    (file : FrmFile) (en pen tv : Bool) (ho : file.open_ok = true)
    (hs : thd ≠ none ∨ (tv = false ∧ pen = false)) :
    ∃ r, dd_frm_type k c thd file en pen tv = some r ∧
      r.type =
        if file.read_ok = false ∨ file.content.length < 64 + MY_UUID_SIZE + 2 then
          Table_type.TABLE_TYPE_NORMAL
        else if file.content.take 10 = VIEW_MARK then Table_type.TABLE_TYPE_VIEW
        else if k.is_binary_frm_header (file.content.take (64 + MY_UUID_SIZE + 2)) = true ∧
            byteAt file.content 39 &&& 48 = k.HA_CHOICE_YES <<< 4 then
          Table_type.TABLE_TYPE_SEQUENCE
        else Table_type.TABLE_TYPE_NORMAL := by
  by_cases h1 : file.read_ok = false ∨ file.content.length < 64 + MY_UUID_SIZE + 2
  · rw [dd_frm_type_short k c thd file en pen tv ho h1, if_pos h1]
    exact ⟨_, rfl, rfl⟩
  · rw [if_neg h1]
    simp only [not_or, Bool.not_eq_false, not_lt] at h1
    obtain ⟨hr, hl⟩ := h1
    have hvv : List.take 10 (List.take (64 + MY_UUID_SIZE + 2) file.content) =
        List.take 10 file.content := by
      rw [List.take_take]
      have : min 10 (64 + MY_UUID_SIZE + 2) = 10 := by simp [MY_UUID_SIZE]
      rw [this]
    have hl2 : ¬ (file.content.length < 64 + MY_UUID_SIZE + 2) := by omega
    by_cases hv : file.content.take 10 = VIEW_MARK
    · rw [if_pos hv]
      unfold dd_frm_type
      simp only [ho, hr, hl2, hvv, hv, Bool.not_true, Bool.false_eq_true, if_false, or_self,
        if_true]
      exact ⟨_, rfl, rfl⟩
    · rw [if_neg hv]
      cases hb : k.is_binary_frm_header (file.content.take (64 + MY_UUID_SIZE + 2)) with
      | false =>
        unfold dd_frm_type
        simp only [ho, hr, hl2, hvv, hv, hb, Bool.not_true, Bool.not_false, Bool.false_eq_true,
          if_false, or_self, if_true, false_and]
        exact ⟨_, rfl, rfl⟩
      | true =>
        obtain ⟨s, hver⟩ := frm_version_sequence_isSome k c thd
          (file.content.take (64 + MY_UUID_SIZE + 2)) en pen tv
          (hs.imp id (fun h => h.1))
        obtain ⟨_, q2, _, q4⟩ := frm_version_sequence_some k c thd _ en pen tv s hver
        rw [dd_frm_type_binary_some k c thd file en pen tv s ho hr hl hv hb hver]
        obtain ⟨r, e, ht⟩ := frm_resolve_isSome k c thd file
          (file.content.take (64 + MY_UUID_SIZE + 2)) (byteAt file.content 3) s
          (by
            rcases hs with hs | hs
            · exact Or.inl hs
            · right
              rw [q2, hs.2]
              rfl)
        refine ⟨r, e, ?_⟩
        rw [ht, q4, frm_header_byte file 39 (by omega)]
        simp only [true_and]

/-- The function `dd_frm_type` returns when there is a session or neither the
table version nor the partition engine name is requested. -/
theorem dd_frm_type_returns (k : FrmConsts) (c : Extra2Codes) (thd : Option THD)
    (file : FrmFile) (en pen tv : Bool) (hs : thd ≠ none ∨ (tv = false ∧ pen = false)) :
    ∃ r, dd_frm_type k c thd file en pen tv = some r := by
  cases ho : file.open_ok with
  | false => exact ⟨_, by unfold dd_frm_type; simp only [ho, Bool.not_false, if_true]; rfl⟩
  | true =>
    obtain ⟨r, e, _⟩ := dd_frm_type_classes k c thd file en pen tv ho hs
    exact ⟨r, e⟩

/-- C2 (the call dies on a null session). `version_file` opens and holds a
binary header with the version marker at bytes 64-65. With a session
`dd_frm_type` returns Normal on it. With a null `thd` and the table version
requested the call reaches `thd->memdup` at line 124 and does not return: no
type is returned at all. -/
theorem dd_frm_type_null_session_version :
    version_file.open_ok = true ∧
    dd_frm_type frmConsts frmCodes none version_file false false true = none ∧
    (dd_frm_type frmConsts frmCodes (some thd_resolved) version_file false false true).map
      FrmState.type = some Table_type.TABLE_TYPE_NORMAL := by
  decide

/-- C3. View short-circuit: for every file that opens, whose minimum header
(64 + 16 + 2 bytes) can be read and whose first 10 bytes are the literal
`"TYPE=VIEW\n"`, `dd_frm_type` returns View whatever the remaining bytes are, and
nothing else is parsed: the requested outputs (engine name, partition engine
name, table version) are left empty and the only calls made are the open, the
header read and the close, so the engine resolver is not consulted. -/
theorem dd_frm_type_view (k : FrmConsts) (c : Extra2Codes)
    (thd : Option THD) (file : FrmFile) (en pen tv : Bool)
    (ho : file.open_ok = true) (hr : file.read_ok = true)
    (hl : 64 + 16 + 2 ≤ file.content.length)
    (hv : file.content.take 10 = VIEW_MARK) :
    dd_frm_type k c thd file en pen tv =
      some { type := Table_type.TABLE_TYPE_VIEW,
             engine_name := if en then some ⟨some [], 0⟩ else none,
             partition_engine_name := if pen then some ⟨none, 0⟩ else none,
             table_version := if tv then some ⟨none, 0⟩ else none,
             trace := [FrmEvent.file_open, FrmEvent.file_read, FrmEvent.file_close] } := by
  unfold dd_frm_type
  have hl2 : ¬ (file.content.length < 64 + MY_UUID_SIZE + 2) := by
    simp only [MY_UUID_SIZE]; omega
  have hv2 : List.take 10 (List.take (64 + MY_UUID_SIZE + 2) file.content) = VIEW_MARK := by
    rw [List.take_take]; simpa [MY_UUID_SIZE] using hv
  simp [ho, hr, hl2, hv2, frm_err, FrmState.log, frm_init]

/-! ## The paths of `dd_frm_type` after the header read -/

/-- The type that the sequence test leaves. -/
theorem frm_sequence_type (k : FrmConsts) (header : List uchar) (s : FrmState)
    (hs : s.type = Table_type.TABLE_TYPE_NORMAL) :
    (frm_sequence k header s).type =
      if byteAt header 39 &&& 48 = k.HA_CHOICE_YES <<< 4 then Table_type.TABLE_TYPE_SEQUENCE
      else Table_type.TABLE_TYPE_NORMAL := by
  unfold frm_sequence
  split_ifs
  · rfl
  · exact hs

/-- C13 (the call dies on a null session). `version_sequence_file` opens, is
not a view, has the binary signature, the sequence flag in byte 39 and the
version marker at bytes 64-65. With a session `dd_frm_type` returns Sequence on
it. With a null `thd` and the table version requested the call sets the type to
Sequence at line 117, reaches `thd->memdup` at line 124 and does not return. -/
theorem dd_frm_type_sequence_null_session :
    version_sequence_file.open_ok = true ∧
    version_sequence_file.content.take 10 ≠ VIEW_MARK ∧
    frmConsts.is_binary_frm_header (version_sequence_file.content.take 82) = true ∧
    byteAt version_sequence_file.content 39 &&& 48 = frmConsts.HA_CHOICE_YES <<< 4 ∧
    dd_frm_type frmConsts frmCodes none version_sequence_file true false true = none ∧
    (dd_frm_type frmConsts frmCodes (some thd_resolved) version_sequence_file true false
      true).map FrmState.type = some Table_type.TABLE_TYPE_SEQUENCE := by
  decide

/-- C14. Header mismatch: for every file that opens, whose minimum header can
be read, whose first 10 bytes are not the view marker and whose header does not
carry the binary-descriptor signature, `dd_frm_type` returns Normal without
further parsing: whatever byte 39 is, the requested outputs (engine name,
partition engine name, table version) are left empty and the only calls made
are the open, the header read and the close. -/
theorem dd_frm_type_header_mismatch (k : FrmConsts) (c : Extra2Codes) (thd : Option THD)
    (file : FrmFile) (en pen tv : Bool) (ho : file.open_ok = true)
    (hr : file.read_ok = true) (hl : 64 + MY_UUID_SIZE + 2 ≤ file.content.length)
    (hv : file.content.take 10 ≠ VIEW_MARK)
    (hb : k.is_binary_frm_header (file.content.take (64 + MY_UUID_SIZE + 2)) = false) :
    dd_frm_type k c thd file en pen tv =
      some { type := Table_type.TABLE_TYPE_NORMAL,
             engine_name := if en then some ⟨some [], 0⟩ else none,
             partition_engine_name := if pen then some ⟨none, 0⟩ else none,
             table_version := if tv then some ⟨none, 0⟩ else none,
             trace := [FrmEvent.file_open, FrmEvent.file_read, FrmEvent.file_close] } := by
  unfold dd_frm_type
  have hl2 : ¬ (file.content.length < 64 + MY_UUID_SIZE + 2) := by omega
  have hv2 : ¬ (List.take 10 (List.take (64 + MY_UUID_SIZE + 2) file.content) = VIEW_MARK) := by
    rw [List.take_take]
    have : min 10 (64 + MY_UUID_SIZE + 2) = 10 := by simp [MY_UUID_SIZE]
    rw [this]; exact hv
  simp only [ho, hr, hb, hl2, hv2, Bool.not_true, Bool.not_false, Bool.false_eq_true,
    if_false, if_true, or_self]
  rfl

/-- C17 (amended). Unreadable header: if the file opens but fewer than the
minimum header bytes (64 + `MY_UUID_SIZE` + 2) can be read from it (the file is
shorter, or the read fails), `dd_frm_type` returns Normal, with the requested
outputs left empty. -/
theorem dd_frm_type_unreadable_header (k : FrmConsts) (c : Extra2Codes) (thd : Option THD)
    (file : FrmFile) (en pen tv : Bool) (ho : file.open_ok = true)
    (hr : file.read_ok = false ∨ file.content.length < 64 + MY_UUID_SIZE + 2) :
    dd_frm_type k c thd file en pen tv =
      some { type := Table_type.TABLE_TYPE_NORMAL,
             engine_name := if en then some ⟨some [], 0⟩ else none,
             partition_engine_name := if pen then some ⟨none, 0⟩ else none,
             table_version := if tv then some ⟨none, 0⟩ else none,
             trace := [FrmEvent.file_open, FrmEvent.file_read, FrmEvent.file_close] } := by
  rw [dd_frm_type_short k c thd file en pen tv ho hr]
  rfl

/-- C15. Modern path: for every file that opens, whose minimum header can be
read, that is not a view and has the binary signature, whose legacy engine id
(byte 3) is below `DB_TYPE_FIRST_DYNAMIC`, is not the partition engine id and is
resolved by the engine resolver of the session, `dd_frm_type` outputs exactly
the resolved engine's name as engine name (when one is requested), leaves the
partition engine name empty, makes no `fstat`, `seek` or whole-file read (the
legacy fallback is not run), and returns Normal when the sequence flag is not
set (Sequence when it is). -/
theorem dd_frm_type_modern (k : FrmConsts) (c : Extra2Codes) (t : THD)
    (file : FrmFile) (en pen tv : Bool) (name : List uchar) (ho : file.open_ok = true)
    (hr : file.read_ok = true) (hl : 64 + MY_UUID_SIZE + 2 ≤ file.content.length)
    (hv : file.content.take 10 ≠ VIEW_MARK)
    (hb : k.is_binary_frm_header (file.content.take (64 + MY_UUID_SIZE + 2)) = true)
    (hd : byteAt file.content 3 < k.DB_TYPE_FIRST_DYNAMIC)
    (hp : byteAt file.content 3 ≠ k.DB_TYPE_PARTITION_DB)
    (hres : t.ha_resolve_by_legacy_type (byteAt file.content 3) = some name) :
    ∃ r, dd_frm_type k c (some t) file en pen tv = some r ∧
      r.engine_name = (if en then some ⟨some name, name.length⟩ else none) ∧
      r.partition_engine_name = (if pen then some ⟨none, 0⟩ else none) ∧
      (r.type = if byteAt file.content 39 &&& 48 = k.HA_CHOICE_YES <<< 4 then
          Table_type.TABLE_TYPE_SEQUENCE
        else Table_type.TABLE_TYPE_NORMAL) ∧
      FrmEvent.file_fstat ∉ r.trace ∧ FrmEvent.file_seek ∉ r.trace ∧
      FrmEvent.read_string ∉ r.trace ∧
      FrmEvent.resolve (byteAt file.content 3) ∈ r.trace := by
  obtain ⟨s, hver⟩ := frm_version_sequence_isSome k c (some t)
    (file.content.take (64 + MY_UUID_SIZE + 2)) en pen tv (Or.inl (by simp))
  obtain ⟨h1, h2, h3, h4⟩ := frm_version_sequence_some k c (some t) _ en pen tv s hver
  rw [frm_header_byte file 39 (by omega)] at h4
  rw [dd_frm_type_binary_some k c (some t) file en pen tv s ho hr hl hv hb hver]
  unfold frm_resolve
  have hnp : ¬ (k.WITH_PARTITION_STORAGE_ENGINE = true ∧
      (if (s.log (FrmEvent.resolve (byteAt file.content 3))).engine_name.isSome = true then
        { (s.log (FrmEvent.resolve (byteAt file.content 3))) with
          engine_name := some ⟨some name, name.length⟩ }
       else s.log (FrmEvent.resolve (byteAt file.content 3))).partition_engine_name.isSome = true ∧
      byteAt file.content 3 = k.DB_TYPE_PARTITION_DB) := fun h => hp h.2.2
  simp only [hd, if_true, hres, hnp, if_false]
  refine ⟨_, rfl, ?_, ?_, ?_, ?_, ?_, ?_, ?_⟩
  · cases en <;> simp [frm_err, FrmState.log, h1]
  · cases en <;> simp [frm_err, FrmState.log, h1, h2]
  · cases en <;> simp [frm_err, FrmState.log, h1, h4]
  all_goals
    rcases h3 with h3 | h3 <;> cases en <;> simp [frm_err, FrmState.log, h1, h3]

/-- The engine name the legacy layout yields depends on the engine name output
only. -/
theorem frm_legacy_name_engine (k : FrmConsts) (frm_image : List uchar) (s s2 : FrmState)
    (h : s.engine_name = s2.engine_name) :
    (frm_legacy_name k frm_image s).engine_name =
      (frm_legacy_name k frm_image s2).engine_name := by
  unfold frm_legacy_name
  rw [← h]
  rcases he : s.engine_name with _ | en
  · simp only []
    rw [← h, he]
  · simp only []
    split_ifs <;> first | rfl | (rw [← h, he])

/-- The legacy engine name is the empty one when no extra bytes are declared. -/
theorem frm_legacy_name_none (k : FrmConsts) (frm_image : List uchar) (s : FrmState)
    (h : uint4korr frm_image 55 = 0) : frm_legacy_name k frm_image s = s := by
  unfold frm_legacy_name
  split
  · rfl
  · simp [h]

/-- The partition scan of the legacy fallback leaves the engine name. -/
theorem frm_legacy_part_engine (k : FrmConsts) (c : Extra2Codes) (thd : Option THD)
    (frm_image : List uchar) (dbt : Nat) (s r : FrmState)
    (h : frm_legacy_part k c thd frm_image dbt s = some r) : r.engine_name = s.engine_name := by
  unfold frm_legacy_part at h
  split_ifs at h with h1 h2
  · simp only [] at h
    split at h
    · simp at h
    · simp only [Option.some.injEq] at h; rw [← h]
    · cases thd with
      | none => simp at h
      | some t => simp only [Option.some.injEq] at h; rw [← h]; rfl
  · simp only [Option.some.injEq] at h; rw [← h]
  · simp only [Option.some.injEq] at h; rw [← h]

/-- The engine name after the label `cont:`. -/
theorem frm_cont_engine (k : FrmConsts) (c : Extra2Codes) (thd : Option THD) (file : FrmFile)
    (dbt : Nat) (s r : FrmState) (h : frm_cont k c thd file dbt s = some r) :
    r.engine_name =
      if file.fstat_ok = true ∧ file.seek_ok = true ∧ file.read_string_ok = true then
        (frm_legacy_name k (file.content ++ [0]) s).engine_name
      else s.engine_name := by
  unfold frm_cont at h
  by_cases he : s.engine_name.isSome = true
  · simp only [he, if_true] at h
    cases h1 : file.fstat_ok
    · simp only [h1, Bool.not_false, if_true, Option.some.injEq] at h
      rw [← h]; simp [frm_err, FrmState.log]
    · cases h2 : file.seek_ok
      · simp only [h1, h2, Bool.not_false, Bool.not_true, Bool.false_eq_true, if_true, if_false,
          Option.some.injEq] at h
        rw [← h]; simp [frm_err, FrmState.log]
      · cases h3 : file.read_string_ok
        · simp only [h1, h2, h3, Bool.not_false, Bool.not_true, Bool.false_eq_true, if_true,
            if_false, Option.some.injEq] at h
          rw [← h]; simp [frm_err, FrmState.log]
        · simp only [h1, h2, h3, Bool.not_true, Bool.false_eq_true, if_false] at h
          split at h
          · simp at h
          · rename_i s3 hs3
            simp only [Option.some.injEq] at h
            rw [← h]
            simp only [frm_err, FrmState.log, and_self, if_true]
            rw [frm_legacy_part_engine _ _ _ _ _ _ _ hs3]
            exact frm_legacy_name_engine k _ _ _ rfl
  · simp only [he, if_false, Option.some.injEq, Bool.false_eq_true] at h
    rw [← h]
    have hn : frm_legacy_name k (file.content ++ [0]) s = s := by
      unfold frm_legacy_name
      split
      · rfl
      · rename_i en hen
        rw [hen] at he
        simp at he
    rw [hn]
    simp [frm_err, FrmState.log]

/-- C16 (amended). Engine resolution failure: for every file that opens, whose
minimum header can be read, that is not a view, has the binary signature, whose
legacy engine id (byte 3) is below `DB_TYPE_FIRST_DYNAMIC` and for which the
engine resolver of the session finds no engine, and whose legacy offsets lie
inside the image when the whole file is read, `dd_frm_type` returns the
classification (Sequence if the sequence flag is set, Normal otherwise) and goes
on to the legacy fallback: the engine name is the one the legacy layout of the
whole file yields when `fstat`, `seek` and the whole-file read succeed, and is
left empty (length 0) otherwise; it is left empty in particular when the file
declares no extra bytes (the 4 bytes at offset 55 are zero). Nothing is said of
a file whose legacy offsets leave the image: there the source reads foreign
memory. -/
theorem dd_frm_type_unresolved (k : FrmConsts) (c : Extra2Codes) (t : THD)
    (file : FrmFile) (en pen tv : Bool) (ho : file.open_ok = true)
    (hr : file.read_ok = true) (hl : 64 + MY_UUID_SIZE + 2 ≤ file.content.length)
    (hv : file.content.take 10 ≠ VIEW_MARK)
    (hb : k.is_binary_frm_header (file.content.take (64 + MY_UUID_SIZE + 2)) = true)
    (hd : byteAt file.content 3 < k.DB_TYPE_FIRST_DYNAMIC)
    (hres : t.ha_resolve_by_legacy_type (byteAt file.content 3) = none)
    (hin : file.fstat_ok = true → file.seek_ok = true → file.read_string_ok = true →
      frm_legacy_in_bounds k c (file.content ++ [0]) (byteAt file.content 3)
        (frm_init en pen tv)) :
    ∃ r, dd_frm_type k c (some t) file en pen tv = some r ∧
      (r.type = if byteAt file.content 39 &&& 48 = k.HA_CHOICE_YES <<< 4 then
          Table_type.TABLE_TYPE_SEQUENCE
        else Table_type.TABLE_TYPE_NORMAL) ∧
      r.engine_name =
        (if file.fstat_ok = true ∧ file.seek_ok = true ∧ file.read_string_ok = true then
          (frm_legacy_name k (file.content ++ [0]) (frm_init en false false)).engine_name
        else if en then some ⟨some [], 0⟩ else none) ∧
      (uint4korr (file.content ++ [0]) 55 = 0 →
        r.engine_name = if en then some ⟨some [], 0⟩ else none) := by
  have _ := hin
  obtain ⟨s, hver⟩ := frm_version_sequence_isSome k c (some t)
    (file.content.take (64 + MY_UUID_SIZE + 2)) en pen tv (Or.inl (by simp))
  obtain ⟨h1, _, _, h4⟩ := frm_version_sequence_some k c (some t) _ en pen tv s hver
  rw [frm_header_byte file 39 (by omega)] at h4
  have hbin := dd_frm_type_binary_some k c (some t) file en pen tv s ho hr hl hv hb hver
  obtain ⟨r, e, ht⟩ := frm_resolve_isSome k c (some t) file
    (file.content.take (64 + MY_UUID_SIZE + 2)) (byteAt file.content 3) s (Or.inl (by simp))
  have hty : r.type = if byteAt file.content 39 &&& 48 = k.HA_CHOICE_YES <<< 4 then
      Table_type.TABLE_TYPE_SEQUENCE else Table_type.TABLE_TYPE_NORMAL := by
    rw [ht, h4]
  have hc : frm_cont k c (some t) file (byteAt file.content 3)
      (s.log (FrmEvent.resolve (byteAt file.content 3))) = some r := by
    rw [← e]
    unfold frm_resolve
    simp only [hd, if_true, hres]
  have hen := frm_cont_engine k c (some t) file _ _ _ hc
  have hname : (frm_legacy_name k (file.content ++ [0])
      (s.log (FrmEvent.resolve (byteAt file.content 3)))).engine_name =
      (frm_legacy_name k (file.content ++ [0]) (frm_init en false false)).engine_name :=
    frm_legacy_name_engine k _ _ _ (by simp only [FrmState.log, h1, frm_init])
  have hs : (s.log (FrmEvent.resolve (byteAt file.content 3))).engine_name =
      if en then some ⟨some [], 0⟩ else none := by
    simp only [FrmState.log, h1, frm_init]
  rw [hname, hs] at hen
  refine ⟨r, hbin.trans e, hty, hen, ?_⟩
  intro h0
  rw [hen, frm_legacy_name_none k _ _ h0]
  simp [frm_init]

/-! ## The close, the table version and the partition engine -/

theorem frm_later_refl (s r : FrmState) (h : r.trace = s.trace) : frm_later s r :=
  ⟨[], by simp [h], by simp⟩

theorem frm_later_trans (s r u : FrmState) (h1 : frm_later s r) (h2 : frm_later r u) :
    frm_later s u := by
  obtain ⟨e1, t1, n1⟩ := h1
  obtain ⟨e2, t2, n2⟩ := h2
  refine ⟨e1 ++ e2, by rw [t2, t1, List.append_assoc], ?_⟩
  simp only [List.mem_append, not_or]
  exact ⟨n1, n2⟩

theorem frm_later_log (s r : FrmState) (e : FrmEvent) (he : e ≠ FrmEvent.file_close)
    (h : r.trace = s.trace ++ [e]) : frm_later s r :=
  ⟨[e], h, by simp only [List.mem_singleton]; exact fun h => he h.symm⟩

theorem frm_legacy_name_frame (k : FrmConsts) (frm_image : List uchar) (s : FrmState) :
    (frm_legacy_name k frm_image s).trace = s.trace ∧
    (frm_legacy_name k frm_image s).table_version = s.table_version ∧
    (frm_legacy_name k frm_image s).partition_engine_name = s.partition_engine_name := by
  unfold frm_legacy_name
  split
  · exact ⟨rfl, rfl, rfl⟩
  · simp only []
    split_ifs <;> exact ⟨rfl, rfl, rfl⟩

theorem frm_legacy_part_frame (k : FrmConsts) (c : Extra2Codes) (thd : Option THD)
    (frm_image : List uchar) (dbt : Nat) (s r : FrmState)
    (h : frm_legacy_part k c thd frm_image dbt s = some r) :
    frm_later s r ∧ r.table_version = s.table_version := by
  unfold frm_legacy_part at h
  split_ifs at h with h1 h2
  · simp only [] at h
    split at h
    · simp at h
    · simp only [Option.some.injEq] at h; rw [← h]; exact ⟨frm_later_refl _ _ rfl, rfl⟩
    · cases thd with
      | none => simp at h
      | some t =>
        simp only [Option.some.injEq] at h; rw [← h]
        exact ⟨frm_later_log _ _ FrmEvent.strmake (by simp) rfl, rfl⟩
  · simp only [Option.some.injEq] at h; rw [← h]; exact ⟨frm_later_refl _ _ rfl, rfl⟩
  · simp only [Option.some.injEq] at h; rw [← h]; exact ⟨frm_later_refl _ _ rfl, rfl⟩

/-- From the label `cont:` on, a call that returns ends at the label `err:` and
makes no close before it. -/
theorem frm_cont_frame (k : FrmConsts) (c : Extra2Codes) (thd : Option THD) (file : FrmFile)
    (dbt : Nat) (s r : FrmState) (h : frm_cont k c thd file dbt s = some r) :
    ∃ u, r = frm_err u ∧ frm_later s u ∧ u.table_version = s.table_version := by
  unfold frm_cont at h
  split_ifs at h with h1 h2 h3 h4
  · simp only [Option.some.injEq] at h
    exact ⟨_, h.symm, frm_later_log _ _ FrmEvent.file_fstat (by simp) rfl, rfl⟩
  · simp only [Option.some.injEq] at h
    exact ⟨_, h.symm, ⟨[FrmEvent.file_fstat, FrmEvent.file_seek], by simp [FrmState.log],
      by simp⟩, rfl⟩
  · simp only [Option.some.injEq] at h
    exact ⟨_, h.symm, ⟨[FrmEvent.file_fstat, FrmEvent.file_seek, FrmEvent.read_string],
      by simp [FrmState.log], by simp⟩, rfl⟩
  · simp only [] at h
    cases e2 : frm_legacy_part k c thd (file.content ++ [0]) dbt
      (frm_legacy_name k (file.content ++ [0])
        (((s.log FrmEvent.file_fstat).log FrmEvent.file_seek).log FrmEvent.read_string)) with
    | none => rw [e2] at h; simp at h
    | some s2 =>
      rw [e2] at h
      simp only [Option.some.injEq] at h
      obtain ⟨l2, v2⟩ := frm_legacy_part_frame _ _ _ _ _ _ _ e2
      obtain ⟨n1, n2, _⟩ := frm_legacy_name_frame k (file.content ++ [0])
        (((s.log FrmEvent.file_fstat).log FrmEvent.file_seek).log FrmEvent.read_string)
      refine ⟨s2.log FrmEvent.my_free, h.symm, ?_, ?_⟩
      · refine frm_later_trans _ _ _ ?_ (frm_later_trans _ _ _ l2
          (frm_later_log _ _ FrmEvent.my_free (by simp) rfl))
        exact ⟨[FrmEvent.file_fstat, FrmEvent.file_seek, FrmEvent.read_string],
          by rw [n1]; simp [FrmState.log], by simp⟩
      · show s2.table_version = _
        rw [v2, n2]; rfl
  · simp only [Option.some.injEq] at h
    exact ⟨_, h.symm, frm_later_refl _ _ rfl, rfl⟩

/-- The engine resolution, when it returns, ends at the label `err:` and makes
no close before it. -/
theorem frm_resolve_frame (k : FrmConsts) (c : Extra2Codes) (thd : Option THD)
    (file : FrmFile) (header : List uchar) (dbt : Nat) (s r : FrmState)
    (h : frm_resolve k c thd file header dbt s = some r) :
    ∃ u, r = frm_err u ∧ frm_later s u ∧ u.table_version = s.table_version := by
  unfold frm_resolve at h
  cases thd with
  | none => exact frm_cont_frame k c none file dbt s r h
  | some t =>
    simp only [] at h
    by_cases hd : dbt < k.DB_TYPE_FIRST_DYNAMIC
    · simp only [hd, if_true] at h
      have l1 : frm_later s (s.log (FrmEvent.resolve dbt)) :=
        frm_later_log _ _ _ (by simp) rfl
      cases hres : t.ha_resolve_by_legacy_type dbt with
      | none =>
        rw [hres] at h
        simp only [] at h
        obtain ⟨u, e, l, v⟩ := frm_cont_frame k c (some t) file dbt
          (s.log (FrmEvent.resolve dbt)) r h
        exact ⟨u, e, frm_later_trans _ _ _ l1 l, v⟩
      | some name =>
        rw [hres] at h
        simp only [] at h
        generalize hs2 : (if (s.log (FrmEvent.resolve dbt)).engine_name.isSome = true then
          { (s.log (FrmEvent.resolve dbt)) with engine_name := some ⟨some name, name.length⟩ }
          else s.log (FrmEvent.resolve dbt)) = s2 at h
        have t2 : s2.trace = (s.log (FrmEvent.resolve dbt)).trace := by
          rw [← hs2]; split_ifs <;> rfl
        have v2 : s2.table_version = s.table_version := by
          rw [← hs2]; split_ifs <;> rfl
        have l2 : frm_later s s2 := frm_later_trans _ _ _ l1 (frm_later_refl _ _ t2)
        split_ifs at h with hp hn
        · obtain ⟨u, e, l, v⟩ := frm_cont_frame k c (some t) file dbt s2 r h
          exact ⟨u, e, frm_later_trans _ _ _ l2 l, v.trans v2⟩
        · have l3 : frm_later s (s2.log (FrmEvent.resolve (byteAt header 61))) :=
            frm_later_trans _ _ _ l2 (frm_later_log _ _ _ (by simp) rfl)
          cases hq : t.ha_resolve_by_legacy_type (byteAt header 61) with
          | none =>
            rw [hq] at h
            simp only [Option.some.injEq] at h
            exact ⟨_, h.symm, l3, v2⟩
          | some pname =>
            rw [hq] at h
            simp only [Option.some.injEq] at h
            exact ⟨_, h.symm, frm_later_trans _ _ _ l3 (frm_later_refl _ _ rfl), v2⟩
        · simp only [Option.some.injEq] at h
          exact ⟨_, h.symm, l2, v2⟩
    · simp only [hd, if_false] at h
      exact frm_cont_frame k c (some t) file dbt s r h

theorem frm_version_later (c : Extra2Codes) (thd : Option THD) (header : List uchar)
    (s r : FrmState) (h : frm_version c thd header s = some r) : frm_later s r := by
  rcases (frm_version_some c thd header s r h).2.2.2 with ht | ht
  · exact frm_later_refl _ _ ht
  · exact frm_later_log _ _ FrmEvent.memdup (by simp) ht

theorem frm_version_table_version (c : Extra2Codes) (thd : Option THD) (header : List uchar)
    (s r : FrmState) (h : frm_version c thd header s = some r)
    (hn : s.table_version = none) : r.table_version = none := by
  unfold frm_version at h
  simp only [hn, Option.isSome_none, Bool.false_eq_true, false_and, if_false,
    Option.some.injEq] at h
  rw [← h]; exact hn

theorem frm_sequence_later (k : FrmConsts) (header : List uchar) (s : FrmState) :
    frm_later s (frm_sequence k header s) := by
  unfold frm_sequence
  split_ifs <;> exact frm_later_refl _ _ rfl

/-- Once the file is open, a call of `dd_frm_type` that returns ends at the
label `err:` and makes no close before it. -/
theorem dd_frm_type_frame (k : FrmConsts) (c : Extra2Codes) (thd : Option THD)
    (file : FrmFile) (en pen tv : Bool) (r : FrmState) (ho : file.open_ok = true)
    (h : dd_frm_type k c thd file en pen tv = some r) :
    ∃ u, r = frm_err u ∧ frm_later (frm_init en pen tv) u := by
  have l0 : frm_later (frm_init en pen tv) ((frm_init en pen tv).log FrmEvent.file_read) :=
    frm_later_log _ _ FrmEvent.file_read (by simp) rfl
  unfold dd_frm_type at h
  simp only [ho, Bool.not_true, Bool.false_eq_true, if_false] at h
  split_ifs at h with h1 h2 h3
  · simp only [Option.some.injEq] at h
    exact ⟨_, h.symm, l0⟩
  · simp only [Option.some.injEq] at h
    exact ⟨_, h.symm, frm_later_trans _ _ _ l0 (frm_later_refl _ _ rfl)⟩
  · simp only [Option.some.injEq] at h
    exact ⟨_, h.symm, l0⟩
  · cases hv : frm_version c thd (file.content.take (64 + MY_UUID_SIZE + 2))
        (frm_sequence k (file.content.take (64 + MY_UUID_SIZE + 2))
          ((frm_init en pen tv).log FrmEvent.file_read)) with
    | none => rw [hv] at h; simp at h
    | some s =>
      rw [hv] at h
      simp only [] at h
      obtain ⟨u, e, l, _⟩ := frm_resolve_frame k c thd file _ _ s r h
      exact ⟨u, e, frm_later_trans _ _ _ l0 (frm_later_trans _ _ _ (frm_sequence_later _ _ _)
        (frm_later_trans _ _ _ (frm_version_later _ _ _ _ _ hv) l))⟩

/-- Every call of `dd_frm_type` that returns has closed the file exactly once,
as the last call, when the file opened. The call returns when the session is
present, or when neither the table version nor the partition engine name is
requested. -/
theorem dd_frm_type_close (k : FrmConsts) (c : Extra2Codes) (thd : Option THD)
    (file : FrmFile) (en pen tv : Bool) (r : FrmState) (ho : file.open_ok = true)
    (h : dd_frm_type k c thd file en pen tv = some r) :
    ∃ evs, r.trace = FrmEvent.file_open :: evs ++ [FrmEvent.file_close] ∧
      FrmEvent.file_close ∉ evs := by
  obtain ⟨u, e, evs, ht, hn⟩ := dd_frm_type_frame k c thd file en pen tv r ho h
  exact ⟨evs, by rw [e]; simp [frm_err, FrmState.log, ht, frm_init], hn⟩

/-- C24 (the file stays open when the session is null). Two files that open are
evaluated with a null session: on the first the table version is requested and
the header carries the version record, so the call reaches `thd->memdup` (line
124); on the second the partition engine name is requested and the scan of the
whole file finds the record, so the call reaches `thd->strmake` (line 228)
after the whole-file read. Neither call returns, so the close at the label
`err:` is never executed and the file is left open. With a session both calls
return and the close is the last call, made once. -/
theorem dd_frm_type_null_session_no_close :
    version_file.open_ok = true ∧
    dd_frm_type frmConsts frmCodes none version_file false false true = none ∧
    partition_dup_file.open_ok = true ∧
    dd_frm_type frmConsts frmCodes none partition_dup_file true true false = none ∧
    (dd_frm_type frmConsts frmCodes (some thd_resolved) version_file false false true).map
        (fun r => r.trace.count FrmEvent.file_close) = some 1 ∧
    (dd_frm_type frmConsts frmCodes (some thd_partition_only) partition_dup_file true true
        false).map (fun r => (r.trace.count FrmEvent.file_close, r.trace.getLast?))
      = some (1, some FrmEvent.file_close) := by decide

/-- C22. Version sniffing: for every file that opens, whose minimum header can
be read, that is not a view and has the binary signature, when the table
version is requested and the 16-byte copy can be allocated, `dd_frm_type`
outputs a version of length `MY_UUID_SIZE` (16) equal to the header bytes
66..81 if byte 64 equals `EXTRA2_TABLEDEF_VERSION` and byte 65 equals 16, and
otherwise leaves the version output empty (null, length 0). -/
theorem dd_frm_type_version (k : FrmConsts) (c : Extra2Codes) (t : THD)
    (file : FrmFile) (en pen : Bool) (ho : file.open_ok = true)
    (hr : file.read_ok = true) (hl : 64 + MY_UUID_SIZE + 2 ≤ file.content.length)
    (hv : file.content.take 10 ≠ VIEW_MARK)
    (hb : k.is_binary_frm_header (file.content.take (64 + MY_UUID_SIZE + 2)) = true)
    (hm : t.memdup_ok = true) :
    ∃ r, dd_frm_type k c (some t) file en pen true = some r ∧
      r.table_version =
        if byteAt file.content 64 = c.EXTRA2_TABLEDEF_VERSION ∧
            byteAt file.content 65 = MY_UUID_SIZE then
          some ⟨some (slice file.content 66 MY_UUID_SIZE), MY_UUID_SIZE⟩
        else some ⟨none, 0⟩ := by
  have hq : (frm_sequence k (file.content.take (64 + MY_UUID_SIZE + 2))
      ((frm_init en pen true).log FrmEvent.file_read)).table_version = some ⟨none, 0⟩ := by
    unfold frm_sequence
    split_ifs <;> rfl
  have hs : slice (file.content.take (64 + MY_UUID_SIZE + 2)) 66 MY_UUID_SIZE =
      slice file.content 66 MY_UUID_SIZE := by
    simp only [slice, MY_UUID_SIZE, List.drop_take, List.take_take]
    rfl
  obtain ⟨s, hver⟩ := frm_version_sequence_isSome k c (some t)
    (file.content.take (64 + MY_UUID_SIZE + 2)) en pen true (Or.inl (by simp))
  have hpe := (frm_version_sequence_some k c (some t) _ en pen true s hver).2.1
  obtain ⟨r, hr2, _⟩ := frm_resolve_isSome k c (some t) file
    (file.content.take (64 + MY_UUID_SIZE + 2)) (byteAt file.content 3) s (Or.inl (by simp))
  obtain ⟨u, e, _, v⟩ := frm_resolve_frame k c (some t) file _ _ s r hr2
  rw [dd_frm_type_binary_some k c (some t) file en pen true s ho hr hl hv hb hver]
  refine ⟨r, hr2, ?_⟩
  rw [e]
  show u.table_version = _
  rw [v]
  unfold frm_version at hver
  simp only [hq, Option.isSome_some, true_and, hm, frm_header_byte file 64 (by omega),
    frm_header_byte file 65 (by omega), hs, if_true] at hver
  split_ifs at hver with hc
  · simp only [Option.some.injEq] at hver
    rw [← hver, if_pos hc]
  · simp only [Option.some.injEq] at hver
    rw [← hver, if_neg hc]
    exact hq

/-- C23. Partition sub-engine: for every file that opens, whose minimum header
can be read, that is not a view and has the binary signature, when the legacy
engine id (byte 3) is the partition engine id, is below `DB_TYPE_FIRST_DYNAMIC`
and resolves, the partition engine name is requested and the second legacy id
at offset 61 is below `DB_TYPE_FIRST_DYNAMIC`, `dd_frm_type` outputs as
partition engine name the name the resolver gives for that second id; if the
resolver fails for the second id, the partition engine name stays empty. In
both cases the resolved primary engine name is kept, the classification is
returned and the legacy fallback is not run. -/
theorem dd_frm_type_partition (k : FrmConsts) (c : Extra2Codes) (t : THD)
    (file : FrmFile) (en tv : Bool) (name : List uchar) (ho : file.open_ok = true)
    (hr : file.read_ok = true) (hl : 64 + MY_UUID_SIZE + 2 ≤ file.content.length)
    (hv : file.content.take 10 ≠ VIEW_MARK)
    (hb : k.is_binary_frm_header (file.content.take (64 + MY_UUID_SIZE + 2)) = true)
    (hw : k.WITH_PARTITION_STORAGE_ENGINE = true)
    (hp : byteAt file.content 3 = k.DB_TYPE_PARTITION_DB)
    (hd : byteAt file.content 3 < k.DB_TYPE_FIRST_DYNAMIC)
    (hres : t.ha_resolve_by_legacy_type (byteAt file.content 3) = some name)
    (h61 : byteAt file.content 61 < k.DB_TYPE_FIRST_DYNAMIC) :
    ∃ r, dd_frm_type k c (some t) file en true tv = some r ∧
      r.partition_engine_name =
        (match t.ha_resolve_by_legacy_type (byteAt file.content 61) with
         | some pname => some ⟨some pname, pname.length⟩
         | none => some ⟨none, 0⟩) ∧
      r.engine_name = (if en then some ⟨some name, name.length⟩ else none) ∧
      (r.type = if byteAt file.content 39 &&& 48 = k.HA_CHOICE_YES <<< 4 then
          Table_type.TABLE_TYPE_SEQUENCE
        else Table_type.TABLE_TYPE_NORMAL) ∧
      FrmEvent.file_fstat ∉ r.trace := by
  obtain ⟨s, hver⟩ := frm_version_sequence_isSome k c (some t)
    (file.content.take (64 + MY_UUID_SIZE + 2)) en true tv (Or.inl (by simp))
  obtain ⟨h1, h2, h3, h4⟩ := frm_version_sequence_some k c (some t) _ en true tv s hver
  rw [frm_header_byte file 39 (by omega)] at h4
  rw [dd_frm_type_binary_some k c (some t) file en true tv s ho hr hl hv hb hver]
  clear hver
  unfold frm_resolve
  rw [hp] at hd hres ⊢
  have hpe : (if (s.log (FrmEvent.resolve k.DB_TYPE_PARTITION_DB)).engine_name.isSome = true then
        { (s.log (FrmEvent.resolve k.DB_TYPE_PARTITION_DB)) with
          engine_name := some ⟨some name, name.length⟩ }
       else s.log (FrmEvent.resolve k.DB_TYPE_PARTITION_DB)).partition_engine_name.isSome
      = true := by
    split_ifs <;> simp [FrmState.log, h2, frm_init]
  have h61n : ¬ (k.DB_TYPE_FIRST_DYNAMIC ≤ byteAt file.content 61) := by omega
  simp only [hd, if_true, hres, hw, hpe, true_and, and_true, frm_header_byte file 61 (by omega),
    h61n, if_false]
  cases hq : t.ha_resolve_by_legacy_type (byteAt file.content 61) with
  | none =>
    simp only []
    refine ⟨_, rfl, ?_, ?_, ?_, ?_⟩
    · cases en <;> simp [frm_err, FrmState.log, h1, h2, frm_init]
    · cases en <;> simp [frm_err, FrmState.log, h1, frm_init]
    · cases en <;> simp [frm_err, FrmState.log, h1, h4, frm_init]
    · rcases h3 with h3 | h3 <;> cases en <;> simp [frm_err, FrmState.log, h1, h3, frm_init]
  | some pname =>
    simp only []
    refine ⟨_, rfl, ?_, ?_, ?_, ?_⟩
    · cases en <;> simp [frm_err, FrmState.log, h1, h2, frm_init]
    · cases en <;> simp [frm_err, FrmState.log, h1, frm_init]
    · cases en <;> simp [frm_err, FrmState.log, h1, h4, frm_init]
    · rcases h3 with h3 | h3 <;> cases en <;> simp [frm_err, FrmState.log, h1, h3, frm_init]

/-! ## The engine name of the legacy layout -/

/-- The engine name that lines 173-198 leave, in terms of the offsets `p` and
`q`. -/
theorem frm_legacy_name_eq (k : FrmConsts) (img : List uchar) (s : FrmState)
    (e : LEX_CSTRING) (he : s.engine_name = some e) :
    (frm_legacy_name k img s).engine_name =
      if e.length = 0 ∧ uint4korr img 55 ≠ 0 ∧
          legacy_q img + 2 < legacy_p img + uint4korr img 55 ∧
          uint2korr img (legacy_q img) ≤ k.NAME_CHAR_LEN then
        some ⟨some ((slice img (legacy_q img + 2) (uint2korr img (legacy_q img))).takeWhile
          (· ≠ 0)), uint2korr img (legacy_q img)⟩
      else some e := by
  have hq : legacy_p img + (uint2korr img (legacy_p img) + 2) = legacy_q img := by
    unfold legacy_q; omega
  unfold frm_legacy_name
  rw [he]
  simp only []
  change (if e.length = 0 ∧ uint4korr img 55 ≠ 0 then
      if legacy_p img + (uint2korr img (legacy_p img) + 2) + 2 <
          legacy_p img + uint4korr img 55 then
        if uint2korr img (legacy_p img + (uint2korr img (legacy_p img) + 2)) ≤ k.NAME_CHAR_LEN then
          ({ s with engine_name := some ⟨some ((slice img
            (legacy_p img + (uint2korr img (legacy_p img) + 2) + 2)
            (uint2korr img (legacy_p img + (uint2korr img (legacy_p img) + 2)))).takeWhile
              (· ≠ 0)),
            uint2korr img (legacy_p img + (uint2korr img (legacy_p img) + 2))⟩ } : FrmState)
        else s
      else s
    else s).engine_name = _
  rw [hq]
  split_ifs with h1 h2 h3 h4 h5 h6 h7 <;> first
    | rfl
    | exact he
    | (exfalso; tauto)

/-- When the resolver does not give the engine name, the engine resolution is
the code from the label `cont:` on, and the engine name is still the initial
one there. -/
theorem frm_resolve_fallback (k : FrmConsts) (c : Extra2Codes) (thd : Option THD)
    (file : FrmFile) (header : List uchar) (dbt : Nat) (s : FrmState)
    (hcont : ∀ t, thd = some t → dbt < k.DB_TYPE_FIRST_DYNAMIC →
      t.ha_resolve_by_legacy_type dbt = none) :
    ∃ s2, frm_resolve k c thd file header dbt s = frm_cont k c thd file dbt s2 ∧
      s2.engine_name = s.engine_name ∧ s2.type = s.type ∧
      s2.partition_engine_name = s.partition_engine_name := by
  unfold frm_resolve
  cases thd with
  | none => exact ⟨s, rfl, rfl, rfl, rfl⟩
  | some t =>
    simp only []
    by_cases hd : dbt < k.DB_TYPE_FIRST_DYNAMIC
    · simp only [hd, if_true, hcont t rfl hd]
      exact ⟨_, rfl, rfl, rfl, rfl⟩
    · simp only [hd, if_false]
      exact ⟨s, rfl, rfl, rfl, rfl⟩

/-- The engine name of a binary frm whose engine the resolver does not give,
for a call that returns (the session is present, or neither the table version
nor the partition engine name is requested): the one of the legacy layout when
`fstat`, `seek` and the whole-file read succeed, the initial one otherwise. -/
theorem dd_frm_type_fallback (k : FrmConsts) (c : Extra2Codes) (thd : Option THD)
    (file : FrmFile) (en pen tv : Bool) (ho : file.open_ok = true)
    (hr : file.read_ok = true) (hl : 64 + MY_UUID_SIZE + 2 ≤ file.content.length)
    (hv : file.content.take 10 ≠ VIEW_MARK)
    (hb : k.is_binary_frm_header (file.content.take (64 + MY_UUID_SIZE + 2)) = true)
    (hcont : ∀ t, thd = some t → byteAt file.content 3 < k.DB_TYPE_FIRST_DYNAMIC →
      t.ha_resolve_by_legacy_type (byteAt file.content 3) = none)
    (hth : thd ≠ none ∨ (tv = false ∧ pen = false)) :
    ∃ r, dd_frm_type k c thd file en pen tv = some r ∧
      r.engine_name =
        (if file.fstat_ok = true ∧ file.seek_ok = true ∧ file.read_string_ok = true then
          (frm_legacy_name k (file.content ++ [0]) (frm_init en false false)).engine_name
        else if en then some ⟨some [], 0⟩ else none) := by
  obtain ⟨s, hver⟩ := frm_version_sequence_isSome k c thd
    (file.content.take (64 + MY_UUID_SIZE + 2)) en pen tv (hth.imp id And.left)
  obtain ⟨h1, hp1, _, _⟩ := frm_version_sequence_some k c thd _ en pen tv s hver
  rw [dd_frm_type_binary_some k c thd file en pen tv s ho hr hl hv hb hver]
  obtain ⟨s2, e2, n2, _, p2⟩ := frm_resolve_fallback k c thd file
    (file.content.take (64 + MY_UUID_SIZE + 2)) (byteAt file.content 3) s hcont
  have hpn : thd ≠ none ∨ s2.partition_engine_name = none := by
    rcases hth with h | ⟨_, h⟩
    · exact Or.inl h
    · right; rw [p2, hp1, h]; rfl
  obtain ⟨r, er, _⟩ := frm_cont_isSome k c thd file (byteAt file.content 3) s2 hpn
  refine ⟨r, e2.trans er, ?_⟩
  rw [frm_cont_engine k c thd file _ _ _ er, n2, h1]
  rw [frm_legacy_name_engine k (file.content ++ [0]) s2 (frm_init en false false)
    (by rw [n2, h1]; rfl)]

/-- C28 (amended). Legacy engine-name location: for every binary frm whose
engine the resolver does not give (no session, an id at or above
`DB_TYPE_FIRST_DYNAMIC`, or a failed lookup), with the engine name requested and
the whole file read, when the session is present or neither the table version
nor the partition engine name is requested (with a null session the call dies
at `thd->memdup` or `thd->strmake`) and every offset that the legacy fallback
reads lies inside the image it has read (beyond it the code reads foreign
memory), let `n` be the 4-byte value at offset 55 of the image,
`p = ((u16@6 + (u32@47 if u16@14 = 0xFFFF, else u16@14)) mod 2^32) + u16@16`,
`c = u16@p`, `q = p + 2 + c` and `L = u16@q`; then `dd_frm_type` sets the engine
name, with length `L` and as content the bytes from `q + 2` on (`L` of them, up
to the first zero byte), exactly when `n` is not 0, `q + 2 < p + n` and
`L <= NAME_CHAR_LEN`, and leaves it empty otherwise. -/
theorem dd_frm_type_legacy_name (k : FrmConsts) (c : Extra2Codes) (thd : Option THD)
    (file : FrmFile) (pen tv : Bool) (ho : file.open_ok = true)
    (hr : file.read_ok = true) (hl : 64 + MY_UUID_SIZE + 2 ≤ file.content.length)
    (hv : file.content.take 10 ≠ VIEW_MARK)
    (hb : k.is_binary_frm_header (file.content.take (64 + MY_UUID_SIZE + 2)) = true)
    (hcont : ∀ t, thd = some t → byteAt file.content 3 < k.DB_TYPE_FIRST_DYNAMIC →
      t.ha_resolve_by_legacy_type (byteAt file.content 3) = none)
    (hf : file.fstat_ok = true) (hs : file.seek_ok = true) (hrs : file.read_string_ok = true)
    (hth : thd ≠ none ∨ (tv = false ∧ pen = false))
    (hin : frm_legacy_in_bounds k c (file.content ++ [0]) (byteAt file.content 3)
      (frm_init true pen tv)) :
    ∃ r, dd_frm_type k c thd file true pen tv = some r ∧
      r.engine_name =
        if uint4korr (file.content ++ [0]) 55 ≠ 0 ∧
            legacy_q (file.content ++ [0]) + 2 <
              legacy_p (file.content ++ [0]) + uint4korr (file.content ++ [0]) 55 ∧
            uint2korr (file.content ++ [0]) (legacy_q (file.content ++ [0])) ≤ k.NAME_CHAR_LEN then
          some ⟨some ((slice (file.content ++ [0]) (legacy_q (file.content ++ [0]) + 2)
              (uint2korr (file.content ++ [0]) (legacy_q (file.content ++ [0])))).takeWhile
                (· ≠ 0)),
            uint2korr (file.content ++ [0]) (legacy_q (file.content ++ [0]))⟩
        else some ⟨some [], 0⟩ := by
  have _ := hin
  obtain ⟨r, e, h⟩ := dd_frm_type_fallback k c thd file true pen tv ho hr hl hv hb hcont hth
  refine ⟨r, e, ?_⟩
  rw [h, frm_legacy_name_eq k _ _ ⟨some [], 0⟩ rfl]
  simp only [hf, hs, hrs, and_self, if_true, true_and]

/-- The engine name that lines 173-198 leave is the one they found or a
bounded one, of the stored length `u16@q`. -/
theorem frm_legacy_name_cases (k : FrmConsts) (img : List uchar) (s : FrmState) :
    (frm_legacy_name k img s).engine_name = s.engine_name ∨
    ∃ nm len, (frm_legacy_name k img s).engine_name = some ⟨some nm, len⟩ ∧
      len ≤ k.NAME_CHAR_LEN ∧ nm.length ≤ len ∧ uint2korr img (legacy_q img) = len := by
  cases he : s.engine_name with
  | none =>
    left
    unfold frm_legacy_name
    rw [he]
    exact he
  | some e =>
    rw [frm_legacy_name_eq k img s e he]
    split_ifs with h
    · right
      refine ⟨_, _, rfl, h.2.2.2, ?_, rfl⟩
      refine (List.takeWhile_prefix _).length_le.trans ?_
      unfold slice
      exact (List.length_take_le _ _)
    · exact Or.inl rfl

/-- The engine name after the label `cont:` is the one before it or a bounded
one. -/
theorem frm_cont_engine_cases (k : FrmConsts) (c : Extra2Codes) (thd : Option THD)
    (file : FrmFile) (dbt : Nat) (s r : FrmState) (h : frm_cont k c thd file dbt s = some r) :
    r.engine_name = s.engine_name ∨
    ∃ nm len, r.engine_name = some ⟨some nm, len⟩ ∧
      len ≤ k.NAME_CHAR_LEN ∧ nm.length ≤ len ∧
      uint2korr (file.content ++ [0]) (legacy_q (file.content ++ [0])) = len := by
  rw [frm_cont_engine k c thd file dbt s r h]
  split_ifs
  · exact frm_legacy_name_cases k _ s
  · exact Or.inl rfl

/-- The engine name after the engine resolution is the one before it, the
resolved one, or a bounded one. -/
theorem frm_resolve_engine_cases (k : FrmConsts) (c : Extra2Codes) (thd : Option THD)
    (file : FrmFile) (header : List uchar) (dbt : Nat) (s r : FrmState)
    (h : frm_resolve k c thd file header dbt s = some r) :
    r.engine_name = s.engine_name ∨
    (∃ t name, thd = some t ∧ t.ha_resolve_by_legacy_type dbt = some name ∧
      r.engine_name = some ⟨some name, name.length⟩) ∨
    ∃ nm len, r.engine_name = some ⟨some nm, len⟩ ∧
      len ≤ k.NAME_CHAR_LEN ∧ nm.length ≤ len ∧
      uint2korr (file.content ++ [0]) (legacy_q (file.content ++ [0])) = len := by
  unfold frm_resolve at h
  cases thd with
  | none =>
    rcases frm_cont_engine_cases k c none file dbt s r h with h1 | h1
    · exact Or.inl h1
    · exact Or.inr (Or.inr h1)
  | some t =>
    simp only [] at h
    by_cases hd : dbt < k.DB_TYPE_FIRST_DYNAMIC
    · simp only [hd, if_true] at h
      cases hres : t.ha_resolve_by_legacy_type dbt with
      | none =>
        rw [hres] at h
        simp only [] at h
        rcases frm_cont_engine_cases k c (some t) file dbt _ r h with h1 | h1
        · exact Or.inl h1
        · exact Or.inr (Or.inr h1)
      | some name =>
        rw [hres] at h
        simp only [] at h
        generalize hs2 : (if (s.log (FrmEvent.resolve dbt)).engine_name.isSome = true then
          { (s.log (FrmEvent.resolve dbt)) with engine_name := some ⟨some name, name.length⟩ }
          else s.log (FrmEvent.resolve dbt)) = s2 at h
        have e2 : s2.engine_name = s.engine_name ∨
            s2.engine_name = some ⟨some name, name.length⟩ := by
          rw [← hs2]; split_ifs
          · exact Or.inr rfl
          · exact Or.inl rfl
        have fin : ∀ u : FrmState, u.engine_name = s2.engine_name →
            u.engine_name = s.engine_name ∨
            (∃ t2 name2, some t = some t2 ∧ t2.ha_resolve_by_legacy_type dbt = some name2 ∧
              u.engine_name = some ⟨some name2, name2.length⟩) ∨
            ∃ nm len, u.engine_name = some ⟨some nm, len⟩ ∧
              len ≤ k.NAME_CHAR_LEN ∧ nm.length ≤ len ∧
              uint2korr (file.content ++ [0]) (legacy_q (file.content ++ [0])) = len := by
          intro u hu
          rcases e2 with e2 | e2
          · exact Or.inl (hu.trans e2)
          · exact Or.inr (Or.inl ⟨t, name, rfl, hres, hu.trans e2⟩)
        split_ifs at h with hp hn
        · rcases frm_cont_engine_cases k c (some t) file dbt s2 r h with h1 | h1
          · exact fin r h1
          · exact Or.inr (Or.inr h1)
        · cases hq : t.ha_resolve_by_legacy_type (byteAt header 61) with
          | none =>
            rw [hq] at h
            simp only [Option.some.injEq] at h
            exact fin r (by rw [← h]; rfl)
          | some pname =>
            rw [hq] at h
            simp only [Option.some.injEq] at h
            exact fin r (by rw [← h]; rfl)
        · simp only [Option.some.injEq] at h
          exact fin r (by rw [← h]; rfl)
    · simp only [hd, if_false] at h
      rcases frm_cont_engine_cases k c (some t) file dbt s r h with h1 | h1
      · exact Or.inl h1
      · exact Or.inr (Or.inr h1)

/-- The engine name that `dd_frm_type` outputs is the initial one, the resolved
one, or a bounded one. -/
theorem dd_frm_type_engine_cases (k : FrmConsts) (c : Extra2Codes) (thd : Option THD)
    (file : FrmFile) (en pen tv : Bool) (r : FrmState)
    (h : dd_frm_type k c thd file en pen tv = some r) :
    (r.engine_name = none ∨ r.engine_name = some ⟨some [], 0⟩) ∨
    (∃ t name, thd = some t ∧ t.ha_resolve_by_legacy_type (byteAt file.content 3) = some name ∧
      r.engine_name = some ⟨some name, name.length⟩) ∨
    ∃ nm len, r.engine_name = some ⟨some nm, len⟩ ∧
      len ≤ k.NAME_CHAR_LEN ∧ nm.length ≤ len ∧
      uint2korr (file.content ++ [0]) (legacy_q (file.content ++ [0])) = len := by
  have hinit : ∀ u : FrmState, u.engine_name = (frm_init en pen tv).engine_name →
      u.engine_name = none ∨ u.engine_name = some ⟨some [], 0⟩ := by
    intro u hu
    rw [hu]
    cases en
    · exact Or.inl rfl
    · exact Or.inr rfl
  unfold dd_frm_type at h
  split_ifs at h with h0 h1
  · simp only [Option.some.injEq] at h
    exact Or.inl (Or.inl (by rw [← h]))
  · simp only [Option.some.injEq] at h
    exact Or.inl (hinit r (by rw [← h]; rfl))
  · simp only [] at h
    split_ifs at h with h2 h3
    · simp only [Option.some.injEq] at h
      exact Or.inl (hinit r (by rw [← h]; rfl))
    · simp only [Option.some.injEq] at h
      exact Or.inl (hinit r (by rw [← h]; rfl))
    · have hl : 64 + MY_UUID_SIZE + 2 ≤ file.content.length := by
        simp only [not_or, not_lt] at h1
        exact h1.2
      rw [frm_header_byte file 3 (by omega)] at h
      cases hver : frm_version c thd (file.content.take (64 + MY_UUID_SIZE + 2))
          (frm_sequence k (file.content.take (64 + MY_UUID_SIZE + 2))
            ((frm_init en pen tv).log FrmEvent.file_read)) with
      | none => rw [hver] at h; simp at h
      | some s =>
        rw [hver] at h
        simp only [] at h
        obtain ⟨e1, _, _, _⟩ := frm_version_sequence_some k c thd _ en pen tv s hver
        rcases frm_resolve_engine_cases k c thd file _ _ _ r h with q | q | q
        · exact Or.inl (hinit r (by rw [q, e1]; rfl))
        · exact Or.inr (Or.inl q)
        · exact Or.inr (Or.inr q)

/-- C25. Bounded engine name: when the session is present, or neither the table
version nor the partition engine name is requested (with a null session the
call dies at `thd->memdup` or `thd->strmake`), and every offset that the legacy
fallback reads once the whole file is read lies inside the image (beyond it the
code reads foreign memory), `dd_frm_type` returns, and the engine name it
outputs is the initial empty one, the name the resolver gave, or one set by the
legacy fallback path; whenever the legacy fallback path sets it, its length is
the stored name length `u16@q` and is at most `NAME_CHAR_LEN`, and its bytes are
at most that many, so that at most `NAME_CHAR_LEN + 1` bytes are written into
the caller's buffer. A stored name length greater than `NAME_CHAR_LEN` leaves
the engine name as it was: empty, unless the resolver gave it. -/
theorem dd_frm_type_name_bounded (k : FrmConsts) (c : Extra2Codes) (thd : Option THD)
    (file : FrmFile) (en pen tv : Bool)
    (hth : thd ≠ none ∨ (tv = false ∧ pen = false))
    (hin : file.fstat_ok = true → file.seek_ok = true → file.read_string_ok = true →
      frm_legacy_in_bounds k c (file.content ++ [0]) (byteAt file.content 3)
        (frm_init en pen tv)) :
    ∃ r, dd_frm_type k c thd file en pen tv = some r ∧
      ((r.engine_name = none ∨ r.engine_name = some ⟨some [], 0⟩) ∨
       (∃ t name, thd = some t ∧
          t.ha_resolve_by_legacy_type (byteAt file.content 3) = some name ∧
          r.engine_name = some ⟨some name, name.length⟩) ∨
       ∃ nm len, r.engine_name = some ⟨some nm, len⟩ ∧
          len = uint2korr (file.content ++ [0]) (legacy_q (file.content ++ [0])) ∧
          len ≤ k.NAME_CHAR_LEN ∧ nm.length ≤ len ∧ nm.length + 1 ≤ k.NAME_CHAR_LEN + 1) ∧
      (k.NAME_CHAR_LEN < uint2korr (file.content ++ [0]) (legacy_q (file.content ++ [0])) →
        (r.engine_name = none ∨ r.engine_name = some ⟨some [], 0⟩) ∨
        ∃ t name, thd = some t ∧
          t.ha_resolve_by_legacy_type (byteAt file.content 3) = some name ∧
          r.engine_name = some ⟨some name, name.length⟩) := by
  have _ := hin
  obtain ⟨r, e⟩ := dd_frm_type_returns k c thd file en pen tv hth
  refine ⟨r, e, ?_, ?_⟩
  · rcases dd_frm_type_engine_cases k c thd file en pen tv r e with q | q | ⟨nm, len, q1, q2, q3, q4⟩
    · exact Or.inl q
    · exact Or.inr (Or.inl q)
    · exact Or.inr (Or.inr ⟨nm, len, q1, q4.symm, q2, q3, by omega⟩)
  · intro hbig
    rcases dd_frm_type_engine_cases k c thd file en pen tv r e with q | q | ⟨nm, len, _, q2, _, q4⟩
    · exact Or.inl q
    · exact Or.inr q
    · omega

/-! ## The legacy fallback at the ends of the image -/

/-- C27 (the code reads past the image). The image of `far_file` has 83 bytes.
The legacy fallback runs on it (the whole file is read) and reads the
connect-string length at the offsets 1000 and 1001 and the name length at 1002
and 1003. The image of `far_scan_file` has 83 bytes too; the partition-engine
scan runs on it and reads the offsets 266 to 269. -/
theorem legacy_fallback_reads_beyond :
    (far_file.content ++ [0]).length = 83 ∧
    (dd_frm_type frmConsts frmCodes none far_file true false false).map FrmState.trace =
      some [FrmEvent.file_open, FrmEvent.file_read, FrmEvent.file_fstat, FrmEvent.file_seek,
        FrmEvent.read_string, FrmEvent.my_free, FrmEvent.file_close] ∧
    frm_legacy_name_reads frmConsts (far_file.content ++ [0]) (frm_init true false false) =
      [55, 56, 57, 58, 6, 7, 14, 15, 14, 15, 16, 17, 1000, 1001, 1002, 1003] ∧
    (far_scan_file.content ++ [0]).length = 83 ∧
    (dd_frm_type frmConsts frmCodes none far_scan_file true true false).map FrmState.trace =
      some [FrmEvent.file_open, FrmEvent.file_read, FrmEvent.file_fstat, FrmEvent.file_seek,
        FrmEvent.read_string, FrmEvent.my_free, FrmEvent.file_close] ∧
    frm_legacy_part_reads frmConsts frmCodes (far_scan_file.content ++ [0]) 20
        (frm_init true true false) =
      [4, 5, 64, 64, 65, 266, 267, 268, 269] := by
  decide

/-- C29 (the reader and the sniffer disagree). The segment of
`partition_dup_file` is two partition-engine records. `Extra2_info::read`,
started with no field set, succeeds on its image and leaves the payload `[8]` of
the second record as partition engine, while the scan of `dd_frm_type` (engine
id 20, the partition engine, not resolved; partition engine name requested)
outputs the payload `[9]` of the first. -/
theorem sniffer_reader_disagree :
    Extra2_info.read frmCodes Extra2_info.empty (partition_dup_file.content ++ [0]) 82 =
      some (false, { Extra2_info.empty with engine := some [8], read_size := 6 }) ∧
    dd_frm_type frmConsts frmCodes (some thd_unresolved) partition_dup_file true true false =
      some { type := Table_type.TABLE_TYPE_NORMAL,
             engine_name := some ⟨some [], 0⟩,
             partition_engine_name := some ⟨some [9], 1⟩,
             table_version := none,
             trace := [FrmEvent.file_open, FrmEvent.file_read, FrmEvent.resolve 20,
               FrmEvent.file_fstat, FrmEvent.file_seek, FrmEvent.read_string,
               FrmEvent.strmake, FrmEvent.my_free, FrmEvent.file_close] } := by
  decide

/-! ## The empty segment, the classification and the written version -/

/-- C32. Empty segment: for every buffer of at least `FRM_HEADER_SIZE` (64) bytes
whose declared segment length is 0, `Extra2_info::read` succeeds and populates no
field: called on the metadata value with no field set it leaves no field set
(and in general it leaves every field as it was), with `read_size` 0. -/
theorem read_empty_segment (c : Extra2Codes) (info : Extra2_info) (image : List uchar)
    (frm_size : Nat) (h0 : uint2korr image 4 = 0) (hsz : FRM_HEADER_SIZE ≤ frm_size) :
    Extra2_info.read c info image frm_size = some (false, { info with read_size := 0 }) ∧
    Extra2_info.read c Extra2_info.empty image frm_size = some (false, Extra2_info.empty) ∧
    ({ info with read_size := 0 } : Extra2_info).fields = info.fields := by
  have h : ∀ i : Extra2_info, Extra2_info.read c i image frm_size =
      some (false, { i with read_size := 0 }) := by
    intro i
    unfold Extra2_info.read
    simp only [h0, FRM_HEADER_SIZE] at hsz ⊢
    rw [if_neg (by omega)]
    split_ifs
    · rfl
    · unfold read_loop
      simp
  exact ⟨h info, h Extra2_info.empty, rfl⟩

/-- C34 (the code does more than the view test). `sequence_file` opens, has no
view marker, has the binary signature and the sequence flag in byte 39. With no
engine-name output requested (and no other output, and no session)
`dd_frm_type` returns Sequence on it, not Normal. -/
theorem dd_frm_type_no_engine_sequence :
    sequence_file.open_ok = true ∧ sequence_file.content.take 10 ≠ VIEW_MARK ∧
    dd_frm_type frmConsts frmCodes none sequence_file false false false =
      some { type := Table_type.TABLE_TYPE_SEQUENCE,
             engine_name := none,
             partition_engine_name := none,
             table_version := none,
             trace := [FrmEvent.file_open, FrmEvent.file_read, FrmEvent.file_close] } := by
  decide

/-- The table version that `dd_frm_type` outputs for a binary frm when the
16-byte copy can be allocated. -/
theorem dd_frm_type_table_version (k : FrmConsts) (c : Extra2Codes) (t : THD)
    (file : FrmFile) (en pen : Bool) (ho : file.open_ok = true)
    (hr : file.read_ok = true) (hl : 64 + MY_UUID_SIZE + 2 ≤ file.content.length)
    (hv : file.content.take 10 ≠ VIEW_MARK)
    (hb : k.is_binary_frm_header (file.content.take (64 + MY_UUID_SIZE + 2)) = true)
    (hm : t.memdup_ok = true) :
    ∃ r, dd_frm_type k c (some t) file en pen true = some r ∧
      r.table_version =
        if byteAt file.content 64 = c.EXTRA2_TABLEDEF_VERSION ∧
            byteAt file.content 65 = MY_UUID_SIZE then
          some ⟨some (slice file.content 66 MY_UUID_SIZE), MY_UUID_SIZE⟩
        else some ⟨none, 0⟩ := by
  have hq : (frm_sequence k (file.content.take (64 + MY_UUID_SIZE + 2))
      ((frm_init en pen true).log FrmEvent.file_read)).table_version = some ⟨none, 0⟩ := by
    unfold frm_sequence
    split_ifs <;> rfl
  have hs : slice (file.content.take (64 + MY_UUID_SIZE + 2)) 66 MY_UUID_SIZE =
      slice file.content 66 MY_UUID_SIZE := by
    simp only [slice, MY_UUID_SIZE, List.drop_take, List.take_take]
    rfl
  obtain ⟨s, hver⟩ := frm_version_sequence_isSome k c (some t)
    (file.content.take (64 + MY_UUID_SIZE + 2)) en pen true (Or.inl (by simp))
  have hpe := (frm_version_sequence_some k c (some t) _ en pen true s hver).2.1
  obtain ⟨r, hr2, _⟩ := frm_resolve_isSome k c (some t) file
    (file.content.take (64 + MY_UUID_SIZE + 2)) (byteAt file.content 3) s (Or.inl (by simp))
  obtain ⟨u, e, _, v⟩ := frm_resolve_frame k c (some t) file _ _ s r hr2
  rw [dd_frm_type_binary_some k c (some t) file en pen true s ho hr hl hv hb hver]
  refine ⟨r, hr2, ?_⟩
  rw [e]
  show u.table_version = _
  rw [v]
  unfold frm_version at hver
  simp only [hq, Option.isSome_some, true_and, hm, frm_header_byte file 64 (by omega),
    frm_header_byte file 65 (by omega), hs, if_true] at hver
  split_ifs at hver with hc
  · simp only [Option.some.injEq] at hver
    rw [← hver, if_pos hc]
  · simp only [Option.some.injEq] at hver
    rw [← hver, if_neg hc]
    exact hq

/-- The buffer that `write` leaves for a metadata value with a version: the
header, the version record, the other records and the rest of the buffer. -/
theorem write_version_image (c : Extra2Codes) (info : Extra2_info) (buf : List uchar)
    (frm_size : Nat) (v : List uchar) (hv : info.version = some v)
    (hbuf : 64 + info.store_size ≤ buf.length) :
    ∃ rest : List uchar, (info.write c buf frm_size).1 =
      (buf.take 64 ++ (toByte c.EXTRA2_TABLEDEF_VERSION ::
        (if v.length < 256 then [toByte v.length]
         else [0, toByte v.length, toByte (v.length / 256)]))) ++ (v ++ rest) := by
  rw [write_image c info buf frm_size (by omega)]
  simp only [write_records, hv, field_record, records_bytes_append, records_bytes,
    extra2_record, List.append_nil, List.cons_append, List.append_assoc, List.nil_append]
  exact ⟨_, rfl⟩

/-- C31. Writer and sniffer agree on the version: for every metadata value whose
version field is present with length `MY_UUID_SIZE` (16), whichever other fields
are present, after `Extra2_info::write` the buffer has `EXTRA2_TABLEDEF_VERSION` at
offset 64, 16 at offset 65 and the version bytes at offsets 66..81; and
`dd_frm_type`, run on a file that holds that buffer (readable, no view marker,
binary signature) with the table version requested and the copy allocated,
outputs exactly that version, of length 16. -/
theorem write_version_sniffed (c : Extra2Codes) (hc : c.valid) (info : Extra2_info)
    (buf : List uchar) (frm_size : Nat) (v : List uchar) (hv : info.version = some v)
    (hlen : v.length = MY_UUID_SIZE) (hbuf : FRM_HEADER_SIZE + info.store_size ≤ buf.length) :
    byteAt (info.write c buf frm_size).1 64 = c.EXTRA2_TABLEDEF_VERSION ∧
    byteAt (info.write c buf frm_size).1 65 = 16 ∧
    slice (info.write c buf frm_size).1 66 16 = v ∧
    (∀ (k : FrmConsts) (t : THD) (file : FrmFile) (en pen : Bool),
      file.content = (info.write c buf frm_size).1 → file.open_ok = true →
      file.read_ok = true → file.content.take 10 ≠ VIEW_MARK →
      k.is_binary_frm_header (file.content.take (64 + MY_UUID_SIZE + 2)) = true →
      t.memdup_ok = true →
      ∃ r, dd_frm_type k c (some t) file en pen true = some r ∧
        r.table_version = some ⟨some v, MY_UUID_SIZE⟩) := by
  simp only [FRM_HEADER_SIZE] at hbuf
  simp only [MY_UUID_SIZE] at hlen
  obtain ⟨rest, hw⟩ := write_version_image c info buf frm_size v hv hbuf
  have h256 : v.length < 256 := by omega
  simp only [h256, if_true] at hw
  have hA : (buf.take 64).length = 64 := by simp; omega
  have hss : 18 ≤ info.store_size := by
    simp only [Extra2_info.store_size, Extra2_info.fields, List.map_cons, List.map_nil,
      List.sum_cons, List.sum_nil, hv, store_size_of, hlen,
      (by decide : (16 : Nat) < 256), if_true]
    omega
  have hvt : c.EXTRA2_TABLEDEF_VERSION < 256 := hc.2.1 _ (by simp [Extra2Codes.known])
  have b64 : byteAt (info.write c buf frm_size).1 64 = c.EXTRA2_TABLEDEF_VERSION := by
    rw [hw, byteAt_append_left _ _ _ (by simp [hA]),
      byteAt_append_right _ _ _ (by omega), hA]
    simp [byteAt, toByte, Nat.mod_eq_of_lt hvt]
  have b65 : byteAt (info.write c buf frm_size).1 65 = 16 := by
    rw [hw, byteAt_append_left _ _ _ (by simp [hA]),
      byteAt_append_right _ _ _ (by omega), hA]
    simp [byteAt, toByte, hlen]
    rfl
  have s66 : slice (info.write c buf frm_size).1 66 16 = v := by
    rw [hw]
    unfold slice
    rw [List.drop_left' (by simp [hA]), ← hlen, List.take_left]
  refine ⟨b64, b65, s66, ?_⟩
  intro k t file en pen hcon ho hr hview hb hm
  have hl : 64 + MY_UUID_SIZE + 2 ≤ file.content.length := by
    rw [hcon, write_length c info buf frm_size hbuf]
    simp only [MY_UUID_SIZE]
    omega
  obtain ⟨r, e, h⟩ := dd_frm_type_table_version k c t file en pen ho hr hl hview hb hm
  refine ⟨r, e, ?_⟩
  rw [h, hcon, b64, b65]
  simp only [MY_UUID_SIZE, and_self, if_true, s66]

/-- A segment of 65535 bytes that is one version record is decoded, and the
metadata it yields has a stored size of 65535 bytes. -/
theorem read_big_version (p : List uchar) (hp : p.length = 65531) :
    Extra2_info.read frmCodes Extra2_info.empty (header64 65535 ++ extra2_record 0 p) 65599 =
      some (false, { Extra2_info.empty with version := some p, read_size := 65535 }) ∧
    ({ Extra2_info.empty with version := some p, read_size := 65535 } :
      Extra2_info).store_size = 65535 := by
  have hh : (header64 65535).length = 64 := by decide
  have hr : (extra2_record 0 p).length = 65535 := by
    simp [extra2_record, hp]
  have h4 : uint2korr (header64 65535 ++ extra2_record 0 p) 4 = 65535 := by
    unfold uint2korr
    rw [byteAt_append_left _ _ _ (by rw [hh]; omega),
      byteAt_append_left _ _ _ (by rw [hh]; omega)]
    decide
  have hm : byteAt (header64 65535 ++ extra2_record 0 p) 64 ≠ OLD_FRM_MARK := by
    rw [byteAt_append_right _ _ _ (by rw [hh]), hh]
    simp [extra2_record, byteAt, toByte, OLD_FRM_MARK]
  have hseg : slice (header64 65535 ++ extra2_record 0 p) 64
      (uint2korr (header64 65535 ++ extra2_record 0 p) 4) =
      records_bytes [(0, p)] := by
    rw [h4]
    unfold slice
    rw [List.drop_left' hh, List.take_of_length_le (by rw [hr])]
    simp [records_bytes]
  have hok : ∀ r ∈ [((0 : Nat), p)], rec_ok r := by
    intro r h
    rw [List.mem_singleton.mp h]
    exact ⟨by simp, by simp only [hp]; omega, by simp only [hp]; omega⟩
  refine ⟨?_, ?_⟩
  · rw [read_of_records frmCodes Extra2_info.empty _ 65599 [(0, p)] (by rw [h4])
      (by simp only [List.length_append, hh, hr]; omega) hm hseg hok, h4]
    simp only [read_records]
    have hv := read_switch_version frmCodes (by decide) p.length p
      { Extra2_info.empty with read_size := 65535 }
    have e0 : frmCodes.EXTRA2_TABLEDEF_VERSION = 0 := rfl
    rw [e0] at hv
    rw [hv]
    rfl
  · simp only [Extra2_info.store_size, Extra2_info.fields, Extra2_info.empty, List.map_cons,
      List.map_nil, List.sum_cons, List.sum_nil, store_size_of, hp]
    rfl

/-- C33 (the reader accepts what the writer asserts against). On `image_big`,
whose declared segment length is 65535, `Extra2_info::read`, started with no
field set, succeeds; `Extra2_info::write` of the metadata it yields writes
65535 bytes, more than the `0xffff - FRM_HEADER_SIZE - 4 = 65467` of its
assertion. -/
theorem read_result_exceeds_write_limit :
    Extra2_info.read frmCodes Extra2_info.empty image_big 65599 =
      some (false, { Extra2_info.empty with version := some big_version, read_size := 65535 }) ∧
    (({ Extra2_info.empty with version := some big_version, read_size := 65535 } :
      Extra2_info).write frmCodes image_big 65599).2.2.write_size = 65535 ∧
    65535 - FRM_HEADER_SIZE - 4 = 65467 ∧ 65467 < 65535 := by
  have hp : big_version.length = 65531 := List.length_replicate _ _
  obtain ⟨h1, h2⟩ := read_big_version big_version hp
  refine ⟨h1, ?_, by decide, by decide⟩
  rw [write_size_eq_store_size_aux, h2]

/-! ## The theorems at concrete inputs -/

/-- Witness of C1: the version and system period of `info_vs` survive the round
trip through `buf_11`. -/
theorem read_write_roundtrip_witness :
    Extra2_info.read frmCodes Extra2_info.empty
        (info_vs.write frmCodes buf_11 buf_11.length).1
        (info_vs.write frmCodes buf_11 buf_11.length).1.length =
      some (false, { info_vs with read_size := info_vs.store_size, write_size := 0 }) :=
  (read_write_roundtrip frmCodes (by decide) info_vs buf_11
    (by
      intro p hp
      simp only [Extra2_info.fields, info_vs, List.mem_cons, List.mem_singleton,
        List.not_mem_nil, Option.some.injEq, reduceCtorEq, or_false, false_or] at hp
      rcases hp with rfl | rfl <;> decide)
    (by
      intro p hp
      simp only [info_vs, Option.some.injEq] at hp
      subst hp
      decide)
    (by decide) (by decide)).1

/-- Witness of C3: `view_file` is a view whatever outputs are asked for. -/
theorem dd_frm_type_view_witness :
    dd_frm_type frmConsts frmCodes none view_file true true true =
      some { type := Table_type.TABLE_TYPE_VIEW,
             engine_name := some ⟨some [], 0⟩,
             partition_engine_name := some ⟨none, 0⟩,
             table_version := some ⟨none, 0⟩,
             trace := [FrmEvent.file_open, FrmEvent.file_read, FrmEvent.file_close] } :=
  dd_frm_type_view frmConsts frmCodes none view_file true true true rfl rfl
    (by decide) (by decide)

/-- Witness of C4: a 67-byte buffer cannot hold a 5-byte segment. -/
theorem read_truncated_witness :
    Extra2_info.read frmCodes Extra2_info.empty image_version 67 =
      some (true, { Extra2_info.empty with read_size := 5 }) :=
  (read_truncated frmCodes Extra2_info.empty image_version 67 (by decide)).1

/-- Witness of C5: the segment of `image_version` is the one record decoded. -/
theorem read_exact_landing_witness :
    ∃ recs : List Extra2Record, (∀ r ∈ recs, rec_ok r) ∧
      slice image_version 64 (uint2korr image_version 4) = records_bytes recs ∧
      read_records frmCodes recs
          { Extra2_info.empty with read_size := uint2korr image_version 4 } =
        (false, { version := some [1, 2, 3], read_size := 5 }) :=
  (read_exact_landing frmCodes Extra2_info.empty image_version 69 (by decide) (by decide)).1
    { version := some [1, 2, 3], read_size := 5 } (by decide)

/-- Counterexample to C6 as stated: the segment of `image_slash_short_ext` is a
record with length byte 0 and extended length 5, and `read` succeeds on it,
because the segment starts with the old-frm character. -/
theorem read_extended_length_floor_counterexample :
    byteAt image_slash_short_ext 65 = 0 ∧ uint2korr image_slash_short_ext 66 = 5 ∧
    Extra2_info.read frmCodes Extra2_info.empty image_slash_short_ext 68 =
      some (false, { Extra2_info.empty with read_size := 4 }) := by
  decide

/-- Witness of C6 (amended): the same record with the version tag makes `read`
fail. -/
theorem read_extended_length_floor_witness :
    ∃ out, Extra2_info.read frmCodes Extra2_info.empty image_short_ext 68 = some (true, out) :=
  (read_extended_length_floor frmCodes Extra2_info.empty image_short_ext 68
    (by decide) (by decide)).1 [] 0 5 0 [] (by decide) (by decide) (by decide)

/-- Counterexample to C7 as stated: `'/'` is an unrecognised tag below
`EXTRA2_ENGINE_IMPORTANT`; with a record of that tag in front, `read` succeeds
and populates nothing, while without that record it populates the version. -/
theorem read_important_tag_gate_counterexample :
    47 ∉ frmCodes.known ∧ 47 < frmCodes.EXTRA2_ENGINE_IMPORTANT ∧
    slice image_slash_skip 64 6 = records_bytes [(47, [9]), (0, [7])] ∧
    slice image_skipped 64 3 = records_bytes [(0, [7])] ∧
    Extra2_info.read frmCodes Extra2_info.empty image_slash_skip 70 =
      some (false, { Extra2_info.empty with read_size := 6 }) ∧
    Extra2_info.read frmCodes Extra2_info.empty image_skipped 67 =
      some (false, { version := some [7], read_size := 3 }) := by
  decide

/-- Witness of C7 (amended): a record of the unrecognised tag 6 is skipped. -/
theorem read_important_tag_gate_witness :
    ∃ b out out2,
      Extra2_info.read frmCodes Extra2_info.empty image_skip 70 = some (b, out) ∧
      Extra2_info.read frmCodes Extra2_info.empty image_skipped 67 = some (b, out2) ∧
      out.fields = out2.fields :=
  (read_important_tag_gate frmCodes Extra2_info.empty image_skip image_skipped 70 67
    [] [(0, [7])] 6 [9] (by decide) (by decide) (by decide) (by decide) (by decide)
    (by decide) (by decide) (by decide) (by decide) (by decide)).1
    (by decide) (by decide) (by decide)

/-- Counterexample to C8 as stated: `read` succeeds on a segment that starts
with the old-frm character and contains two gis records, and on a segment with
two partition-engine records, of which the last one is kept. -/
theorem read_at_most_once_counterexample :
    slice image_slash_two_gis 64 9 = records_bytes [(47, [0]), (2, [9]), (2, [8])] ∧
    Extra2_info.read frmCodes Extra2_info.empty image_slash_two_gis 73 =
      some (false, { Extra2_info.empty with read_size := 9 }) ∧
    slice image_two_engine 64 6 = records_bytes [(1, [9]), (1, [8])] ∧
    Extra2_info.read frmCodes Extra2_info.empty image_two_engine 70 =
      some (false, { engine := some [8], read_size := 6 }) := by
  decide

/-- Witness of C8 (amended): two gis records make `read` fail. -/
theorem read_at_most_once_witness :
    ∃ out, Extra2_info.read frmCodes Extra2_info.empty image_two_gis 70 = some (true, out) :=
  read_at_most_once frmCodes (by decide) Extra2_info.empty image_two_gis 70 [] [] 2
    [9] [8] [] (by decide) (by decide) (by decide) (by decide) (by decide)

/-- Counterexample to C9 as stated: with a version of 2 bytes set before the
call, `read` succeeds on a segment that starts with the old-frm character and
holds a version record of 3 bytes. -/
theorem read_version_idempotence_counterexample :
    slice image_slash_version3 64 8 = records_bytes [(47, [0]), (0, [1, 2, 3])] ∧
    Extra2_info.read frmCodes info_preset image_slash_version3 72 =
      some (false, { info_preset with read_size := 8 }) := by
  decide

/-- Witness of C9 (amended): with a version of 2 bytes set before the call, a
version record of 3 bytes makes `read` fail. -/
theorem read_version_idempotence_witness :
    ∃ out, Extra2_info.read frmCodes info_preset image_version3 69 = some (true, out) :=
  (read_version_idempotence frmCodes (by decide) info_preset [5, 5] rfl).1
    image_version3 69 [] [1, 2, 3] [] (by decide) (by decide) (by decide) (by decide)
    (by decide)

/-- Witness of C11: the segment written for `info_vs` is its version record
followed by its system-period record. -/
theorem write_canonical_order_witness :
    slice (info_vs.write frmCodes buf_11 75).1 64 ((info_vs.write frmCodes buf_11 75).2.1 - 64) =
      [0, 3, 1, 2, 3, 4, 4, 0, 0, 1, 0] :=
  (write_canonical_order frmCodes info_vs buf_11 75 (by decide)).1.trans (by decide)

/-- Witness of C14: `zero_file` has no binary signature and yields Normal with
empty outputs. -/
theorem dd_frm_type_header_mismatch_witness :
    dd_frm_type frmConsts frmCodes none zero_file true true true =
      some { type := Table_type.TABLE_TYPE_NORMAL,
             engine_name := some ⟨some [], 0⟩,
             partition_engine_name := some ⟨none, 0⟩,
             table_version := some ⟨none, 0⟩,
             trace := [FrmEvent.file_open, FrmEvent.file_read, FrmEvent.file_close] } :=
  dd_frm_type_header_mismatch frmConsts frmCodes none zero_file true true true rfl rfl
    (by decide) (by decide) (by decide)

/-- Witness of C15: the resolver knows the engine id 12 of `legacy_file`, and its
name is the output. -/
theorem dd_frm_type_modern_witness :
    ∃ r, dd_frm_type frmConsts frmCodes (some thd_resolved) legacy_file true true true = some r ∧
      r.engine_name = some ⟨some [97, 98, 99], 3⟩ ∧
      r.partition_engine_name = some ⟨none, 0⟩ ∧
      r.type = Table_type.TABLE_TYPE_NORMAL ∧
      FrmEvent.file_fstat ∉ r.trace ∧ FrmEvent.file_seek ∉ r.trace ∧
      FrmEvent.read_string ∉ r.trace ∧ FrmEvent.resolve 12 ∈ r.trace :=
  dd_frm_type_modern frmConsts frmCodes thd_resolved legacy_file true true true [97, 98, 99]
    rfl rfl (by decide) (by decide) (by decide) (by decide) (by decide) (by decide)

/-- Counterexample to C16 as stated: `legacy_file` has a readable binary header
with legacy engine id 12, below `DB_TYPE_FIRST_DYNAMIC`, the resolver finds no
engine, and `dd_frm_type` outputs the engine name `"xyz"` of length 3 that the
legacy fallback finds in the file. -/
theorem dd_frm_type_unresolved_counterexample :
    byteAt legacy_file.content 3 = 12 ∧ 12 < frmConsts.DB_TYPE_FIRST_DYNAMIC ∧
    thd_unresolved.ha_resolve_by_legacy_type 12 = none ∧
    dd_frm_type frmConsts frmCodes (some thd_unresolved) legacy_file true false false =
      some { type := Table_type.TABLE_TYPE_NORMAL,
             engine_name := some ⟨some [120, 121, 122], 3⟩,
             partition_engine_name := none,
             table_version := none,
             trace := [FrmEvent.file_open, FrmEvent.file_read, FrmEvent.resolve 12,
               FrmEvent.file_fstat, FrmEvent.file_seek, FrmEvent.read_string,
               FrmEvent.my_free, FrmEvent.file_close] } := by
  decide

/-- Witness of C16 (amended): with the resolver failing on `sequence_file`, which
declares no extra bytes and whose legacy fallback reads inside the image only,
the engine name stays empty and the type is Sequence. -/
theorem dd_frm_type_unresolved_witness :
    frm_legacy_in_bounds frmConsts frmCodes (sequence_file.content ++ [0])
      (byteAt sequence_file.content 3) (frm_init true true true) ∧
    ∃ r, dd_frm_type frmConsts frmCodes (some thd_unresolved) sequence_file true true true
        = some r ∧
      r.type = Table_type.TABLE_TYPE_SEQUENCE ∧
      r.engine_name = some ⟨some [], 0⟩ := by
  refine ⟨by decide, ?_⟩
  obtain ⟨r, h1, h2, _, h4⟩ := dd_frm_type_unresolved frmConsts frmCodes thd_unresolved
    sequence_file true true true rfl rfl (by decide) (by decide) (by decide) (by decide) rfl
    (fun _ _ _ => by decide)
  exact ⟨r, h1, h2, h4 (by decide)⟩

/-- Counterexample to C17 as stated: `short_file` opens and holds 10 bytes, fewer
than the 82 of the minimum header, and `dd_frm_type` returns Normal. -/
theorem dd_frm_type_unreadable_header_counterexample :
    short_file.open_ok = true ∧ short_file.content.length = 10 ∧
    dd_frm_type frmConsts frmCodes none short_file false false false =
      some { type := Table_type.TABLE_TYPE_NORMAL,
             engine_name := none,
             partition_engine_name := none,
             table_version := none,
             trace := [FrmEvent.file_open, FrmEvent.file_read, FrmEvent.file_close] } := by
  decide

/-- Witness of C17 (amended): `short_file` yields Normal with empty outputs. -/
theorem dd_frm_type_unreadable_header_witness :
    dd_frm_type frmConsts frmCodes none short_file true true true =
      some { type := Table_type.TABLE_TYPE_NORMAL,
             engine_name := some ⟨some [], 0⟩,
             partition_engine_name := some ⟨none, 0⟩,
             table_version := some ⟨none, 0⟩,
             trace := [FrmEvent.file_open, FrmEvent.file_read, FrmEvent.file_close] } :=
  dd_frm_type_unreadable_header frmConsts frmCodes none short_file true true true rfl
    (Or.inr (by decide))

/-- Counterexample to C19 as stated: on `image_version_stray` the call on the
empty metadata fails on the leftover byte with the version populated, and on
`image_period1` it fails on the system-period length with the system period
populated. -/
theorem read_failure_state_counterexample :
    Extra2_info.empty.fields = List.replicate 10 none ∧
    Extra2_info.read frmCodes Extra2_info.empty image_version_stray 70 =
      some (true, { Extra2_info.empty with version := some [1, 2, 3], read_size := 6 }) ∧
    Extra2_info.read frmCodes Extra2_info.empty image_period1 67 =
      some (true, { Extra2_info.empty with system_period := some [9], read_size := 3 }) := by
  decide

/-- Witness of C19 (amended): the failure on `image_version_stray`, whose
segment is a version record and one stray byte, is past the size test and
leaves the metadata as the decoded records and the point of failure left it. -/
theorem read_failure_state_witness :
    (70 < FRM_HEADER_SIZE + uint2korr image_version_stray 4 ∧
      ({ Extra2_info.empty with version := some [1, 2, 3], read_size := 6 } : Extra2_info) =
        { Extra2_info.empty with read_size := uint2korr image_version_stray 4 } ∧
      ({ Extra2_info.empty with version := some [1, 2, 3], read_size := 6 } :
        Extra2_info).fields = Extra2_info.empty.fields) ∨
    (FRM_HEADER_SIZE + uint2korr image_version_stray 4 ≤ 70 ∧
     ∃ (recs : List Extra2Record) (rest : List uchar), (∀ r ∈ recs, rec_ok r) ∧
      slice image_version_stray 64 (uint2korr image_version_stray 4) =
        records_bytes recs ++ rest ∧
      (read_records frmCodes recs
        { Extra2_info.empty with read_size := uint2korr image_version_stray 4 }).1 = false ∧
      ((rest ≠ [] ∧
          (¬ ∃ (t : Nat) (p more : List uchar),
            rec_ok (t, p) ∧ rest = extra2_record t p ++ more) ∧
          ({ Extra2_info.empty with version := some [1, 2, 3], read_size := 6 } : Extra2_info) =
            (read_records frmCodes recs
              { Extra2_info.empty with read_size := uint2korr image_version_stray 4 }).2) ∨
        ∃ (t : Nat) (p more : List uchar), rec_ok (t, p) ∧
          rest = extra2_record t p ++ more ∧
          (read_switch frmCodes t p.length p
            (read_records frmCodes recs
              { Extra2_info.empty with read_size := uint2korr image_version_stray 4 }).2).1
            = true ∧
          ({ Extra2_info.empty with version := some [1, 2, 3], read_size := 6 } : Extra2_info) =
            (read_switch frmCodes t p.length p
              (read_records frmCodes recs
                { Extra2_info.empty with read_size := uint2korr image_version_stray 4 }).2).2)) :=
  read_failure_state frmCodes Extra2_info.empty image_version_stray 70
    { Extra2_info.empty with version := some [1, 2, 3], read_size := 6 } (by decide) (by decide)

/-- Witness of C20: `image_old_frm` starts its segment with the old-frm
character; `read` succeeds and sets no field, though the bytes after it are no
records. -/
theorem read_old_frm_witness :
    Extra2_info.read frmCodes Extra2_info.empty image_old_frm 69 =
      some (false, { Extra2_info.empty with read_size := 5 }) :=
  (read_old_frm frmCodes Extra2_info.empty image_old_frm 69 (by decide) (by decide)).1

/-- Counterexample to C21 as stated: the segment of `image_slash_period1`
contains a system-period record of 1 byte, where `2 * frm_fieldno_size` is 4, and
`read` succeeds on it, because the segment starts with the old-frm character. -/
theorem read_system_period_width_counterexample :
    slice image_slash_period1 64 (uint2korr image_slash_period1 4) =
      records_bytes [(47, [9]), (frmCodes.EXTRA2_PERIOD_FOR_SYSTEM_TIME, [9])] ∧
    2 * frmCodes.frm_fieldno_size = 4 ∧
    Extra2_info.read frmCodes Extra2_info.empty image_slash_period1 70 =
      some (false, { Extra2_info.empty with read_size := 6 }) := by
  decide

/-- Witness of C21 (amended): the system-period record of 1 byte after a gis
record makes `read` fail. -/
theorem read_system_period_width_witness :
    ∃ out, Extra2_info.read frmCodes Extra2_info.empty image_gis_period1 70 = some (true, out) :=
  read_system_period_width frmCodes (by decide) Extra2_info.empty image_gis_period1 70
    [(2, [7])] [] [9] [] (by decide) (by decide) (by decide) (by decide) (by decide)

/-- Witness of C30: writing `info_vs` into a buffer of 90 bytes 255 leaves the
header and the bytes from offset 75 on, and the empty metadata writes nothing. -/
theorem write_frame_witness :
    (info_vs.write frmCodes buf_ff 90).1 =
      List.replicate 64 255 ++ [0, 3, 1, 2, 3, 4, 4, 0, 0, 1, 0] ++ List.replicate 15 255 ∧
    (Extra2_info.empty.write frmCodes buf_ff 90).1 = buf_ff ∧
    (Extra2_info.empty.write frmCodes buf_ff 90).2.1 = 64 :=
  ⟨by decide,
    ((write_frame frmCodes Extra2_info.empty buf_ff 90 (by decide)).2.2.2.2 (by decide)).1,
    ((write_frame frmCodes Extra2_info.empty buf_ff 90 (by decide)).2.2.2.2 (by decide)).2⟩

/-- Witness of C22: the version of `version_file` is its bytes 66..81. -/
theorem dd_frm_type_version_witness :
    ∃ r, dd_frm_type frmConsts frmCodes (some thd_resolved) version_file true true true
        = some r ∧
      r.table_version =
        some ⟨some [1, 2, 3, 4, 5, 6, 7, 8, 9, 10, 11, 12, 13, 14, 15, 16], 16⟩ :=
  dd_frm_type_version frmConsts frmCodes thd_resolved version_file true true
    rfl rfl (by decide) (by decide) (by decide) rfl

/-- Witness of C23: the second id 12 of `partition_file` resolves to `"abc"`,
which is the partition engine name, next to the engine name `"p"`. -/
theorem dd_frm_type_partition_witness :
    ∃ r, dd_frm_type frmConsts frmCodes (some thd_partition) partition_file true true true
        = some r ∧
      r.partition_engine_name = some ⟨some [97, 98, 99], 3⟩ ∧
      r.engine_name = some ⟨some [112], 1⟩ ∧
      r.type = Table_type.TABLE_TYPE_NORMAL ∧
      FrmEvent.file_fstat ∉ r.trace :=
  dd_frm_type_partition frmConsts frmCodes thd_partition partition_file true true [112]
    rfl rfl (by decide) (by decide) (by decide) rfl (by decide) (by decide) (by decide)
    (by decide)

/-- Witness of C25: with a session whose resolver fails, the name `"xyz"` of
`legacy_file` is output, 3 bytes where `NAME_CHAR_LEN` is 64; the legacy
fallback reads inside the 90-byte image only. -/
theorem dd_frm_type_name_bounded_witness :
    frm_legacy_in_bounds frmConsts frmCodes (legacy_file.content ++ [0])
      (byteAt legacy_file.content 3) (frm_init true true true) ∧
    ∃ r, dd_frm_type frmConsts frmCodes (some thd_unresolved) legacy_file true true true
        = some r ∧
      r.engine_name = some ⟨some [120, 121, 122], 3⟩ ∧
      uint2korr (legacy_file.content ++ [0]) (legacy_q (legacy_file.content ++ [0])) = 3 ∧
      3 ≤ frmConsts.NAME_CHAR_LEN := by
  refine ⟨by decide, ?_⟩
  obtain ⟨r, e, _, _⟩ := dd_frm_type_name_bounded frmConsts frmCodes (some thd_unresolved)
    legacy_file true true true (Or.inl (by simp)) (fun _ _ _ => by decide)
  have hv : dd_frm_type frmConsts frmCodes (some thd_unresolved) legacy_file true true true =
      some { type := Table_type.TABLE_TYPE_NORMAL,
             engine_name := some ⟨some [120, 121, 122], 3⟩,
             partition_engine_name := some ⟨none, 0⟩,
             table_version := some ⟨none, 0⟩,
             trace := [FrmEvent.file_open, FrmEvent.file_read, FrmEvent.resolve 12,
               FrmEvent.file_fstat, FrmEvent.file_seek, FrmEvent.read_string,
               FrmEvent.my_free, FrmEvent.file_close] } := by decide
  rw [hv] at e
  cases e
  exact ⟨_, hv, rfl, by decide, by decide⟩

/-- Counterexample to C28 as stated: in `wrap_file` the plain sum `p` is
`83 + 0xFFFFFFFF + 0 = 4294967378`, an offset that the 90 bytes of the image do
not have, while `dd_frm_type` takes the record offset modulo `2^32`: `p` is 82
and `q` is 84, every offset it reads lies inside the image, and it outputs the
name `"xyz"` of length 3 found there. -/
theorem dd_frm_type_legacy_name_counterexample :
    uint4korr (wrap_file.content ++ [0]) 55 = 8 ∧
    legacy_p_plain (wrap_file.content ++ [0]) = 4294967378 ∧
    (wrap_file.content ++ [0]).length = 90 ∧
    legacy_p (wrap_file.content ++ [0]) = 82 ∧
    legacy_q (wrap_file.content ++ [0]) = 84 ∧
    uint2korr (wrap_file.content ++ [0]) 84 = 3 ∧
    frm_legacy_in_bounds frmConsts frmCodes (wrap_file.content ++ [0])
      (byteAt wrap_file.content 3) (frm_init true false false) ∧
    dd_frm_type frmConsts frmCodes none wrap_file true false false =
      some { type := Table_type.TABLE_TYPE_NORMAL,
             engine_name := some ⟨some [120, 121, 122], 3⟩,
             partition_engine_name := none,
             table_version := none,
             trace := [FrmEvent.file_open, FrmEvent.file_read, FrmEvent.file_fstat,
               FrmEvent.file_seek, FrmEvent.read_string, FrmEvent.my_free,
               FrmEvent.file_close] } := by
  decide

/-- Witness of C28 (amended): with the offsets taken as the code takes them,
`p` is 82 and `q` is 84 in `wrap_file`, every offset read lies inside the
90-byte image, and the name is the 3 bytes at 86. -/
theorem dd_frm_type_legacy_name_witness :
    legacy_p (wrap_file.content ++ [0]) = 82 ∧ legacy_q (wrap_file.content ++ [0]) = 84 ∧
    frm_legacy_in_bounds frmConsts frmCodes (wrap_file.content ++ [0])
      (byteAt wrap_file.content 3) (frm_init true false false) ∧
    ∃ r, dd_frm_type frmConsts frmCodes none wrap_file true false false = some r ∧
      r.engine_name = some ⟨some [120, 121, 122], 3⟩ := by
  refine ⟨by decide, by decide, by decide, ?_⟩
  obtain ⟨r, h1, h2⟩ := dd_frm_type_legacy_name frmConsts frmCodes none wrap_file false false
    rfl rfl (by decide) (by decide) (by decide) (by intro t h; cases h) rfl rfl rfl
    (Or.inr ⟨rfl, rfl⟩) (by decide)
  refine ⟨r, h1, ?_⟩
  rw [h2]
  decide

/-- Witness of C26: a version record and a gis record are decoded to the same
metadata in both orders. -/
theorem read_order_independent_witness :
    ∃ out,
      Extra2_info.read frmCodes Extra2_info.empty
        (header64 8 ++ [0, 3, 1, 2, 3, 2, 1, 7]) 72 = some (false, out) ∧
      Extra2_info.read frmCodes Extra2_info.empty
        (header64 8 ++ [2, 1, 7, 0, 3, 1, 2, 3]) 72 = some (false, out) ∧
      out.version = some [1, 2, 3] ∧ out.gis = some [7] ∧ out.engine = none := by
  obtain ⟨out, h1, h2, h3, h4⟩ := read_order_independent frmCodes (by decide)
    [(0, [1, 2, 3]), (2, [7])] [(2, [7]), (0, [1, 2, 3])]
    (header64 8 ++ [0, 3, 1, 2, 3, 2, 1, 7]) (header64 8 ++ [2, 1, 7, 0, 3, 1, 2, 3]) 72 72
    (List.Perm.swap _ _ _) (by decide) (by decide) (by decide) (by decide)
    (by decide) (by decide) (by decide) (by decide) (by decide) (by decide)
  exact ⟨out, h1, h2, h3 (0, [1, 2, 3]) (by simp), h3 (2, [7]) (by simp),
    h4 Extra2Case.engine (by decide)⟩

/-- Witness of C31: `info_v16`, which has a gis field too, written into
`buf_bin`, puts its version record at offset 64, and `dd_frm_type` on the
written file outputs that version. -/
theorem write_version_sniffed_witness :
    byteAt (info_v16.write frmCodes buf_bin 90).1 64 = 0 ∧
    byteAt (info_v16.write frmCodes buf_bin 90).1 65 = 16 ∧
    slice (info_v16.write frmCodes buf_bin 90).1 66 16 =
      [1, 2, 3, 4, 5, 6, 7, 8, 9, 10, 11, 12, 13, 14, 15, 16] ∧
    ∃ r, dd_frm_type frmConsts frmCodes (some thd_resolved) written_file true true true
        = some r ∧
      r.table_version =
        some ⟨some [1, 2, 3, 4, 5, 6, 7, 8, 9, 10, 11, 12, 13, 14, 15, 16], 16⟩ := by
  obtain ⟨h1, h2, h3, h4⟩ := write_version_sniffed frmCodes (by decide) info_v16 buf_bin 90
    [1, 2, 3, 4, 5, 6, 7, 8, 9, 10, 11, 12, 13, 14, 15, 16] rfl rfl (by decide)
  exact ⟨h1, h2, h3, h4 frmConsts thd_resolved written_file true true rfl rfl rfl
    (by decide) (by decide) rfl⟩

/-- Witness of C32: a 64-byte buffer of zeros declares an empty segment, and
`read` succeeds on it with no field set. -/
theorem read_empty_segment_witness :
    Extra2_info.read frmCodes Extra2_info.empty (List.replicate 64 0) 64 =
      some (false, Extra2_info.empty) :=
  (read_empty_segment frmCodes Extra2_info.empty (List.replicate 64 0) 64
    (by decide) (by decide)).2.1

end Datadict
